import Mathlib

/-!
Verification development for the `htmlentity` crate (HTML entity codec).

The Rust sources (src/entity.rs, src/types.rs) are shallowly embedded below:

* bytes are `Nat` (values `< 256` where it matters, stated as hypotheses);
* Rust `char` values are `Nat` code points; `char::from_u32` becomes
  `char_from_u32` over `is_scalar`;
* the callback-driven UTF-8 scanner `loop_utf8_bytes` is embedded as the
  list of events it hands to the callback (`loop_utf8_bytes` below); the
  callbacks used by the crate never abort the scan, so this is faithful;
* fallible Rust functions returning `AnyhowResult` become `Option`
  (the error payloads are strings that no caller inspects; errors collected
  by `decode` are kept as their byte ranges);
* the generated table module `crate::data` (`ENTITIES`,
  `LETTER_ORDERED_ENTITIES`, `FIRST_LETTER_POSITION`) is not part of the
  sources; following the spec it is modelled as an explicit `EntityData`
  value passed to every function that consults it;
* loops with mutable locals become structural recursions over the remaining
  input carrying the locals; `slice`, `binary_search`, and the radix
  formatter use fuel or take/drop where Rust uses unbounded loops or
  indexing, which keeps every definition executable by `rfl`/`decide`.
-/

/-- Byte of the input stream (`u8` in the source). -/
abbrev Byte := Nat

/-- Inclusive byte range `RangeInclusive<usize>` (`CodeRange` in src/types.rs). -/
abbrev CodeRange := Nat × Nat

/-- Unicode scalar value test: `0..=0x10FFFF` excluding the surrogates,
exactly the domain of Rust `char`. -/
def is_scalar (n : Nat) : Bool :=
  n < 0x110000 && !(0xD800 ≤ n && n ≤ 0xDFFF)

/-- Embedding of `std::char::from_u32`. -/
def char_from_u32 (n : Nat) : Option Nat :=
  if is_scalar n then some n else none

/-- Embedding of `char::encode_utf8` / `char_to_utf8_bytes` (src/entity.rs:58):
the standard UTF-8 encoding of a scalar value. -/
def char_to_utf8_bytes (c : Nat) : List Byte :=
  if c < 0x80 then [c]
  else if c < 0x800 then
    [0xC0 + (c >>> 6), 0x80 + (c &&& 0x3F)]
  else if c < 0x10000 then
    [0xE0 + (c >>> 12), 0x80 + ((c >>> 6) &&& 0x3F), 0x80 + (c &&& 0x3F)]
  else
    [0xF0 + (c >>> 18), 0x80 + ((c >>> 12) &&& 0x3F),
      0x80 + ((c >>> 6) &&& 0x3F), 0x80 + (c &&& 0x3F)]

/-- Rust `u8::is_ascii_alphabetic`. -/
def is_ascii_alphabetic (b : Byte) : Bool :=
  (65 ≤ b && b ≤ 90) || (97 ≤ b && b ≤ 122)

/-- Rust `u8::is_ascii_digit`. -/
def is_ascii_digit (b : Byte) : Bool :=
  48 ≤ b && b ≤ 57

/-- Rust `u8::is_ascii_alphanumeric`. -/
def is_ascii_alphanumeric (b : Byte) : Bool :=
  is_ascii_digit b || is_ascii_alphabetic b

/-- The hex-digit byte test used by `Entity::decode` (a match on the byte
ranges a-f, A-F and 0-9). -/
def is_hex_digit (b : Byte) : Bool :=
  (97 ≤ b && b ≤ 102) || (65 ≤ b && b ≤ 70) || is_ascii_digit b

/-- Value of one digit byte for `from_str_radix` (digits `0-9`, `a-z`, `A-Z`,
accepted when below the radix). -/
def digit_value (radix b : Nat) : Option Nat :=
  let v : Option Nat :=
    if 48 ≤ b && b ≤ 57 then some (b - 48)
    else if 97 ≤ b && b ≤ 122 then some (b - 87)
    else if 65 ≤ b && b ≤ 90 then some (b - 55)
    else none
  match v with
  | some d => if d < radix then some d else none
  | none => none

/-- Accumulate the numeric value of a digit string, `none` on an invalid digit. -/
def digits_value (radix : Nat) : List Byte → Nat → Option Nat
  | [], acc => some acc
  | b :: rest, acc =>
    match digit_value radix b with
    | some d => digits_value radix rest (acc * radix + d)
    | none => none

/-- Largest `i64` value; `i64::from_str_radix` fails beyond it. -/
def i64_max : Nat := 0x7FFFFFFFFFFFFFFF

/-- Semantic model of `i64::from_str_radix` on a byte string of digits
(the crate feeds only non-negative digit strings): the numeric value when
every byte is a valid digit and the value fits in `i64`, otherwise `none`. -/
def from_str_radix (radix : Nat) (bytes : List Byte) : Option Nat :=
  if bytes.isEmpty then none
  else
    match digits_value radix bytes 0 with
    | some v => if v ≤ i64_max then some v else none
    | none => none

/-- Embedding of `numbers_to_char` (src/entity.rs:80): parse the digits as an
`i64`, cast `as u32` (truncation modulo `2^32`), then `char::from_u32`. -/
def numbers_to_char (bytes : List Byte) (radix : Nat) : Option Nat :=
  if !bytes.isEmpty then
    match from_str_radix radix bytes with
    | some n => char_from_u32 (n % 4294967296)
    | none => none
  else none

/-- Lowercase digit byte for the radix formatter: `format!("{:x}", n)` uses
`0-9` then `a-f`; decimal uses `0-9`. -/
def radix_digit_byte (d : Nat) : Byte :=
  if d < 10 then 48 + d else 87 + d

/-- Fueled core of the radix formatter (the fuel only bounds the digit count;
`n + 1` digits always suffice). Produces most-significant digit first. -/
def to_radix_core (radix : Nat) : Nat → Nat → List Byte → List Byte
  | 0, _, acc => acc
  | fuel + 1, n, acc =>
    let d := radix_digit_byte (n % radix)
    let n2 := n / radix
    if n2 = 0 then d :: acc else to_radix_core radix fuel n2 (d :: acc)

/-- Embedding of `format!("{:x}", code).into_bytes()` (radix 16) and
`code.to_string().into_bytes()` (radix 10): no leading zeros, `0` for zero. -/
def to_radix_bytes (radix n : Nat) : List Byte :=
  to_radix_core radix (n + 1) n []

/-- Event stream of `loop_utf8_bytes` (src/entity.rs:102): each event is the
`Utf8ParsedData` with the `(start_index, index)` range handed to the callback. -/
inductive Utf8Item where
  | correct (ch : Nat) (s e : Nat)
  | wrong (s e : Nat)
deriving DecidableEq, Repr

/-- Start index of the range handed to the callback. -/
def Utf8Item.lo : Utf8Item → Nat
  | .correct _ s _ => s
  | .wrong s _ => s

/-- End index of the range handed to the callback. -/
def Utf8Item.hi : Utf8Item → Nat
  | .correct _ _ e => e
  | .wrong _ e => e

/-- State-machine core of `loop_utf8_bytes`: the mutable locals
`next_count`, `ch`, `start_index` of the Rust loop become arguments, `idx`
is the current byte index. The bit tests mirror the source: `byte >> 7 == 0`,
then `(byte >> 3) == 0b11110`, `(byte >> 4) == 0b1110`, `(byte >> 5) == 0b110`
(the source shifts the discriminant right incrementally). -/
def loop_utf8_go : List Byte → Nat → Nat → Nat → Nat → List Utf8Item
  | [], _, _, _, _ => []
  | b :: rest, idx, 0, _, _ =>
    if b >>> 7 == 0 then
      .correct b idx idx :: loop_utf8_go rest (idx + 1) 0 0 0
    else if b >>> 3 == 0b11110 then
      loop_utf8_go rest (idx + 1) 3 ((b &&& 0b111) <<< 18) idx
    else if b >>> 4 == 0b1110 then
      loop_utf8_go rest (idx + 1) 2 ((b &&& 0b1111) <<< 12) idx
    else if b >>> 5 == 0b110 then
      loop_utf8_go rest (idx + 1) 1 ((b &&& 0b11111) <<< 6) idx
    else
      .wrong idx idx :: loop_utf8_go rest (idx + 1) 0 0 0
  | b :: rest, idx, nc + 1, ch, si =>
    if b >>> 6 == 0b10 then
      let ch2 := ch + ((b &&& 0b111111) <<< (nc * 6))
      if nc == 0 then
        (match char_from_u32 ch2 with
          | some c => Utf8Item.correct c si idx
          | none => Utf8Item.wrong si idx) :: loop_utf8_go rest (idx + 1) 0 0 0
      else
        loop_utf8_go rest (idx + 1) nc ch2 si
    else
      .wrong si idx :: loop_utf8_go rest (idx + 1) 0 0 0

/-- Embedding of `loop_utf8_bytes`: the ordered event stream handed to the
callback (none of the callbacks of the crate aborts the scan). -/
def loop_utf8_bytes (bytes : List Byte) : List Utf8Item :=
  loop_utf8_go bytes 0 0 0 0

/-- Index just past the last scanned item: the scanned events always tile
`[0, items_end)`; bytes from `items_end` on are an incomplete trailing
sequence the scanner never reports. -/
def items_end (items : List Utf8Item) : Nat :=
  items.foldl (fun _ it => it.hi + 1) 0

/-- EntityType (src/entity.rs:769). -/
inductive EntityType where
  | named
  | hex
  | decimal
deriving DecidableEq, Repr

/-- CharEntity (src/entity.rs:777): entity kind plus interior payload bytes
(no `&`, no `#`/`#x`, no `;`). -/
structure CharEntity where
  entity_type : EntityType
  entity_data : List Byte
deriving DecidableEq, Repr

/-- CharEntity::prefix_len (src/entity.rs:784). -/
def CharEntity.prefixLen (e : CharEntity) : Nat :=
  match e.entity_type with
  | .named => 0
  | .hex => 2
  | .decimal => 1

/-- Bytes of the form marker written after `&`: nothing, `#x`, or `#`. -/
def CharEntity.markerBytes (e : CharEntity) : List Byte :=
  match e.entity_type with
  | .named => []
  | .hex => [35, 120]
  | .decimal => [35]

/-- CharEntity::to_bytes / write_bytes (src/entity.rs:792,850): `&`, the form
marker, the payload, `;`. -/
def CharEntity.to_bytes (e : CharEntity) : List Byte :=
  38 :: e.markerBytes ++ e.entity_data ++ [59]

/-- CharEntity::write_bytes (src/entity.rs:792) appends `to_bytes` to the
buffer of the caller. -/
def CharEntity.write_bytes (e : CharEntity) (data : List Byte) : List Byte :=
  data ++ e.to_bytes

/-- CharEntity as IBytesTrait: `byte` (src/entity.rs:390), with the exact
branch structure over `prefix_len`. -/
def CharEntity.byte (e : CharEntity) (index : Nat) : Option Byte :=
  let pl := e.prefixLen
  if pl < index then
    let cur := index - pl - 1
    if cur < e.entity_data.length then e.entity_data[cur]?
    else if cur = e.entity_data.length then some 59
    else none
  else if index = 0 then some 38
  else
    match pl with
    | 1 => some 35
    | 2 => if index = 1 then some 35 else some 120
    | _ => none

/-- CharEntity as IBytesTrait: `bytes_len` (src/entity.rs:417). -/
def CharEntity.bytes_len (e : CharEntity) : Nat :=
  2 + e.prefixLen + e.entity_data.length

/-- EncodeType (src/entity.rs:684) with its `u8` discriminants. -/
inductive EncodeType where
  | Named
  | Hex
  | Decimal
  | NamedOrHex
  | NamedOrDecimal
deriving DecidableEq, Repr

/-- The `u8` value of each EncodeType bit-flag variant. -/
def EncodeType.toU8 : EncodeType → Nat
  | .Named => 1
  | .Hex => 2
  | .Decimal => 4
  | .NamedOrHex => 3
  | .NamedOrDecimal => 5

/-- EncodeFilterReturnData (src/types.rs:16). -/
abbrev EncodeFilterReturnData := Bool × Option (EntityType × List Byte)

/-- HTML_BYTES (src/entity.rs:15): `>` ↦ "gt", `<` ↦ "lt", `&` ↦ "amp"
(a hash map in the source; only lookups are performed). -/
def HTML_BYTES : List (Nat × List Byte) :=
  [(62, [103, 116]), (60, [108, 116]), (38, [97, 109, 112])]

/-- SPECIAL_BYTES (src/entity.rs:23): `"` ↦ "quot", `'` ↦ "apos" plus
HTML_BYTES. -/
def SPECIAL_BYTES : List (Nat × List Byte) :=
  [(34, [113, 117, 111, 116]), (39, [97, 112, 111, 115])] ++ HTML_BYTES

/-- filter_entity_set (src/entity.rs:694). -/
def filter_entity_set (charset : List (Nat × List Byte)) (encode_type : EncodeType)
    (ch : Nat) : EncodeFilterReturnData :=
  match charset.lookup ch with
  | some v =>
    if encode_type.toU8 &&& (EncodeType.Named).toU8 > 0 then
      (true, some (EntityType.named, v))
    else (true, none)
  | none => (false, none)

/-- CharacterSet (src/entity.rs:711). -/
inductive CharacterSet where
  | All
  | NonASCII
  | Html
  | SpecialChars
  | HtmlAndNonASCII
  | SpecialCharsAndNonASCII
deriving DecidableEq, Repr

/-- CharacterSet::filter (src/entity.rs:729). -/
def CharacterSet.filter (cs : CharacterSet) (ch : Nat) (encode_type : EncodeType) :
    EncodeFilterReturnData :=
  match cs with
  | .SpecialChars => filter_entity_set SPECIAL_BYTES encode_type ch
  | .Html => filter_entity_set HTML_BYTES encode_type ch
  | .NonASCII => (ch > 0xff, none)
  | .HtmlAndNonASCII =>
    let result : EncodeFilterReturnData := (ch > 0xff, none)
    if result.1 then result else filter_entity_set HTML_BYTES encode_type ch
  | .SpecialCharsAndNonASCII =>
    let result : EncodeFilterReturnData := (ch > 0xff, none)
    if result.1 then result else filter_entity_set SPECIAL_BYTES encode_type ch
  | .All => (true, none)

/-- CharacterSet::contains (src/entity.rs:753). -/
def CharacterSet.containsChar (cs : CharacterSet) (ch : Nat) : Bool :=
  match cs with
  | .SpecialChars => (SPECIAL_BYTES.lookup ch).isSome
  | .Html => (HTML_BYTES.lookup ch).isSome
  | .NonASCII => ch > 0xff
  | .HtmlAndNonASCII =>
    decide (ch > 0xff) || (HTML_BYTES.lookup ch).isSome
  | .SpecialCharsAndNonASCII =>
    decide (ch > 0xff) || (SPECIAL_BYTES.lookup ch).isSome
  | .All => true

/-- One record of the generated entity tables: `(name bytes, code point)`. -/
abbrev EntityRecord := List Byte × Nat

/-- Modelled from the spec: the generated table module `crate::data` is a
build-time artifact absent from the sources. Per spec §6 it consists of
`ENTITIES` (ordered by code ascending, preferred name first),
`LETTER_ORDERED_ENTITIES` (ordered by name, partitioned by first byte) and
`FIRST_LETTER_POSITION` (first byte ↦ `(start, end)` index pair, a hash map
modelled as an association list). -/
structure EntityData where
  ENTITIES : List EntityRecord
  LETTER_ORDERED_ENTITIES : List EntityRecord
  FIRST_LETTER_POSITION : List (Byte × (Nat × Nat))
deriving Repr

/-- Fueled embedding of Rust `slice::binary_search_by_key` over the code
column: returns `some index` on a hit. The fuel only bounds iterations;
`len + 1` always suffices since `right - left` shrinks every round. -/
def binary_search_go (tbl : List EntityRecord) (target : Nat) :
    Nat → Nat → Nat → Option Nat
  | 0, _, _ => none
  | fuel + 1, left, right =>
    if left < right then
      let mid := left + (right - left) / 2
      let code := (tbl.getD mid ([], 0)).2
      if code < target then binary_search_go tbl target fuel (mid + 1) right
      else if target < code then binary_search_go tbl target fuel left mid
      else some mid
    else none

/-- Rust `ENTITIES.binary_search_by_key(&char_code, |&(_, code)| code)`. -/
def binary_search_by_code (tbl : List EntityRecord) (target : Nat) : Option Nat :=
  binary_search_go tbl target (tbl.length + 1) 0 tbl.length

/-- The backward walk of encode_char (src/entity.rs:1061): while the previous
entry carries the same code, step to it. -/
def walk_back (tbl : List EntityRecord) (code : Nat) : Nat → Nat
  | 0 => 0
  | i + 1 => if (tbl.getD i ([], 0)).2 == code then walk_back tbl code i else i + 1

/-- encode_char (src/entity.rs:1053): named lookup via binary search plus
backward walk when the Named bit is set, then hex, then decimal. -/
def encode_char (d : EntityData) (ch : Nat) (encode_type : EncodeType) :
    Option CharEntity :=
  let et := encode_type.toU8
  let namedResult : Option CharEntity :=
    if et &&& (EncodeType.Named).toU8 > 0 then
      match binary_search_by_code d.ENTITIES ch with
      | some index =>
        let index := walk_back d.ENTITIES ch index
        some { entity_type := EntityType.named,
               entity_data := (d.ENTITIES.getD index ([], 0)).1 }
      | none => none
    else none
  match namedResult with
  | some e => some e
  | none =>
    if et &&& (EncodeType.Hex).toU8 > 0 then
      some { entity_type := EntityType.hex, entity_data := to_radix_bytes 16 ch }
    else if et &&& (EncodeType.Decimal).toU8 > 0 then
      some { entity_type := EntityType.decimal, entity_data := to_radix_bytes 10 ch }
    else none

/-- EncodedData (src/entity.rs:580): the original bytes plus the substitution
list. -/
structure EncodedData where
  inner_bytes : List Byte
  entities : List (CodeRange × CharEntity)
deriving Repr

/-- The substitution pushed for one scanner event by encode_with
(src/entity.rs:1194): `none` when the event keeps its source bytes. -/
def encode_filter_entity (d : EntityData) (encode_type : EncodeType)
    (filter_fn : Nat → EncodeType → EncodeFilterReturnData) :
    Utf8Item → Option (CodeRange × CharEntity)
  | .correct ch s e =>
    match filter_fn ch encode_type with
    | (true, some (entity_type, entity_data)) =>
      some ((s, e), { entity_type, entity_data })
    | (true, none) =>
      match encode_char d ch encode_type with
      | some entity => some ((s, e), entity)
      | none => none
    | (false, _) => none
  | .wrong _ _ => none

/-- encode_with (src/entity.rs:1188). -/
def encode_with (d : EntityData) (content : List Byte) (encode_type : EncodeType)
    (filter_fn : Nat → EncodeType → EncodeFilterReturnData) : EncodedData :=
  { inner_bytes := content
    entities :=
      (loop_utf8_bytes content).filterMap
        (encode_filter_entity d encode_type filter_fn) }

/-- encode (src/entity.rs:1126). -/
def encode (d : EntityData) (content : List Byte) (encode_type : EncodeType)
    (charset : CharacterSet) : EncodedData :=
  encode_with d content encode_type (fun ch et => charset.filter ch et)

/-- `content[s..=e]` as a list (`extend_from_slice` source range). -/
def byte_slice (content : List Byte) (s e1 : Nat) : List Byte :=
  (content.drop s).take (e1 - s)

/-- Bytes written for one scanner event by encode_with_to
(src/entity.rs:1244): the entity bytes on an encoded scalar, the source
bytes otherwise. -/
def encode_to_item_bytes (d : EntityData) (content : List Byte)
    (encode_type : EncodeType)
    (filter_fn : Nat → EncodeType → EncodeFilterReturnData) (it : Utf8Item) :
    List Byte :=
  match encode_filter_entity d encode_type filter_fn it with
  | some (_, entity) => entity.to_bytes
  | none => byte_slice content it.lo (it.hi + 1)

/-- encode_with_to (src/entity.rs:1238): write the bytes of each event into the
buffer of the caller. -/
def encode_with_to (d : EntityData) (content : List Byte) (encode_type : EncodeType)
    (filter_fn : Nat → EncodeType → EncodeFilterReturnData) (data : List Byte) :
    List Byte :=
  (loop_utf8_bytes content).foldl
    (fun acc it => acc ++ encode_to_item_bytes d content encode_type filter_fn it)
    data

/-- encode_to (src/entity.rs:1149). -/
def encode_to (d : EntityData) (content : List Byte) (encode_type : EncodeType)
    (charset : CharacterSet) (data : List Byte) : List Byte :=
  encode_with_to d content encode_type (fun ch et => charset.filter ch et) data

/-- NORMAL_NAME_ENTITY_BYTE (src/entity.rs:33): the ten hand-written names
(a hash map in the source; only lookups are performed). -/
def NORMAL_NAME_ENTITY_BYTE : List (List Byte × Nat) :=
  [([108, 116], 60), ([76, 84], 60),
   ([103, 116], 62), ([71, 84], 62),
   ([97, 109, 112], 38), ([65, 77, 80], 38),
   ([113, 117, 111, 116], 34), ([81, 85, 79, 84], 34),
   ([97, 112, 111, 115], 39),
   ([110, 98, 115, 112], 160)]

/-- The Named resolution step of Entity::decode (src/entity.rs:959): the
hand-written table first, then the first-letter bucket of
`LETTER_ORDERED_ENTITIES` searched by `position`. -/
def named_lookup (d : EntityData) (bytes : List Byte) : Option Nat :=
  match NORMAL_NAME_ENTITY_BYTE.lookup bytes with
  | some ch => some ch
  | none =>
    match d.FIRST_LETTER_POSITION.lookup (bytes.getD 0 0) with
    | some (start_index, end_index) =>
      match ((d.LETTER_ORDERED_ENTITIES.drop start_index).take
          (end_index - start_index)).findIdx? (fun p => p.1 == bytes) with
      | some find_index =>
        some ((d.LETTER_ORDERED_ENTITIES.getD (start_index + find_index) ([], 0)).2)
      | none => none
    | none => none

/-- Entity::decode (src/entity.rs:874): classify the interior bytes as a
named, decimal or hex token, then resolve it. Errors collapse to `none`. -/
def Entity.decode (d : EntityData) (bytes : List Byte) : Option Nat :=
  match bytes with
  | [] => none
  | first :: rest =>
    if is_ascii_alphabetic first then
      if rest.all is_ascii_alphanumeric then named_lookup d bytes else none
    else if first == 35 && !rest.isEmpty then
      match rest with
      | second :: rest2 =>
        if is_ascii_digit second then
          if rest2.all is_ascii_digit then numbers_to_char rest 10 else none
        else if second == 120 || second == 88 then
          if !rest2.isEmpty then
            if rest2.all is_hex_digit then numbers_to_char rest2 16 else none
          else none
        else none
      | [] => none
    else none

/-- DecodedData (src/entity.rs:317): original bytes, substitutions
`(range, (char, utf8 bytes))`, and the recorded error ranges (the error
values themselves are opaque `anyhow::Error`s; only their ranges are kept). -/
structure DecodedData where
  inner_bytes : List Byte
  entities : List (CodeRange × (Nat × List Byte))
  errors : List CodeRange
deriving Repr

/-- Loop of decode (src/entity.rs:1492): the mutable locals `is_in_entity`
and `start_index` together with the accumulated entity and error lists
become arguments; the final values of the two locals are returned alongside.
`content` stays whole for the `&content[start_index..idx]` slice. -/
def decode_loop (d : EntityData) (content : List Byte) :
    List Byte → Nat → Bool → Nat →
    List (CodeRange × (Nat × List Byte)) → List CodeRange →
    (List (CodeRange × (Nat × List Byte)) × List CodeRange × Bool × Nat)
  | [], _, is_in_entity, start_index, entities, errors =>
    (entities, errors, is_in_entity, start_index)
  | b :: rest, idx, is_in_entity, start_index, entities, errors =>
    if !is_in_entity then
      if b == 38 then decode_loop d content rest (idx + 1) true (idx + 1) entities errors
      else decode_loop d content rest (idx + 1) false start_index entities errors
    else
      if b == 59 then
        if start_index ≠ idx then
          match Entity.decode d (byte_slice content start_index idx) with
          | some decode_char =>
            decode_loop d content rest (idx + 1) false start_index
              (entities ++ [((start_index - 1, idx),
                (decode_char, char_to_utf8_bytes decode_char))]) errors
          | none =>
            decode_loop d content rest (idx + 1) false start_index entities
              (errors ++ [(start_index - 1, idx)])
        else
          decode_loop d content rest (idx + 1) false start_index entities errors
      else if b == 38 then
        decode_loop d content rest (idx + 1) true (idx + 1) entities
          (errors ++ [(start_index - 1, start_index - 1)])
      else
        decode_loop d content rest (idx + 1) true start_index entities errors

/-- decode (src/entity.rs:1487). -/
def decode (d : EntityData) (content : List Byte) : DecodedData :=
  let r := decode_loop d content content 0 false 0 [] []
  { inner_bytes := content, entities := r.1, errors := r.2.1 }

/-- Loop of decode_to (src/entity.rs:1556), writing into `data`; on
end-of-input inside an entity the open tail `content[start_index - 1..]`
is flushed. -/
def decode_to_loop (d : EntityData) (content : List Byte) :
    List Byte → Nat → Bool → Nat → List Byte → List Byte
  | [], _, is_in_entity, start_index, data =>
    if is_in_entity then data ++ content.drop (start_index - 1) else data
  | b :: rest, idx, is_in_entity, start_index, data =>
    if !is_in_entity then
      if b == 38 then decode_to_loop d content rest (idx + 1) true (idx + 1) data
      else decode_to_loop d content rest (idx + 1) false start_index (data ++ [b])
    else
      if b == 59 then
        match (if start_index ≠ idx then Entity.decode d (byte_slice content start_index idx)
          else none) with
        | some decode_char =>
          decode_to_loop d content rest (idx + 1) false start_index
            (data ++ char_to_utf8_bytes decode_char)
        | none =>
          decode_to_loop d content rest (idx + 1) false start_index
            (data ++ byte_slice content (start_index - 1) (idx + 1))
      else if b == 38 then
        decode_to_loop d content rest (idx + 1) true (idx + 1)
          (data ++ byte_slice content (start_index - 1) idx)
      else
        decode_to_loop d content rest (idx + 1) true start_index data

/-- decode_to (src/entity.rs:1556). -/
def decode_to (d : EntityData) (content : List Byte) (data : List Byte) : List Byte :=
  decode_to_loop d content content 0 false 0 data

/-- Interface of IBytesTrait (src/entity.rs:375) for the two substitution
payload types, as explicit data. -/
structure BytesLike (T : Type) where
  byte : T → Nat → Option Byte
  bytes_len : T → Nat
  bytesOf : T → List Byte
  dflt : T

/-- call_trait_method_bytes_len (src/entity.rs:268), inner loop. -/
def bytes_len_go {T : Type} (I : BytesLike T) (bytes : List Byte) :
    List (CodeRange × T) → Nat → Nat → Nat
  | [], start_index, len => len + (bytes.length - start_index)
  | (range, entity) :: rest, start_index, len =>
    bytes_len_go I bytes rest (range.2 + 1)
      (len + (range.1 - start_index) + I.bytes_len entity)

/-- call_trait_method_bytes_len (src/entity.rs:268). -/
def call_trait_method_bytes_len {T : Type} (I : BytesLike T) (bytes : List Byte)
    (entities : List (CodeRange × T)) : Nat :=
  if entities.isEmpty then bytes.length
  else bytes_len_go I bytes entities 0 0

/-- call_trait_method_byte (src/entity.rs:287), inner loop with the mutable
`prev_start_byte_index` and shrinking `index`. -/
def byte_go {T : Type} (I : BytesLike T) (bytes : List Byte) :
    List (CodeRange × T) → Nat → Nat → Option Byte
  | [], prev, index => bytes[prev + index]?
  | (range, entity) :: rest, prev, index =>
    let cur := prev + index
    if cur < range.1 then bytes[cur]?
    else
      let entity_len := I.bytes_len entity
      let cur_entity_index := cur - range.1
      if cur_entity_index < entity_len then I.byte entity cur_entity_index
      else byte_go I bytes rest (range.2 + 1) (cur_entity_index - entity_len)

/-- call_trait_method_byte (src/entity.rs:287). -/
def call_trait_method_byte {T : Type} (I : BytesLike T) (bytes : List Byte)
    (entities : List (CodeRange × T)) (index : Nat) : Option Byte :=
  if entities.isEmpty then bytes[index]?
  else byte_go I bytes entities 0 index

/-- DataIter state (src/entity.rs:443): every mutable field of the Rust
iterator; the backing `bytes` and `entities` are passed to `iter_next`. -/
structure DataIterState where
  only_bytes : Bool
  byte_index : Nat
  total_bytes : Nat
  entity_index : Nat
  total_entities : Nat
  byte_index_entity_looped : Nat
  byte_index_of_next_entity : Option Nat
deriving Repr

/-- gen_into_iter (src/entity.rs:243). -/
def gen_into_iter {T : Type} (bytes : List Byte) (entities : List (CodeRange × T)) :
    DataIterState :=
  let total_entities := entities.length
  let only_bytes := total_entities == 0
  { only_bytes
    byte_index := 0
    total_bytes := bytes.length
    entity_index := 0
    total_entities
    byte_index_entity_looped := 0
    byte_index_of_next_entity :=
      if only_bytes then none else (entities.head?.map (fun p => p.1.1)) }

/-- One item of the iterator: `(byte, Option (entity index, offset))`
(IterDataItem, src/types.rs:15). -/
abbrev IterDataItem := Byte × Option (Nat × Nat)

/-- The entity-walking arm of DataIter::next (src/entity.rs:479-501). The
`expect` panic on an exhausted entity is modelled as iterator end (it is
unreachable for states generated from a view). -/
def iter_entity_step {T : Type} (I : BytesLike T) (_bytes : List Byte)
    (entities : List (CodeRange × T)) (st : DataIterState) :
    Option (IterDataItem × DataIterState) :=
  let looped := st.byte_index_entity_looped
  let cur_entity := entities.getD st.entity_index ((0, 0), I.dflt)
  match I.byte cur_entity.2 looped with
  | none => none
  | some b =>
    let position := some (st.entity_index, looped)
    if looped = I.bytes_len cur_entity.2 - 1 then
      let entity_index := st.entity_index + 1
      if entity_index < st.total_entities then
        some ((b, position),
          { st with byte_index_entity_looped := 0,
                    entity_index,
                    byte_index := cur_entity.1.2 + 1,
                    byte_index_of_next_entity :=
                      some (entities.getD entity_index ((0, 0), I.dflt)).1.1 })
      else
        some ((b, position),
          { st with byte_index_entity_looped := 0,
                    entity_index,
                    byte_index := cur_entity.1.2 + 1,
                    only_bytes := true })
    else
      some ((b, position),
        { st with byte_index_entity_looped := looped + 1 })

/-- DataIter::next (src/entity.rs:457). -/
def iter_next {T : Type} (I : BytesLike T) (bytes : List Byte)
    (entities : List (CodeRange × T)) (st : DataIterState) :
    Option (IterDataItem × DataIterState) :=
  let cur := st.byte_index
  if cur < st.total_bytes then
    if st.only_bytes then
      some ((bytes.getD cur 0, none), { st with byte_index := cur + 1 })
    else if st.byte_index_entity_looped = 0 then
      match st.byte_index_of_next_entity with
      | none => none
      | some next =>
        if cur ≠ next then
          some ((bytes.getD cur 0, none), { st with byte_index := cur + 1 })
        else iter_entity_step I bytes entities st
    else iter_entity_step I bytes entities st
  else none

/-- Fueled unfolding of the iterator (the Rust iterator terminates; states
produced from a view emit one logical byte per step, so
`bytes_len + 1` fuel always suffices, see `iter_items_spec` below). -/
def iter_items {T : Type} (I : BytesLike T) (bytes : List Byte)
    (entities : List (CodeRange × T)) : Nat → DataIterState → List IterDataItem
  | 0, _ => []
  | fuel + 1, st =>
    match iter_next I bytes entities st with
    | none => []
    | some (item, st2) => item :: iter_items I bytes entities fuel st2

/-- Fuel that always suffices to drain the iterator of a view. -/
def iter_fuel {T : Type} (I : BytesLike T) (bytes : List Byte)
    (entities : List (CodeRange × T)) : Nat :=
  bytes.length + entities.foldl (fun acc p => acc + I.bytes_len p.2) 0 + 1

/-- The complete item stream of `into_iter` for a view. -/
def into_iter_items {T : Type} (I : BytesLike T) (bytes : List Byte)
    (entities : List (CodeRange × T)) : List IterDataItem :=
  iter_items I bytes entities (iter_fuel I bytes entities)
    (gen_into_iter bytes entities)

/-- IBytesTrait instance for the decoded substitution payload
`(char, ByteList)` (src/entity.rs:380). -/
def decodedBytesLike : BytesLike (Nat × List Byte) where
  byte t index := t.2[index]?
  bytes_len t := t.2.length
  bytesOf t := t.2
  dflt := (0, [])

/-- IBytesTrait instance for CharEntity (src/entity.rs:389); random access
agrees with `to_bytes`, proved in `CharEntity.byte_eq_to_bytes` below. -/
def charEntityBytesLike : BytesLike CharEntity where
  byte := CharEntity.byte
  bytes_len := CharEntity.bytes_len
  bytesOf := CharEntity.to_bytes
  dflt := { entity_type := EntityType.named, entity_data := [] }

/-- From<&DecodedData> for ByteList (src/entity.rs:544): collect the iterator
bytes. -/
def DecodedData.to_bytes (v : DecodedData) : List Byte :=
  (into_iter_items decodedBytesLike v.inner_bytes v.entities).map (·.1)

/-- From<&EncodedData> for ByteList (src/entity.rs:663). -/
def EncodedData.to_bytes (v : EncodedData) : List Byte :=
  (into_iter_items charEntityBytesLike v.inner_bytes v.entities).map (·.1)

/-- DecodedData::byte (src/entity.rs:331). -/
def DecodedData.byte (v : DecodedData) (index : Nat) : Option Byte :=
  call_trait_method_byte decodedBytesLike v.inner_bytes v.entities index

/-- DecodedData::bytes_len (src/entity.rs:327). -/
def DecodedData.bytes_len (v : DecodedData) : Nat :=
  call_trait_method_bytes_len decodedBytesLike v.inner_bytes v.entities

/-- EncodedData::byte (src/entity.rs:588). -/
def EncodedData.byte (v : EncodedData) (index : Nat) : Option Byte :=
  call_trait_method_byte charEntityBytesLike v.inner_bytes v.entities index

/-- EncodedData::bytes_len (src/entity.rs:591). -/
def EncodedData.bytes_len (v : EncodedData) : Nat :=
  call_trait_method_bytes_len charEntityBytesLike v.inner_bytes v.entities

/-- Reference materialization of a coded view: the bytes before each
substitution range, its replacement bytes, and the tail after the last range.
This is the splice semantics that `call_into_string_trait` and
`call_into_char_list_trait` (src/entity.rs:185,213) implement; the theorems
below prove that the iterator, `byte` and `bytes_len` agree with it. -/
def materializeFrom {T : Type} (I : BytesLike T) (bytes : List Byte) :
    Nat → List (CodeRange × T) → List Byte
  | p, [] => bytes.drop p
  | p, (range, entity) :: rest =>
    byte_slice bytes p range.1 ++ I.bytesOf entity ++
      materializeFrom I bytes (range.2 + 1) rest

/-- Well-formedness of a substitution list: ranges start at or after `lo`,
have `start ≤ end`, end before `len`, and are strictly increasing and
disjoint. -/
def ranges_wf (lo len : Nat) : List CodeRange → Bool
  | [] => true
  | r :: rest => lo ≤ r.1 && r.1 ≤ r.2 && r.2 < len && ranges_wf (r.2 + 1) len rest

/-- The scanner events cover consecutive ranges starting at `p`. -/
def tiles_from : Nat → List Utf8Item → Bool
  | _, [] => true
  | p, it :: rest => it.lo == p && p ≤ it.hi && tiles_from (it.hi + 1) rest

/-- Name well-formedness required of modelled table records: nonempty,
leading ASCII letter, ASCII alphanumeric throughout (spec §6: named entities
match a letter followed by alphanumerics). -/
def wf_name (name : List Byte) : Bool :=
  !name.isEmpty && is_ascii_alphabetic (name.getD 0 0) && name.all is_ascii_alphanumeric

/-- Well-formedness of a modelled entity table (spec §3/§6): `ENTITIES` is
sorted by code ascending; every record has a well-formed name that the decode
side resolves back to the same code; and the table covers `&` (the real
generated table contains `amp`). -/
def TableOK (d : EntityData) : Prop :=
  d.ENTITIES.Pairwise (fun a b => a.2 ≤ b.2) ∧
  (∀ p ∈ d.ENTITIES, wf_name p.1 = true ∧ named_lookup d p.1 = some p.2) ∧
  (∃ name, (name, 38) ∈ d.ENTITIES)

/-- Small concrete instance of the modelled tables, used for concrete
evaluations: the five hand-table names that also appear in the generated
table, in both orderings, plus the first-letter index. -/
def spec_entity_data : EntityData :=
  { ENTITIES :=
      [([113, 117, 111, 116], 34), ([97, 109, 112], 38), ([97, 112, 111, 115], 39),
        ([108, 116], 60), ([103, 116], 62)]
    LETTER_ORDERED_ENTITIES :=
      [([97, 109, 112], 38), ([97, 112, 111, 115], 39), ([103, 116], 62),
        ([108, 116], 60), ([113, 117, 111, 116], 34)]
    FIRST_LETTER_POSITION := [(97, (0, 2)), (103, (2, 3)), (108, (3, 4)), (113, (4, 5))] }

/-- One logical segment of an encoded stream, used to prove the round-trip
property: either the UTF-8 bytes of an unreplaced scalar or a complete
entity token whose interior resolves to the scalar. -/
inductive Seg where
  | raw (c : Nat)
  | ent (interior : List Byte) (c : Nat)

/-- Bytes of a segment in the encoded stream. -/
def Seg.bytes : Seg → List Byte
  | .raw c => char_to_utf8_bytes c
  | .ent interior _ => 38 :: interior ++ [59]

/-- Bytes a segment decodes back to. -/
def Seg.out : Seg → List Byte
  | .raw c => char_to_utf8_bytes c
  | .ent _ c => char_to_utf8_bytes c

/-- A segment the decode scanner is guaranteed to reproduce: a raw scalar
other than `&`, or an entity token with a nonempty interior free of `&` and
`;` that the recognizer resolves to the scalar. -/
def SegOK (d : EntityData) : Seg → Prop
  | .raw c => is_scalar c = true ∧ c ≠ 38
  | .ent interior c =>
    interior ≠ [] ∧ (∀ b ∈ interior, b ≠ 38 ∧ b ≠ 59) ∧
      Entity.decode d interior = some c

/-- The event stream the scanner produces on a well-formed scalar stream:
one correct event per scalar, over its UTF-8 byte range. -/
def char_items : List Nat → Nat → List Utf8Item
  | [], _ => []
  | c :: cs, idx =>
    .correct c idx (idx + (char_to_utf8_bytes c).length - 1) ::
      char_items cs (idx + (char_to_utf8_bytes c).length)

/-- The segment the encode pipeline emits for one scalar: an entity token
when the filter and encode_char produce a substitution, the raw scalar
bytes otherwise. The event range does not influence the chosen entity. -/
def encode_seg (d : EntityData) (encode_type : EncodeType)
    (filter_fn : Nat → EncodeType → EncodeFilterReturnData) (c : Nat) : Seg :=
  match encode_filter_entity d encode_type filter_fn (.correct c 0 0) with
  | some (_, entity) => Seg.ent (entity.markerBytes ++ entity.entity_data) c
  | none => Seg.raw c

/-- Consistency of the hand tables (src/entity.rs:15,23) with the modelled
generated table: each hand name resolves back to its character on the decode
side. The real crate satisfies this because the hand names `gt`, `lt`,
`amp`, `quot`, `apos` all appear in the generated table. -/
def HandOK (d : EntityData) : Prop :=
  ∀ p ∈ SPECIAL_BYTES, named_lookup d p.2 = some p.1

/-- Folding an append-writer over a list concatenates the per-item outputs. -/
theorem foldl_append_eq {α : Type} (f : α → List Byte) (l : List α) (data : List Byte) :
    l.foldl (fun acc it => acc ++ f it) data = data ++ (l.map f).flatten := by
  induction l generalizing data with
  | nil => simp
  | cons x xs ih => simp [ih, List.append_assoc]

/-- encode_with_to written as a flat concatenation of the per-event outputs. -/
theorem encode_with_to_flatten (d : EntityData) (content : List Byte)
    (encode_type : EncodeType) (filter_fn : Nat → EncodeType → EncodeFilterReturnData)
    (data : List Byte) :
    encode_with_to d content encode_type filter_fn data =
      data ++ ((loop_utf8_bytes content).map
        (encode_to_item_bytes d content encode_type filter_fn)).flatten := by
  unfold encode_with_to
  exact foldl_append_eq _ _ _

/-- An empty slice. -/
theorem byte_slice_self (content : List Byte) (p : Nat) : byte_slice content p p = [] := by
  simp [byte_slice]

/-- Slices compose over adjacent index intervals. -/
theorem byte_slice_append (content : List Byte) {p q r : Nat} (h1 : p ≤ q) (h2 : q ≤ r) :
    byte_slice content p r = byte_slice content p q ++ byte_slice content q r := by
  unfold byte_slice
  have hr : r - p = (q - p) + (r - q) := by omega
  rw [hr, List.take_add, List.drop_drop]
  have hq : p + (q - p) = q := by omega
  rw [hq]

/-- Dropping from `p` splits as the slice to `q` plus the drop from `q`. -/
theorem drop_eq_slice_append (content : List Byte) {p q : Nat} (h : p ≤ q) :
    content.drop p = byte_slice content p q ++ content.drop q := by
  unfold byte_slice
  have hq : p + (q - p) = q := by omega
  calc content.drop p
      = (content.drop p).take (q - p) ++ (content.drop p).drop (q - p) :=
        (List.take_append_drop _ _).symm
    _ = (content.drop p).take (q - p) ++ content.drop q := by rw [List.drop_drop, hq]

/-- A nonempty slice starts with the byte at `p`. -/
theorem byte_slice_cons (content : List Byte) {p q : Nat} (h : p < q)
    (hp : p < content.length) :
    byte_slice content p q = content.getD p 0 :: byte_slice content (p + 1) q := by
  unfold byte_slice
  rw [List.drop_eq_getElem_cons hp]
  have hq : q - p = (q - (p + 1)) + 1 := by omega
  rw [hq, List.take_succ_cons, List.getD_eq_getElem content 0 hp]

/-- The length of CharEntity::to_bytes is CharEntity::bytes_len. -/
theorem CharEntity.to_bytes_length (e : CharEntity) :
    e.to_bytes.length = e.bytes_len := by
  cases e with
  | mk t d => cases t <;> simp [CharEntity.to_bytes, CharEntity.bytes_len,
      CharEntity.markerBytes, CharEntity.prefixLen] <;> omega

/-- Positional access into a generic entity byte list `38 :: m ++ d ++ [59]`. -/
theorem entity_bytes_getElem (m d : List Byte) (i : Nat) :
    ((38 : Byte) :: (m ++ (d ++ [59])))[i]? =
      if i = 0 then some 38
      else if i - 1 < m.length then m[i - 1]?
      else if i - 1 - m.length < d.length then d[i - 1 - m.length]?
      else if i - 1 - m.length = d.length then some 59
      else none := by
  match i with
  | 0 => simp
  | i + 1 =>
    rw [List.getElem?_cons_succ, if_neg (by omega : ¬ i + 1 = 0)]
    simp only [Nat.add_sub_cancel]
    rw [List.getElem?_append]
    by_cases h1 : i < m.length
    · simp [h1]
    · rw [if_neg h1, if_neg h1, List.getElem?_append]
      by_cases h2 : i - m.length < d.length
      · simp [h2]
      · rw [if_neg h2, if_neg h2]
        by_cases h3 : i - m.length = d.length
        · rw [if_pos h3, h3, Nat.sub_self]
          rfl
        · rw [if_neg h3]
          exact List.getElem?_eq_none (by simp; omega)

/-- CharEntity::byte agrees with positional access into CharEntity::to_bytes. -/
theorem CharEntity.byte_eq_to_bytes (e : CharEntity) (i : Nat) :
    e.byte i = e.to_bytes[i]? := by
  have hshape : e.to_bytes = (38 : Byte) :: (e.markerBytes ++ (e.entity_data ++ [59])) := by
    simp [CharEntity.to_bytes]
  rw [hshape, entity_bytes_getElem]
  cases e with
  | mk t d =>
    cases t with
    | named =>
      match i with
      | 0 => rfl
      | i + 1 =>
        simp only [CharEntity.byte, CharEntity.prefixLen, CharEntity.markerBytes,
          List.length_nil, Nat.sub_zero, Nat.add_sub_cancel]
        rw [if_pos (by omega : 0 < i + 1), if_neg (by omega : ¬ i + 1 = 0),
          if_neg (by omega : ¬ i < 0)]
    | hex =>
      match i with
      | 0 => rfl
      | 1 => rfl
      | 2 => rfl
      | i + 3 =>
        simp only [CharEntity.byte, CharEntity.prefixLen, CharEntity.markerBytes,
          List.length_cons, List.length_nil]
        rw [if_pos (by omega : 2 < i + 3), if_neg (by omega : ¬ i + 3 = 0),
          if_neg (by omega : ¬ i + 3 - 1 < 0 + 1 + 1)]
        have h1 : i + 3 - 2 - 1 = i := by omega
        have h2 : i + 3 - 1 - (0 + 1 + 1) = i := by omega
        simp only [h1, h2]
    | decimal =>
      match i with
      | 0 => rfl
      | 1 => rfl
      | i + 2 =>
        simp only [CharEntity.byte, CharEntity.prefixLen, CharEntity.markerBytes,
          List.length_cons, List.length_nil]
        rw [if_pos (by omega : 1 < i + 2), if_neg (by omega : ¬ i + 2 = 0),
          if_neg (by omega : ¬ i + 2 - 1 < 0 + 1)]

/-- The byte law of the CharEntity instance. -/
theorem charEntity_byte_law : ∀ (t : CharEntity) (i : Nat),
    charEntityBytesLike.byte t i = (charEntityBytesLike.bytesOf t)[i]? :=
  fun t i => CharEntity.byte_eq_to_bytes t i

/-- The length law of the CharEntity instance. -/
theorem charEntity_len_law : ∀ t : CharEntity,
    charEntityBytesLike.bytes_len t = (charEntityBytesLike.bytesOf t).length :=
  fun t => (CharEntity.to_bytes_length t).symm

/-- The byte law of the decoded-payload instance. -/
theorem decoded_byte_law : ∀ (t : Nat × List Byte) (i : Nat),
    decodedBytesLike.byte t i = (decodedBytesLike.bytesOf t)[i]? :=
  fun _ _ => rfl

/-- The length law of the decoded-payload instance. -/
theorem decoded_len_law : ∀ t : Nat × List Byte,
    decodedBytesLike.bytes_len t = (decodedBytesLike.bytesOf t).length :=
  fun _ => rfl

/-- Unfolding of `ranges_wf` on a cons cell. -/
theorem ranges_wf_cons {lo len : Nat} {r : CodeRange} {rs : List CodeRange} :
    ranges_wf lo len (r :: rs) = true ↔
      lo ≤ r.1 ∧ r.1 ≤ r.2 ∧ r.2 < len ∧ ranges_wf (r.2 + 1) len rs = true := by
  simp [ranges_wf, Bool.and_eq_true, decide_eq_true_eq, and_assoc]

/-- The lower bound of `ranges_wf` can be weakened. -/
theorem ranges_wf_mono : ∀ {rs : List CodeRange} {lo lo2 len : Nat}, lo ≤ lo2 →
    ranges_wf lo2 len rs = true → ranges_wf lo len rs = true := by
  intro rs
  cases rs with
  | nil => intro lo lo2 len h1 h2; simp [ranges_wf]
  | cons r rest =>
    intro lo lo2 len h1 h2
    rw [ranges_wf_cons] at h2 ⊢
    exact ⟨by omega, h2.2⟩

/-- The iterator fuel accumulator is a plain sum. -/
theorem foldl_len_sum {T : Type} (I : BytesLike T) (l : List (CodeRange × T)) :
    ∀ init : Nat, l.foldl (fun acc p => acc + I.bytes_len p.2) init =
      init + (l.map (fun p => I.bytes_len p.2)).sum := by
  induction l with
  | nil => intro init; simp
  | cons x xs ih => intro init; simp [ih, Nat.add_assoc]

/-- One successful iterator step unfolds the fueled item stream. -/
theorem iter_items_step {T : Type} (I : BytesLike T) (bytes : List Byte)
    (entities : List (CodeRange × T)) {st st2 : DataIterState} {item : IterDataItem}
    {n : Nat} (h : iter_next I bytes entities st = some (item, st2)) :
    iter_items I bytes entities (n + 1) st = item :: iter_items I bytes entities n st2 := by
  rw [iter_items, h]

/-- Draining the iterator in the all-bytes phase yields the remaining input
bytes. -/
theorem iter_drain_bytes {T : Type} (I : BytesLike T) (bytes : List Byte)
    (entities : List (CodeRange × T)) :
    ∀ (fuel : Nat) (st : DataIterState),
      st.only_bytes = true → st.total_bytes = bytes.length →
      bytes.length - st.byte_index ≤ fuel →
      (iter_items I bytes entities fuel st).map (·.1) = bytes.drop st.byte_index := by
  intro fuel
  induction fuel with
  | zero =>
    intro st h1 h2 h3
    rw [iter_items, List.drop_eq_nil_of_le (by omega)]
    rfl
  | succ n ih =>
    intro st h1 h2 h3
    rw [iter_items]
    by_cases hlt : st.byte_index < st.total_bytes
    · have hlen2 : st.byte_index < bytes.length := by omega
      simp only [iter_next, hlt, if_pos, h1, if_true]
      rw [List.map_cons, List.drop_eq_getElem_cons hlen2,
        List.getD_eq_getElem bytes 0 hlen2]
      congr 1
      exact ih _ (by simp [h1]) (by simp [h2]) (by simp; omega)
    · simp only [iter_next, hlt, if_false]
      rw [List.drop_eq_nil_of_le (by omega)]
      rfl

/-- Draining the iterator across one substitution: the entity bytes from
offset `j` are emitted, then the iterator continues past the range. -/
theorem iter_drain_entity {T : Type} (I : BytesLike T)
    (hbyte : ∀ t i, I.byte t i = (I.bytesOf t)[i]?)
    (hlen : ∀ t, I.bytes_len t = (I.bytesOf t).length)
    (bytes : List Byte) (entities : List (CodeRange × T))
    (k : Nat) (r : CodeRange) (t : T)
    (hk : entities[k]? = some (r, t)) (hr1 : r.1 ≤ r.2) (hr2 : r.2 < bytes.length) :
    ∀ (fuel j : Nat), j < (I.bytesOf t).length →
      (I.bytesOf t).length - j ≤ fuel →
      (iter_items I bytes entities fuel
        ⟨false, r.1, bytes.length, k, entities.length, j, some r.1⟩).map (·.1) =
      (I.bytesOf t).drop j ++
        (iter_items I bytes entities (fuel - ((I.bytesOf t).length - j))
          (if k + 1 < entities.length then
            ⟨false, r.2 + 1, bytes.length, k + 1, entities.length, 0,
              some (entities.getD (k + 1) ((0, 0), I.dflt)).1.1⟩
          else
            ⟨true, r.2 + 1, bytes.length, k + 1, entities.length, 0,
              some r.1⟩)).map (·.1) := by
  have hgetD : entities.getD k ((0, 0), I.dflt) = (r, t) := by
    rw [List.getD_eq_getElem?_getD, hk]
    rfl
  intro fuel
  induction fuel with
  | zero => intro j hj hf; omega
  | succ n ih =>
    intro j hj hf
    have hguard : r.1 < bytes.length := by omega
    rw [iter_items]
    have hroute : iter_next I bytes entities
        ⟨false, r.1, bytes.length, k, entities.length, j, some r.1⟩ =
        iter_entity_step I bytes entities
          ⟨false, r.1, bytes.length, k, entities.length, j, some r.1⟩ := by
      by_cases hj0 : j = 0
      · subst hj0
        simp [iter_next, hguard]
      · simp [iter_next, hguard, hj0]
    rw [hroute]
    have hjlt := hj
    obtain ⟨val, hval⟩ : ∃ v, (I.bytesOf t)[j]? = some v := by
      rw [List.getElem?_eq_getElem hj]
      exact ⟨_, rfl⟩
    have hbj : I.byte t j = some val := by rw [hbyte, hval]
    have hL : I.bytes_len t = (I.bytesOf t).length := hlen t
    have hdropj : (I.bytesOf t).drop j = val :: (I.bytesOf t).drop (j + 1) := by
      rw [List.drop_eq_getElem_cons hj]
      have : (I.bytesOf t)[j] = val := by
        have h2 := List.getElem?_eq_getElem hj
        rw [hval] at h2
        exact (Option.some.injEq _ _ ▸ h2).symm
      rw [this]
    by_cases hfin : j = I.bytes_len t - 1
    · have hLj : (I.bytesOf t).length - j = 1 := by omega
      have hdropj1 : (I.bytesOf t).drop (j + 1) = [] :=
        List.drop_eq_nil_of_le (by omega)
      simp only [iter_entity_step, hgetD, hbj]
      rw [if_pos hfin]
      rw [hdropj, hdropj1, hLj]
      by_cases hk1 : k + 1 < entities.length
      · rw [if_pos hk1, if_pos hk1]
        simp only [List.map_cons, List.nil_append, Nat.add_sub_cancel]
        rfl
      · rw [if_neg hk1, if_neg hk1]
        simp only [List.map_cons, List.nil_append, Nat.add_sub_cancel]
        rfl
    · have hj1 : j + 1 < (I.bytesOf t).length := by omega
      simp only [iter_entity_step, hgetD, hbj]
      rw [if_neg hfin]
      rw [List.map_cons]
      rw [ih (j + 1) hj1 (by omega)]
      rw [hdropj]
      have hfe : n - ((I.bytesOf t).length - (j + 1)) =
          n + 1 - ((I.bytesOf t).length - j) := by omega
      rw [hfe]
      rfl

/-- Draining the iterator from a position at or before the next substitution
range yields the reference materialization of the remaining substitutions. -/
theorem iter_drain_main {T : Type} (I : BytesLike T)
    (hbyte : ∀ t i, I.byte t i = (I.bytesOf t)[i]?)
    (hlen : ∀ t, I.bytes_len t = (I.bytesOf t).length)
    (bytes : List Byte) (entities : List (CodeRange × T)) :
    ∀ (fuel k p : Nat) (r : CodeRange) (t : T) (rest : List (CodeRange × T)),
      entities.drop k = (r, t) :: rest →
      ranges_wf p bytes.length (((r, t) :: rest).map (·.1)) = true →
      (∀ q ∈ (r, t) :: rest, 1 ≤ (I.bytesOf q.2).length) →
      (bytes.length - p) +
        (((r, t) :: rest).map (fun q => (I.bytesOf q.2).length)).sum ≤ fuel →
      (iter_items I bytes entities fuel
        ⟨false, p, bytes.length, k, entities.length, 0, some r.1⟩).map (·.1) =
        materializeFrom I bytes p ((r, t) :: rest) := by
  intro fuel
  induction fuel using Nat.strong_induction_on with
  | _ fuel ihf =>
    intro k p r t rest hdrop hwf hone hfuel
    simp only [List.map_cons] at hwf
    obtain ⟨hpr1, hr12, hr2len, hwfrest⟩ := ranges_wf_cons.mp hwf
    have hone1 : 1 ≤ (I.bytesOf t).length := hone (r, t) (by simp)
    have hsum : (((r, t) :: rest).map (fun q => (I.bytesOf q.2).length)).sum =
        (I.bytesOf t).length + ((rest).map (fun q => (I.bytesOf q.2).length)).sum := by
      simp
    rw [hsum] at hfuel
    have hk : entities[k]? = some (r, t) := by
      have h0 : (entities.drop k)[0]? = some (r, t) := by rw [hdrop]; simp
      rw [List.getElem?_drop] at h0
      simpa using h0
    by_cases hpr : p < r.1
    · cases fuel with
      | zero => omega
      | succ n =>
        have hplen : p < bytes.length := by omega
        have hne : p ≠ r.1 := by omega
        have hstep : iter_next I bytes entities
            ⟨false, p, bytes.length, k, entities.length, 0, some r.1⟩ =
            some ((bytes.getD p 0, none),
              ⟨false, p + 1, bytes.length, k, entities.length, 0, some r.1⟩) := by
          simp [iter_next, hplen, hne]
        rw [iter_items_step I bytes entities hstep]
        have hmz : materializeFrom I bytes p ((r, t) :: rest) =
            bytes.getD p 0 :: materializeFrom I bytes (p + 1) ((r, t) :: rest) := by
          show byte_slice bytes p r.1 ++ _ ++ _ = _
          rw [byte_slice_cons bytes hpr hplen]
          rfl
        rw [List.map_cons, hmz]
        congr 1
        refine ihf n (by omega) k (p + 1) r t rest hdrop ?_ hone ?_
        · simp only [List.map_cons]
          exact ranges_wf_cons.mpr ⟨by omega, hr12, hr2len, hwfrest⟩
        · rw [hsum]
          omega
    · have hpeq : p = r.1 := by omega
      subst hpeq
      have hB := iter_drain_entity I hbyte hlen bytes entities k r t hk hr12 hr2len
        fuel 0 (by omega) (by omega)
      rw [hB, List.drop_zero, Nat.sub_zero]
      by_cases hk1 : k + 1 < entities.length
      · rw [if_pos hk1]
        have hrestlen : (entities.drop k).length = rest.length + 1 := by
          rw [hdrop]
          rfl
        rw [List.length_drop] at hrestlen
        cases rest with
        | nil => simp at hrestlen; omega
        | cons q rest2 =>
          obtain ⟨r2, t2⟩ := q
          have hdrop2 : entities.drop (k + 1) = (r2, t2) :: rest2 := by
            have hdd : (entities.drop k).drop 1 = entities.drop (k + 1) := by
              rw [List.drop_drop]
            rw [← hdd, hdrop]
            rfl
          have hgetD2 : entities.getD (k + 1) ((0, 0), I.dflt) = (r2, t2) := by
            have h1 : (entities.drop (k + 1))[0]? = some (r2, t2) := by
              rw [hdrop2]
              simp
            rw [List.getElem?_drop] at h1
            rw [List.getD_eq_getElem?_getD]
            simp at h1
            rw [h1]
            rfl
          rw [hgetD2]
          have hsum2 : ((((r2, t2) :: rest2)).map
              (fun q => (I.bytesOf q.2).length)).sum =
              (I.bytesOf t2).length +
                ((rest2).map (fun q => (I.bytesOf q.2).length)).sum := by
            simp
          have hrec := ihf (fuel - (I.bytesOf t).length) (by omega) (k + 1) (r.2 + 1)
            r2 t2 rest2 hdrop2 (by rw [List.map_cons] at hwfrest ⊢; exact hwfrest)
            (fun q hq => hone q (by simp at hq ⊢; exact Or.inr hq))
            (by rw [hsum2]
                rw [List.map_cons, ranges_wf_cons] at hwfrest
                omega)
          rw [hrec]
          show _ = byte_slice bytes r.1 r.1 ++ _ ++ _
          rw [byte_slice_self]
          rfl
      · rw [if_neg hk1]
        have hrestlen : (entities.drop k).length = rest.length + 1 := by
          rw [hdrop]
          rfl
        rw [List.length_drop] at hrestlen
        have hklen : k < entities.length := by omega
        have hrest : rest = [] := by
          cases rest with
          | nil => rfl
          | cons q rest2 => simp at hrestlen; omega
        subst hrest
        rw [iter_drain_bytes I bytes entities _ _ rfl rfl (by simp; omega)]
        show _ = byte_slice bytes r.1 r.1 ++ _ ++ _
        rw [byte_slice_self]
        rfl

/-- The collected iterator bytes of a view equal the reference
materialization, for any well-formed substitution list with nonempty
replacements. -/
theorem into_iter_eq_materialize {T : Type} (I : BytesLike T)
    (hbyte : ∀ t i, I.byte t i = (I.bytesOf t)[i]?)
    (hlen : ∀ t, I.bytes_len t = (I.bytesOf t).length)
    (bytes : List Byte) (entities : List (CodeRange × T))
    (hwf : ranges_wf 0 bytes.length (entities.map (·.1)) = true)
    (hone : ∀ q ∈ entities, 1 ≤ (I.bytesOf q.2).length) :
    (into_iter_items I bytes entities).map (·.1) =
      materializeFrom I bytes 0 entities := by
  have hmapeq : entities.map (fun p => I.bytes_len p.2) =
      entities.map (fun q => (I.bytesOf q.2).length) :=
    List.map_congr_left (fun q _ => hlen q.2)
  have hfuel0 : iter_fuel I bytes entities =
      bytes.length + (entities.map (fun q => (I.bytesOf q.2).length)).sum + 1 := by
    unfold iter_fuel
    rw [foldl_len_sum, hmapeq]
    omega
  cases entities with
  | nil =>
    unfold into_iter_items
    rw [iter_drain_bytes I bytes [] _ _ rfl rfl
      (by rw [hfuel0]; simp [gen_into_iter])]
    rfl
  | cons q rest =>
    obtain ⟨r, t⟩ := q
    have hst : gen_into_iter bytes ((r, t) :: rest) =
        ⟨false, 0, bytes.length, 0, ((r, t) :: rest).length, 0, some r.1⟩ := rfl
    unfold into_iter_items
    rw [hst]
    exact iter_drain_main I hbyte hlen bytes ((r, t) :: rest)
      (iter_fuel I bytes ((r, t) :: rest)) 0 0 r t rest (by simp) hwf hone
      (by rw [hfuel0]; omega)

/-- EncodedData::to_bytes is the reference materialization whenever the
substitution list is well formed. -/
theorem encoded_to_bytes_eq_materialize (v : EncodedData)
    (hwf : ranges_wf 0 v.inner_bytes.length (v.entities.map (·.1)) = true) :
    v.to_bytes = materializeFrom charEntityBytesLike v.inner_bytes 0 v.entities := by
  unfold EncodedData.to_bytes
  exact into_iter_eq_materialize charEntityBytesLike charEntity_byte_law
    charEntity_len_law v.inner_bytes v.entities hwf
    (fun q _ => by simp [charEntityBytesLike, CharEntity.to_bytes])

/-- DecodedData::to_bytes is the reference materialization whenever the
substitution list is well formed and each replacement is nonempty. -/
theorem decoded_to_bytes_eq_materialize (v : DecodedData)
    (hwf : ranges_wf 0 v.inner_bytes.length (v.entities.map (·.1)) = true)
    (hone : ∀ q ∈ v.entities, 1 ≤ q.2.2.length) :
    v.to_bytes = materializeFrom decodedBytesLike v.inner_bytes 0 v.entities := by
  unfold DecodedData.to_bytes
  exact into_iter_eq_materialize decodedBytesLike decoded_byte_law
    decoded_len_law v.inner_bytes v.entities hwf hone

/-- Length of a well-formed slice. -/
theorem byte_slice_length (bytes : List Byte) {p q : Nat} (h1 : p ≤ q)
    (h2 : q ≤ bytes.length) : (byte_slice bytes p q).length = q - p := by
  unfold byte_slice
  rw [List.length_take, List.length_drop]
  omega

/-- Reference length of a materialized view, cursor form. -/
theorem bytes_len_go_spec {T : Type} (I : BytesLike T)
    (hlen : ∀ t, I.bytes_len t = (I.bytesOf t).length) (bytes : List Byte) :
    ∀ (ents : List (CodeRange × T)) (p acc : Nat),
      ranges_wf p bytes.length (ents.map (·.1)) = true →
      bytes_len_go I bytes ents p acc =
        acc + (materializeFrom I bytes p ents).length := by
  intro ents
  induction ents with
  | nil =>
    intro p acc _
    show acc + (bytes.length - p) = acc + (bytes.drop p).length
    rw [List.length_drop]
  | cons q rest ih =>
    intro p acc hwf
    obtain ⟨r, t⟩ := q
    simp only [List.map_cons] at hwf
    obtain ⟨h1, h2, h3, h4⟩ := ranges_wf_cons.mp hwf
    have hM : materializeFrom I bytes p ((r, t) :: rest) =
        byte_slice bytes p r.1 ++ I.bytesOf t ++
          materializeFrom I bytes (r.2 + 1) rest := rfl
    show bytes_len_go I bytes rest (r.2 + 1) (acc + (r.1 - p) + I.bytes_len t) = _
    rw [ih (r.2 + 1) _ h4, hM]
    rw [List.length_append, List.length_append,
      byte_slice_length bytes h1 (by omega), hlen]
    omega

/-- call_trait_method_bytes_len equals the length of the reference
materialization. -/
theorem bytes_len_eq_materialize {T : Type} (I : BytesLike T)
    (hlen : ∀ t, I.bytes_len t = (I.bytesOf t).length) (bytes : List Byte)
    (entities : List (CodeRange × T))
    (hwf : ranges_wf 0 bytes.length (entities.map (·.1)) = true) :
    call_trait_method_bytes_len I bytes entities =
      (materializeFrom I bytes 0 entities).length := by
  unfold call_trait_method_bytes_len
  cases entities with
  | nil => simp [materializeFrom]
  | cons q rest =>
    rw [if_neg (by simp)]
    rw [bytes_len_go_spec I hlen bytes (q :: rest) 0 0 hwf]
    omega

/-- Additive form of the bytes_len computation. -/
theorem bytes_len_go_sum {T : Type} (I : BytesLike T) (bytes : List Byte) :
    ∀ (ents : List (CodeRange × T)) (p acc : Nat),
      ranges_wf p bytes.length (ents.map (·.1)) = true →
      bytes_len_go I bytes ents p acc +
          (ents.map (fun q => q.1.2 + 1 - q.1.1)).sum =
        acc + (bytes.length - p) +
          (ents.map (fun q => I.bytes_len q.2)).sum := by
  intro ents
  induction ents with
  | nil => intro p acc _; simp [bytes_len_go]
  | cons q rest ih =>
    intro p acc hwf
    obtain ⟨r, t⟩ := q
    simp only [List.map_cons] at hwf
    obtain ⟨h1, h2, h3, h4⟩ := ranges_wf_cons.mp hwf
    show bytes_len_go I bytes rest (r.2 + 1) (acc + (r.1 - p) + I.bytes_len t) +
      ((r.2 + 1 - r.1) + (rest.map (fun q => q.1.2 + 1 - q.1.1)).sum) = _
    have hA := ih (r.2 + 1) (acc + (r.1 - p) + I.bytes_len t) h4
    simp only [List.map_cons, List.sum_cons]
    omega

/-- The substituted ranges of a well-formed list cannot exceed the input. -/
theorem ranges_sum_le {T : Type} (bytes : List Byte) :
    ∀ (ents : List (CodeRange × T)) (p : Nat),
      ranges_wf p bytes.length (ents.map (·.1)) = true →
      (ents.map (fun q => q.1.2 + 1 - q.1.1)).sum ≤ bytes.length - p := by
  intro ents
  induction ents with
  | nil => intro p _; simp
  | cons q rest ih =>
    intro p hwf
    obtain ⟨r, t⟩ := q
    simp only [List.map_cons] at hwf
    obtain ⟨h1, h2, h3, h4⟩ := ranges_wf_cons.mp hwf
    have := ih (r.2 + 1) h4
    simp only [List.map_cons, List.sum_cons]
    omega

/-- Random access through the substitution walk agrees with the reference
materialization. -/
theorem byte_go_spec {T : Type} (I : BytesLike T)
    (hbyte : ∀ t i, I.byte t i = (I.bytesOf t)[i]?)
    (hlen : ∀ t, I.bytes_len t = (I.bytesOf t).length) (bytes : List Byte) :
    ∀ (ents : List (CodeRange × T)) (prev i : Nat),
      ranges_wf prev bytes.length (ents.map (·.1)) = true →
      byte_go I bytes ents prev i = (materializeFrom I bytes prev ents)[i]? := by
  intro ents
  induction ents with
  | nil =>
    intro prev i _
    show bytes[prev + i]? = (bytes.drop prev)[i]?
    rw [List.getElem?_drop]
  | cons q rest ih =>
    intro prev i hwf
    obtain ⟨r, t⟩ := q
    simp only [List.map_cons] at hwf
    obtain ⟨h1, h2, h3, h4⟩ := ranges_wf_cons.mp hwf
    have hslen : (byte_slice bytes prev r.1).length = r.1 - prev :=
      byte_slice_length bytes h1 (by omega)
    have hL := hlen t
    have hM : materializeFrom I bytes prev ((r, t) :: rest) =
        byte_slice bytes prev r.1 ++
          (I.bytesOf t ++ materializeFrom I bytes (r.2 + 1) rest) := by
      rw [show materializeFrom I bytes prev ((r, t) :: rest) =
        byte_slice bytes prev r.1 ++ I.bytesOf t ++
          materializeFrom I bytes (r.2 + 1) rest from rfl, List.append_assoc]
    rw [hM]
    show (if prev + i < r.1 then bytes[prev + i]?
      else if prev + i - r.1 < I.bytes_len t then I.byte t (prev + i - r.1)
      else byte_go I bytes rest (r.2 + 1) (prev + i - r.1 - I.bytes_len t)) =
      (byte_slice bytes prev r.1 ++
        (I.bytesOf t ++ materializeFrom I bytes (r.2 + 1) rest))[i]?
    by_cases hc1 : prev + i < r.1
    · rw [if_pos hc1, List.getElem?_append,
        if_pos (by rw [hslen]; omega : i < (byte_slice bytes prev r.1).length)]
      unfold byte_slice
      rw [List.getElem?_take, if_pos (by omega : i < r.1 - prev), List.getElem?_drop]
    · rw [if_neg hc1, List.getElem?_append,
        if_neg (by rw [hslen]; omega : ¬ i < (byte_slice bytes prev r.1).length),
        hslen, List.getElem?_append]
      by_cases hc2 : prev + i - r.1 < I.bytes_len t
      · rw [if_pos hc2, if_pos (by omega : i - (r.1 - prev) < (I.bytesOf t).length),
          hbyte]
        have hidx : prev + i - r.1 = i - (r.1 - prev) := by omega
        rw [hidx]
      · rw [if_neg hc2, if_neg (by omega : ¬ i - (r.1 - prev) < (I.bytesOf t).length),
          ih (r.2 + 1) _ h4]
        have hidx : prev + i - r.1 - I.bytes_len t =
            i - (r.1 - prev) - (I.bytesOf t).length := by omega
        rw [hidx]

/-- call_trait_method_byte equals positional access into the reference
materialization. -/
theorem byte_eq_materialize {T : Type} (I : BytesLike T)
    (hbyte : ∀ t i, I.byte t i = (I.bytesOf t)[i]?)
    (hlen : ∀ t, I.bytes_len t = (I.bytesOf t).length)
    (bytes : List Byte) (entities : List (CodeRange × T))
    (hwf : ranges_wf 0 bytes.length (entities.map (·.1)) = true) (i : Nat) :
    call_trait_method_byte I bytes entities i =
      (materializeFrom I bytes 0 entities)[i]? := by
  unfold call_trait_method_byte
  cases entities with
  | nil => simp [materializeFrom]
  | cons q rest =>
    rw [if_neg (by simp)]
    exact byte_go_spec I hbyte hlen bytes (q :: rest) 0 i hwf

/-- Materialization from an earlier cursor splits off the untouched bytes up
to a position at or before the first substitution. -/
theorem materializeFrom_advance {T : Type} (I : BytesLike T) (bytes : List Byte) :
    ∀ (ents : List (CodeRange × T)) (p q : Nat), p ≤ q →
      ranges_wf q bytes.length (ents.map (·.1)) = true →
      materializeFrom I bytes p ents =
        byte_slice bytes p q ++ materializeFrom I bytes q ents := by
  intro ents
  cases ents with
  | nil =>
    intro p q hpq _
    show bytes.drop p = _ ++ bytes.drop q
    exact drop_eq_slice_append bytes hpq
  | cons e rest =>
    intro p q hpq hwf
    obtain ⟨r, t⟩ := e
    simp only [List.map_cons] at hwf
    obtain ⟨h1, h2, h3, h4⟩ := ranges_wf_cons.mp hwf
    show byte_slice bytes p r.1 ++ I.bytesOf t ++ _ =
      byte_slice bytes p q ++ (byte_slice bytes q r.1 ++ I.bytesOf t ++ _)
    rw [byte_slice_append bytes hpq h1]
    simp [List.append_assoc]

/-- Unfolding of `tiles_from` on a cons cell. -/
theorem tiles_from_cons {p : Nat} {it : Utf8Item} {rest : List Utf8Item} :
    tiles_from p (it :: rest) = true ↔
      it.lo = p ∧ p ≤ it.hi ∧ tiles_from (it.hi + 1) rest = true := by
  simp [tiles_from, Bool.and_eq_true, decide_eq_true_eq, and_assoc]

/-- Scanner step: an ASCII byte in lead state. -/
theorem loop_utf8_go_ascii {b : Byte} {rest : List Byte} {idx ch si : Nat}
    (h : b >>> 7 = 0) :
    loop_utf8_go (b :: rest) idx 0 ch si =
      .correct b idx idx :: loop_utf8_go rest (idx + 1) 0 0 0 := by
  simp [loop_utf8_go, h]

/-- Scanner step: a four-byte lead. -/
theorem loop_utf8_go_lead4 {b : Byte} {rest : List Byte} {idx ch si : Nat}
    (h7 : ¬ b >>> 7 = 0) (h3 : b >>> 3 = 0b11110) :
    loop_utf8_go (b :: rest) idx 0 ch si =
      loop_utf8_go rest (idx + 1) 3 ((b &&& 0b111) <<< 18) idx := by
  simp [loop_utf8_go, h7, h3]

/-- Scanner step: a three-byte lead. -/
theorem loop_utf8_go_lead3 {b : Byte} {rest : List Byte} {idx ch si : Nat}
    (h7 : ¬ b >>> 7 = 0) (h3 : ¬ b >>> 3 = 0b11110) (h4 : b >>> 4 = 0b1110) :
    loop_utf8_go (b :: rest) idx 0 ch si =
      loop_utf8_go rest (idx + 1) 2 ((b &&& 0b1111) <<< 12) idx := by
  simp [loop_utf8_go, h7, h3, h4]

/-- Scanner step: a two-byte lead. -/
theorem loop_utf8_go_lead2 {b : Byte} {rest : List Byte} {idx ch si : Nat}
    (h7 : ¬ b >>> 7 = 0) (h3 : ¬ b >>> 3 = 0b11110) (h4 : ¬ b >>> 4 = 0b1110)
    (h5 : b >>> 5 = 0b110) :
    loop_utf8_go (b :: rest) idx 0 ch si =
      loop_utf8_go rest (idx + 1) 1 ((b &&& 0b11111) <<< 6) idx := by
  simp [loop_utf8_go, h7, h3, h4, h5]

/-- Scanner step: an invalid lead byte. -/
theorem loop_utf8_go_badlead {b : Byte} {rest : List Byte} {idx ch si : Nat}
    (h7 : ¬ b >>> 7 = 0) (h3 : ¬ b >>> 3 = 0b11110) (h4 : ¬ b >>> 4 = 0b1110)
    (h5 : ¬ b >>> 5 = 0b110) :
    loop_utf8_go (b :: rest) idx 0 ch si =
      .wrong idx idx :: loop_utf8_go rest (idx + 1) 0 0 0 := by
  simp [loop_utf8_go, h7, h3, h4, h5]

/-- Scanner step: a continuation byte that does not finish the scalar. -/
theorem loop_utf8_go_cont_mid {b : Byte} {rest : List Byte} {idx nc ch si : Nat}
    (h6 : b >>> 6 = 0b10) :
    loop_utf8_go (b :: rest) idx (nc + 2) ch si =
      loop_utf8_go rest (idx + 1) (nc + 1)
        (ch + ((b &&& 0b111111) <<< ((nc + 1) * 6))) si := by
  simp [loop_utf8_go, h6]

/-- Scanner step: the final continuation byte of a scalar. -/
theorem loop_utf8_go_cont_last {b : Byte} {rest : List Byte} {idx ch si : Nat}
    (h6 : b >>> 6 = 0b10) :
    loop_utf8_go (b :: rest) idx 1 ch si =
      (match char_from_u32 (ch + (b &&& 0b111111)) with
        | some c => Utf8Item.correct c si idx
        | none => Utf8Item.wrong si idx) :: loop_utf8_go rest (idx + 1) 0 0 0 := by
  simp [loop_utf8_go, h6]

/-- Scanner step: a non-continuation byte where a continuation was expected. -/
theorem loop_utf8_go_cont_bad {b : Byte} {rest : List Byte} {idx nc ch si : Nat}
    (h6 : ¬ b >>> 6 = 0b10) :
    loop_utf8_go (b :: rest) idx (nc + 1) ch si =
      .wrong si idx :: loop_utf8_go rest (idx + 1) 0 0 0 := by
  simp [loop_utf8_go, h6]

/-- The scanner events of `loop_utf8_go` tile consecutive ranges: from the
current index in lead state, from the sequence start otherwise. -/
theorem loop_utf8_go_tiles :
    ∀ (bytes : List Byte) (idx nc ch si : Nat), si ≤ idx →
      tiles_from (if nc = 0 then idx else si)
        (loop_utf8_go bytes idx nc ch si) = true := by
  intro bytes
  induction bytes with
  | nil =>
    intro idx nc ch si _
    cases nc <;> simp [loop_utf8_go, tiles_from]
  | cons b rest ih =>
    intro idx nc ch si hsi
    match nc with
    | 0 =>
      simp only [if_pos rfl]
      by_cases hb7 : b >>> 7 = 0
      · rw [loop_utf8_go_ascii hb7]
        refine tiles_from_cons.mpr ⟨rfl, Nat.le_refl idx, ?_⟩
        simpa using ih (idx + 1) 0 0 0 (by omega)
      · by_cases hb3 : b >>> 3 = 0b11110
        · rw [loop_utf8_go_lead4 hb7 hb3]
          simpa using ih (idx + 1) 3 ((b &&& 0b111) <<< 18) idx (by omega)
        · by_cases hb4 : b >>> 4 = 0b1110
          · rw [loop_utf8_go_lead3 hb7 hb3 hb4]
            simpa using ih (idx + 1) 2 ((b &&& 0b1111) <<< 12) idx (by omega)
          · by_cases hb5 : b >>> 5 = 0b110
            · rw [loop_utf8_go_lead2 hb7 hb3 hb4 hb5]
              simpa using ih (idx + 1) 1 ((b &&& 0b11111) <<< 6) idx (by omega)
            · rw [loop_utf8_go_badlead hb7 hb3 hb4 hb5]
              refine tiles_from_cons.mpr ⟨rfl, Nat.le_refl idx, ?_⟩
              simpa using ih (idx + 1) 0 0 0 (by omega)
    | 1 =>
      simp only [if_neg (Nat.one_ne_zero)]
      by_cases hb6 : b >>> 6 = 0b10
      · rw [loop_utf8_go_cont_last hb6]
        cases hcc : char_from_u32 (ch + (b &&& 0b111111)) with
        | some c =>
          simp only [hcc]
          refine tiles_from_cons.mpr ⟨rfl, hsi, ?_⟩
          simpa using ih (idx + 1) 0 0 0 (by omega)
        | none =>
          simp only [hcc]
          refine tiles_from_cons.mpr ⟨rfl, hsi, ?_⟩
          simpa using ih (idx + 1) 0 0 0 (by omega)
      · rw [loop_utf8_go_cont_bad hb6]
        refine tiles_from_cons.mpr ⟨rfl, hsi, ?_⟩
        simpa using ih (idx + 1) 0 0 0 (by omega)
    | nc + 2 =>
      simp only [if_neg (Nat.succ_ne_zero (nc + 1))]
      by_cases hb6 : b >>> 6 = 0b10
      · rw [loop_utf8_go_cont_mid hb6]
        have := ih (idx + 1) (nc + 1)
          (ch + ((b &&& 0b111111) <<< ((nc + 1) * 6))) si (by omega)
        rw [if_neg (Nat.succ_ne_zero nc)] at this
        exact this
      · rw [loop_utf8_go_cont_bad hb6]
        refine tiles_from_cons.mpr ⟨rfl, hsi, ?_⟩
        simpa using ih (idx + 1) 0 0 0 (by omega)

/-- Every scanner event ends before the end of the scanned input. -/
theorem loop_utf8_go_hi_lt :
    ∀ (bytes : List Byte) (idx nc ch si : Nat),
      ∀ it ∈ loop_utf8_go bytes idx nc ch si, it.hi < idx + bytes.length := by
  intro bytes
  induction bytes with
  | nil => intro idx nc ch si it hit; cases nc <;> simp [loop_utf8_go] at hit
  | cons b rest ih =>
    intro idx nc ch si it hit
    have hstep : ∀ it2 ∈ loop_utf8_go rest (idx + 1) 0 0 0,
        it2.hi < idx + (b :: rest).length := by
      intro it2 hit2
      have := ih (idx + 1) 0 0 0 it2 hit2
      simp only [List.length_cons]
      omega
    match nc with
    | 0 =>
      by_cases hb7 : b >>> 7 = 0
      · rw [loop_utf8_go_ascii hb7] at hit
        rcases List.mem_cons.mp hit with h | h
        · subst h; simp [Utf8Item.hi]
        · exact hstep it h
      · by_cases hb3 : b >>> 3 = 0b11110
        · rw [loop_utf8_go_lead4 hb7 hb3] at hit
          have := ih (idx + 1) 3 ((b &&& 0b111) <<< 18) idx it hit
          simp only [List.length_cons]
          omega
        · by_cases hb4 : b >>> 4 = 0b1110
          · rw [loop_utf8_go_lead3 hb7 hb3 hb4] at hit
            have := ih (idx + 1) 2 ((b &&& 0b1111) <<< 12) idx it hit
            simp only [List.length_cons]
            omega
          · by_cases hb5 : b >>> 5 = 0b110
            · rw [loop_utf8_go_lead2 hb7 hb3 hb4 hb5] at hit
              have := ih (idx + 1) 1 ((b &&& 0b11111) <<< 6) idx it hit
              simp only [List.length_cons]
              omega
            · rw [loop_utf8_go_badlead hb7 hb3 hb4 hb5] at hit
              rcases List.mem_cons.mp hit with h | h
              · subst h; simp [Utf8Item.hi]
              · exact hstep it h
    | 1 =>
      by_cases hb6 : b >>> 6 = 0b10
      · rw [loop_utf8_go_cont_last hb6] at hit
        rcases List.mem_cons.mp hit with h | h
        · subst h
          cases char_from_u32 (ch + (b &&& 0b111111)) <;> simp [Utf8Item.hi]
        · exact hstep it h
      · rw [loop_utf8_go_cont_bad hb6] at hit
        rcases List.mem_cons.mp hit with h | h
        · subst h; simp [Utf8Item.hi]
        · exact hstep it h
    | nc + 2 =>
      by_cases hb6 : b >>> 6 = 0b10
      · rw [loop_utf8_go_cont_mid hb6] at hit
        have := ih (idx + 1) (nc + 1)
          (ch + ((b &&& 0b111111) <<< ((nc + 1) * 6))) si it hit
        simp only [List.length_cons]
        omega
      · rw [loop_utf8_go_cont_bad hb6] at hit
        rcases List.mem_cons.mp hit with h | h
        · subst h; simp [Utf8Item.hi]
        · exact hstep it h

/-- A substitution produced by encode_with covers exactly the range of its
scanner event. -/
theorem encode_filter_entity_range (d : EntityData) (encode_type : EncodeType)
    (filter_fn : Nat → EncodeType → EncodeFilterReturnData) (it : Utf8Item)
    (q : CodeRange × CharEntity)
    (h : encode_filter_entity d encode_type filter_fn it = some q) :
    q.1 = (it.lo, it.hi) := by
  cases it with
  | wrong s e => simp [encode_filter_entity] at h
  | correct ch s e =>
    simp only [encode_filter_entity] at h
    rcases hf : filter_fn ch encode_type with ⟨need, me⟩
    rw [hf] at h
    match need, me with
    | true, some (et2, data2) =>
      simp only [Option.some.injEq] at h
      rw [← h]
      rfl
    | true, none =>
      cases hec : encode_char d ch encode_type with
      | some ent =>
        rw [hec] at h
        simp only [Option.some.injEq] at h
        rw [← h]
        rfl
      | none => rw [hec] at h; exact absurd h (by simp)
    | false, me => exact absurd h (by simp)

/-- Ranges selected from tiled scanner events form a well-formed
substitution list. -/
theorem ranges_wf_of_tiles {T : Type} (f : Utf8Item → Option (CodeRange × T))
    (hf : ∀ it q, f it = some q → q.1 = (it.lo, it.hi)) (len : Nat) :
    ∀ (items : List Utf8Item) (p lo : Nat), lo ≤ p →
      tiles_from p items = true →
      (∀ it ∈ items, it.hi < len) →
      ranges_wf lo len ((items.filterMap f).map (·.1)) = true := by
  intro items
  induction items with
  | nil => intro p lo _ _ _; simp [ranges_wf]
  | cons it rest ih =>
    intro p lo hlo htiles hhi
    obtain ⟨hlop, hphi, hrest⟩ := tiles_from_cons.mp htiles
    cases hfi : f it with
    | none =>
      rw [List.filterMap_cons_none hfi]
      exact ih (it.hi + 1) lo (by omega) hrest
        (fun it2 h2 => hhi it2 (List.mem_cons_of_mem it h2))
    | some q =>
      rw [List.filterMap_cons_some hfi]
      have hq := hf it q hfi
      rw [List.map_cons]
      refine ranges_wf_cons.mpr ⟨?_, ?_, ?_, ?_⟩
      · rw [hq]
        show lo ≤ it.lo
        omega
      · rw [hq]
        show it.lo ≤ it.hi
        omega
      · rw [hq]
        show it.hi < len
        exact hhi it (List.mem_cons_self it rest)
      · rw [hq]
        show ranges_wf (it.hi + 1) len _ = true
        exact ih (it.hi + 1) (it.hi + 1) (by omega) hrest
          (fun it2 h2 => hhi it2 (List.mem_cons_of_mem it h2))

/-- The substitution list built by encode_with is always well formed. -/
theorem encode_with_ranges_wf (d : EntityData) (content : List Byte)
    (encode_type : EncodeType)
    (filter_fn : Nat → EncodeType → EncodeFilterReturnData) :
    ranges_wf 0 content.length
      ((encode_with d content encode_type filter_fn).entities.map (·.1)) = true := by
  refine ranges_wf_of_tiles _ (encode_filter_entity_range d encode_type filter_fn)
    content.length (loop_utf8_bytes content) 0 0 (Nat.le_refl 0) ?_ ?_
  · have := loop_utf8_go_tiles content 0 0 0 0 (Nat.le_refl 0)
    simpa [loop_utf8_bytes] using this
  · intro it hit
    have := loop_utf8_go_hi_lt content 0 0 0 0 it hit
    simpa using this

/-- The materialized encode view is the concatenation of the per-event
outputs followed by the unscanned trailing bytes. -/
theorem encode_materialize_flatten (d : EntityData) (encode_type : EncodeType)
    (filter_fn : Nat → EncodeType → EncodeFilterReturnData) (bytes : List Byte) :
    ∀ (items : List Utf8Item) (p : Nat),
      tiles_from p items = true → (∀ it ∈ items, it.hi < bytes.length) →
      materializeFrom charEntityBytesLike bytes p
          (items.filterMap (encode_filter_entity d encode_type filter_fn)) =
        (items.map (encode_to_item_bytes d bytes encode_type filter_fn)).flatten ++
          bytes.drop (items.foldl (fun _ it => it.hi + 1) p) := by
  intro items
  induction items with
  | nil => intro p _ _; simp [materializeFrom]
  | cons it rest ih =>
    intro p htiles hhi
    obtain ⟨hlop, hphi, hrest⟩ := tiles_from_cons.mp htiles
    have hhirest : ∀ it2 ∈ rest, it2.hi < bytes.length :=
      fun it2 h2 => hhi it2 (List.mem_cons_of_mem it h2)
    have hfold : (it :: rest).foldl (fun _ it => it.hi + 1) p =
        rest.foldl (fun _ it => it.hi + 1) (it.hi + 1) := rfl
    rw [hfold, List.map_cons, List.flatten_cons]
    cases hfi : encode_filter_entity d encode_type filter_fn it with
    | none =>
      rw [List.filterMap_cons_none hfi]
      have hadv := materializeFrom_advance charEntityBytesLike bytes
        (rest.filterMap (encode_filter_entity d encode_type filter_fn)) p
        (it.hi + 1) (by omega)
        (ranges_wf_of_tiles _ (encode_filter_entity_range d encode_type filter_fn)
          bytes.length rest (it.hi + 1) (it.hi + 1) (Nat.le_refl _) hrest hhirest)
      rw [hadv, ih (it.hi + 1) hrest hhirest]
      have hout : encode_to_item_bytes d bytes encode_type filter_fn it =
          byte_slice bytes it.lo (it.hi + 1) := by
        unfold encode_to_item_bytes
        rw [hfi]
      rw [hout, hlop, List.append_assoc]
    | some q =>
      obtain ⟨r, ent⟩ := q
      have hq : r = (it.lo, it.hi) := encode_filter_entity_range d encode_type
        filter_fn it (r, ent) hfi
      rw [List.filterMap_cons_some hfi]
      have hM : materializeFrom charEntityBytesLike bytes p ((r, ent) ::
          rest.filterMap (encode_filter_entity d encode_type filter_fn)) =
          byte_slice bytes p r.1 ++ charEntityBytesLike.bytesOf ent ++
            materializeFrom charEntityBytesLike bytes (r.2 + 1)
              (rest.filterMap (encode_filter_entity d encode_type filter_fn)) := rfl
      rw [hM, hq]
      show byte_slice bytes p it.lo ++ _ ++ _ = _
      rw [hlop, byte_slice_self]
      have hout : encode_to_item_bytes d bytes encode_type filter_fn it =
          ent.to_bytes := by
        unfold encode_to_item_bytes
        rw [hfi]
      rw [hout, ih (it.hi + 1) hrest hhirest]
      show [] ++ CharEntity.to_bytes ent ++ _ = _
      simp [List.append_assoc]

/-- The materialized bytes of an encode_with view: per-event outputs plus the
unscanned trailing bytes. -/
theorem encode_with_to_bytes_spec (d : EntityData) (content : List Byte)
    (encode_type : EncodeType)
    (filter_fn : Nat → EncodeType → EncodeFilterReturnData) :
    (encode_with d content encode_type filter_fn).to_bytes =
      ((loop_utf8_bytes content).map
          (encode_to_item_bytes d content encode_type filter_fn)).flatten ++
        content.drop (items_end (loop_utf8_bytes content)) := by
  rw [encoded_to_bytes_eq_materialize _
    (encode_with_ranges_wf d content encode_type filter_fn)]
  refine encode_materialize_flatten d encode_type filter_fn content
    (loop_utf8_bytes content) 0 ?_ ?_
  · have := loop_utf8_go_tiles content 0 0 0 0 (Nat.le_refl 0)
    simpa [loop_utf8_bytes] using this
  · intro it hit
    have := loop_utf8_go_hi_lt content 0 0 0 0 it hit
    simpa using this

/-- Decode step: a plain byte outside an entity. -/
theorem decode_loop_outside {d : EntityData} {content : List Byte} {b : Byte}
    {rest : List Byte} {idx start : Nat} {ents : List (CodeRange × (Nat × List Byte))}
    {errs : List CodeRange} (h : ¬ b = 38) :
    decode_loop d content (b :: rest) idx false start ents errs =
      decode_loop d content rest (idx + 1) false start ents errs := by
  simp [decode_loop, h]

/-- Decode step: an ampersand outside an entity opens one. -/
theorem decode_loop_open {d : EntityData} {content : List Byte}
    {rest : List Byte} {idx start : Nat} {ents : List (CodeRange × (Nat × List Byte))}
    {errs : List CodeRange} :
    decode_loop d content (38 :: rest) idx false start ents errs =
      decode_loop d content rest (idx + 1) true (idx + 1) ents errs := by
  simp [decode_loop]

/-- Decode step: a semicolon right after the ampersand is ignored. -/
theorem decode_loop_semi_empty {d : EntityData} {content : List Byte}
    {rest : List Byte} {idx : Nat} {ents : List (CodeRange × (Nat × List Byte))}
    {errs : List CodeRange} :
    decode_loop d content (59 :: rest) idx true idx ents errs =
      decode_loop d content rest (idx + 1) false idx ents errs := by
  simp [decode_loop]

/-- Decode step: a semicolon closing a recognized entity. -/
theorem decode_loop_semi_some {d : EntityData} {content : List Byte}
    {rest : List Byte} {idx start ch : Nat}
    {ents : List (CodeRange × (Nat × List Byte))} {errs : List CodeRange}
    (hne : ¬ start = idx)
    (hdec : Entity.decode d (byte_slice content start idx) = some ch) :
    decode_loop d content (59 :: rest) idx true start ents errs =
      decode_loop d content rest (idx + 1) false start
        (ents ++ [((start - 1, idx), (ch, char_to_utf8_bytes ch))]) errs := by
  simp [decode_loop, hne, hdec]

/-- Decode step: a semicolon closing an unrecognized entity. -/
theorem decode_loop_semi_none {d : EntityData} {content : List Byte}
    {rest : List Byte} {idx start : Nat}
    {ents : List (CodeRange × (Nat × List Byte))} {errs : List CodeRange}
    (hne : ¬ start = idx)
    (hdec : Entity.decode d (byte_slice content start idx) = none) :
    decode_loop d content (59 :: rest) idx true start ents errs =
      decode_loop d content rest (idx + 1) false start ents
        (errs ++ [(start - 1, idx)]) := by
  simp [decode_loop, hne, hdec]

/-- Decode step: a second ampersand restarts the entity scan. -/
theorem decode_loop_amp {d : EntityData} {content : List Byte}
    {rest : List Byte} {idx start : Nat}
    {ents : List (CodeRange × (Nat × List Byte))} {errs : List CodeRange} :
    decode_loop d content (38 :: rest) idx true start ents errs =
      decode_loop d content rest (idx + 1) true (idx + 1) ents
        (errs ++ [(start - 1, start - 1)]) := by
  simp [decode_loop]

/-- Decode step: an interior entity byte. -/
theorem decode_loop_inside {d : EntityData} {content : List Byte} {b : Byte}
    {rest : List Byte} {idx start : Nat}
    {ents : List (CodeRange × (Nat × List Byte))} {errs : List CodeRange}
    (h59 : ¬ b = 59) (h38 : ¬ b = 38) :
    decode_loop d content (b :: rest) idx true start ents errs =
      decode_loop d content rest (idx + 1) true start ents errs := by
  simp [decode_loop, h59, h38]

/-- The entity and error accumulators of the decode loop are append-only. -/
theorem decode_loop_acc (d : EntityData) (content : List Byte) :
    ∀ (rest : List Byte) (idx : Nat) (inEnt : Bool) (start : Nat)
      (ents : List (CodeRange × (Nat × List Byte))) (errs : List CodeRange),
      decode_loop d content rest idx inEnt start ents errs =
        (ents ++ (decode_loop d content rest idx inEnt start [] []).1,
          errs ++ (decode_loop d content rest idx inEnt start [] []).2.1,
          (decode_loop d content rest idx inEnt start [] []).2.2) := by
  intro rest
  induction rest with
  | nil => intro idx inEnt start ents errs; simp [decode_loop]
  | cons b rest2 ih =>
    intro idx inEnt start ents errs
    cases inEnt with
    | false =>
      by_cases hb : b = 38
      · subst hb
        rw [decode_loop_open, decode_loop_open,
          ih (idx + 1) true (idx + 1) ents errs]
      · rw [decode_loop_outside hb, decode_loop_outside hb,
          ih (idx + 1) false start ents errs]
    | true =>
      by_cases hb59 : b = 59
      · subst hb59
        by_cases hse : start = idx
        · subst hse
          rw [decode_loop_semi_empty, decode_loop_semi_empty,
            ih _ false _ ents errs]
        · cases hdec : Entity.decode d (byte_slice content start idx) with
          | some ch =>
            rw [decode_loop_semi_some hse hdec, decode_loop_semi_some hse hdec]
            simp only [List.nil_append]
            rw [ih (idx + 1) false start
                (ents ++ [((start - 1, idx), (ch, char_to_utf8_bytes ch))]) errs,
              ih (idx + 1) false start
                [((start - 1, idx), (ch, char_to_utf8_bytes ch))] []]
            simp
          | none =>
            rw [decode_loop_semi_none hse hdec, decode_loop_semi_none hse hdec]
            simp only [List.nil_append]
            rw [ih (idx + 1) false start ents (errs ++ [(start - 1, idx)]),
              ih (idx + 1) false start [] [(start - 1, idx)]]
            simp
      · by_cases hb38 : b = 38
        · subst hb38
          rw [decode_loop_amp, decode_loop_amp]
          simp only [List.nil_append]
          rw [ih (idx + 1) true (idx + 1) ents (errs ++ [(start - 1, start - 1)]),
            ih (idx + 1) true (idx + 1) [] [(start - 1, start - 1)]]
          simp
        · rw [decode_loop_inside hb59 hb38, decode_loop_inside hb59 hb38,
            ih (idx + 1) true start ents errs]

/-- UTF-8 encodings are never empty. -/
theorem char_to_utf8_bytes_len_pos (c : Nat) : 1 ≤ (char_to_utf8_bytes c).length := by
  unfold char_to_utf8_bytes
  split
  · simp
  · split
    · simp
    · split <;> simp

/-- Geometry of the decode scan: the produced substitution ranges form a
well-formed list above the current scan position; when the scan ends inside
an entity every produced range ends before the final ampersand; and every
substitution payload is the UTF-8 encoding of its scalar. -/
theorem decode_loop_geom (d : EntityData) (content : List Byte) :
    ∀ (rest : List Byte) (idx : Nat) (inEnt : Bool) (start : Nat),
      rest = content.drop idx →
      (inEnt = true → 1 ≤ start ∧ start ≤ idx) →
      (ranges_wf (cond inEnt (start - 1) idx) content.length
        ((decode_loop d content rest idx inEnt start [] []).1.map (·.1)) = true) ∧
      ((decode_loop d content rest idx inEnt start [] []).2.2.1 = true →
        1 ≤ (decode_loop d content rest idx inEnt start [] []).2.2.2 ∧
        cond inEnt start (idx + 1) ≤
          (decode_loop d content rest idx inEnt start [] []).2.2.2 ∧
        ∀ q ∈ (decode_loop d content rest idx inEnt start [] []).1,
          q.1.2 < (decode_loop d content rest idx inEnt start [] []).2.2.2 - 1) ∧
      (∀ q ∈ (decode_loop d content rest idx inEnt start [] []).1,
        q.2.2 = char_to_utf8_bytes q.2.1) := by
  intro rest
  induction rest with
  | nil =>
    intro idx inEnt start _ hstart
    refine ⟨by simp [decode_loop, ranges_wf], ?_, by simp [decode_loop]⟩
    intro hfin
    simp only [decode_loop] at hfin ⊢
    cases inEnt with
    | false => simp at hfin
    | true =>
      obtain ⟨h1, h2⟩ := hstart rfl
      exact ⟨h1, by simp, by simp⟩
  | cons b rest2 ih =>
    intro idx inEnt start hrest hstart
    have hd : content.drop idx = b :: rest2 := hrest.symm
    have hidx : idx < content.length := by
      by_contra hcon
      rw [List.drop_eq_nil_of_le (by omega)] at hd
      exact absurd hd (by simp)
    have hrest2 : rest2 = content.drop (idx + 1) := by
      have h2 : content.drop (idx + 1) = (content.drop idx).drop 1 := by
        rw [List.drop_drop]
      rw [h2, hd]
      rfl
    cases inEnt with
    | false =>
      simp only [cond_false]
      by_cases hb : b = 38
      · subst hb
        rw [decode_loop_open]
        have := ih (idx + 1) true (idx + 1) hrest2 (by omega)
        simp only [cond_true, Nat.add_sub_cancel] at this
        exact this
      · rw [decode_loop_outside hb]
        have := ih (idx + 1) false start hrest2 (by simp)
        simp only [cond_false] at this
        obtain ⟨ha, hb2, hc⟩ := this
        refine ⟨ranges_wf_mono (by omega) ha, ?_, hc⟩
        intro hfin
        obtain ⟨x1, x2, x3⟩ := hb2 hfin
        exact ⟨x1, by omega, x3⟩
    | true =>
      obtain ⟨hs1, hs2⟩ := hstart rfl
      simp only [cond_true]
      by_cases hb59 : b = 59
      · subst hb59
        by_cases hse : start = idx
        · subst hse
          rw [decode_loop_semi_empty]
          have := ih (start + 1) false start hrest2 (by simp)
          simp only [cond_false] at this
          obtain ⟨ha, hb2, hc⟩ := this
          refine ⟨ranges_wf_mono (by omega) ha, ?_, hc⟩
          intro hfin
          obtain ⟨x1, x2, x3⟩ := hb2 hfin
          exact ⟨x1, by omega, x3⟩
        · cases hdec : Entity.decode d (byte_slice content start idx) with
          | some ch =>
            rw [decode_loop_semi_some hse hdec]
            rw [decode_loop_acc d content rest2 (idx + 1) false start _ _]
            simp only [List.nil_append]
            have := ih (idx + 1) false start hrest2 (by simp)
            simp only [cond_false] at this
            obtain ⟨ha, hb2, hc⟩ := this
            refine ⟨?_, ?_, ?_⟩
            · simp only [List.map_append, List.map_cons, List.map_nil,
                List.singleton_append, List.nil_append]
              refine ranges_wf_cons.mpr ⟨by omega, by omega, by omega, ?_⟩
              exact ranges_wf_mono (by omega) ha
            · intro hfin
              obtain ⟨x1, x2, x3⟩ := hb2 hfin
              refine ⟨x1, by omega, ?_⟩
              intro q hq
              rcases List.mem_append.mp hq with hq1 | hq2
              · rw [List.mem_singleton] at hq1
                subst hq1
                show idx < _ - 1
                omega
              · exact x3 q hq2
            · intro q hq
              rcases List.mem_append.mp hq with hq1 | hq2
              · rw [List.mem_singleton] at hq1
                subst hq1
                rfl
              · exact hc q hq2
          | none =>
            rw [decode_loop_semi_none hse hdec]
            rw [decode_loop_acc d content rest2 (idx + 1) false start _ _]
            simp only [List.nil_append]
            have := ih (idx + 1) false start hrest2 (by simp)
            simp only [cond_false] at this
            obtain ⟨ha, hb2, hc⟩ := this
            refine ⟨ranges_wf_mono (by omega) ha, ?_, hc⟩
            intro hfin
            obtain ⟨x1, x2, x3⟩ := hb2 hfin
            exact ⟨x1, by omega, x3⟩
      · by_cases hb38 : b = 38
        · subst hb38
          rw [decode_loop_amp]
          rw [decode_loop_acc d content rest2 (idx + 1) true (idx + 1) _ _]
          simp only [List.nil_append]
          have := ih (idx + 1) true (idx + 1) hrest2 (by omega)
          simp only [cond_true, Nat.add_sub_cancel] at this
          obtain ⟨ha, hb2, hc⟩ := this
          refine ⟨ranges_wf_mono (by omega) ha, ?_, hc⟩
          intro hfin
          obtain ⟨x1, x2, x3⟩ := hb2 hfin
          exact ⟨x1, by omega, x3⟩
        · rw [decode_loop_inside hb59 hb38]
          have := ih (idx + 1) true start hrest2 (by omega)
          simp only [cond_true] at this
          exact this

/-- decode_to step: a plain byte outside an entity is copied. -/
theorem decode_to_loop_outside {d : EntityData} {content : List Byte} {b : Byte}
    {rest data : List Byte} {idx start : Nat} (h : ¬ b = 38) :
    decode_to_loop d content (b :: rest) idx false start data =
      decode_to_loop d content rest (idx + 1) false start (data ++ [b]) := by
  simp [decode_to_loop, h]

/-- decode_to step: an ampersand outside an entity opens one. -/
theorem decode_to_loop_open {d : EntityData} {content : List Byte}
    {rest data : List Byte} {idx start : Nat} :
    decode_to_loop d content (38 :: rest) idx false start data =
      decode_to_loop d content rest (idx + 1) true (idx + 1) data := by
  simp [decode_to_loop]

/-- decode_to step: a semicolon closing a recognized entity writes its UTF-8
bytes. -/
theorem decode_to_loop_semi_some {d : EntityData} {content : List Byte}
    {rest data : List Byte} {idx start ch : Nat} (hne : ¬ start = idx)
    (hdec : Entity.decode d (byte_slice content start idx) = some ch) :
    decode_to_loop d content (59 :: rest) idx true start data =
      decode_to_loop d content rest (idx + 1) false start
        (data ++ char_to_utf8_bytes ch) := by
  simp [decode_to_loop, hne, hdec]

/-- decode_to step: a semicolon not closing a recognized entity copies the
source range. -/
theorem decode_to_loop_semi_none {d : EntityData} {content : List Byte}
    {rest data : List Byte} {idx start : Nat}
    (h : (if start ≠ idx then Entity.decode d (byte_slice content start idx)
      else none) = none) :
    decode_to_loop d content (59 :: rest) idx true start data =
      decode_to_loop d content rest (idx + 1) false start
        (data ++ byte_slice content (start - 1) (idx + 1)) := by
  simp only [decode_to_loop]
  rw [h]
  simp

/-- decode_to step: a second ampersand copies the aborted run and restarts. -/
theorem decode_to_loop_amp {d : EntityData} {content : List Byte}
    {rest data : List Byte} {idx start : Nat} :
    decode_to_loop d content (38 :: rest) idx true start data =
      decode_to_loop d content rest (idx + 1) true (idx + 1)
        (data ++ byte_slice content (start - 1) idx) := by
  simp [decode_to_loop]

/-- decode_to step: an interior entity byte. -/
theorem decode_to_loop_inside {d : EntityData} {content : List Byte} {b : Byte}
    {rest data : List Byte} {idx start : Nat} (h59 : ¬ b = 59) (h38 : ¬ b = 38) :
    decode_to_loop d content (b :: rest) idx true start data =
      decode_to_loop d content rest (idx + 1) true start data := by
  simp [decode_to_loop, h59, h38]

/-- The buffer-writing decode loop produces exactly the reference
materialization of the substitutions found by the view-building loop. -/
theorem decode_to_loop_spec (d : EntityData) (content : List Byte) :
    ∀ (rest : List Byte) (idx : Nat) (inEnt : Bool) (start : Nat)
      (data : List Byte),
      rest = content.drop idx →
      (inEnt = true → 1 ≤ start ∧ start ≤ idx) →
      decode_to_loop d content rest idx inEnt start data =
        data ++ materializeFrom decodedBytesLike content
          (cond inEnt (start - 1) idx)
          (decode_loop d content rest idx inEnt start [] []).1 := by
  intro rest
  induction rest with
  | nil =>
    intro idx inEnt start data hrest hstart
    cases inEnt with
    | false =>
      show data = data ++ materializeFrom decodedBytesLike content idx []
      show data = data ++ content.drop idx
      rw [← hrest]
      simp
    | true =>
      show data ++ content.drop (start - 1) =
        data ++ materializeFrom decodedBytesLike content (start - 1) []
      rfl
  | cons b rest2 ih =>
    intro idx inEnt start data hrest hstart
    have hd : content.drop idx = b :: rest2 := hrest.symm
    have hidx : idx < content.length := by
      by_contra hcon
      rw [List.drop_eq_nil_of_le (by omega)] at hd
      exact absurd hd (by simp)
    have hrest2 : rest2 = content.drop (idx + 1) := by
      have h2 : content.drop (idx + 1) = (content.drop idx).drop 1 := by
        rw [List.drop_drop]
      rw [h2, hd]
      rfl
    have hb0 : content.getD idx 0 = b := by
      rw [List.getD_eq_getElem?_getD]
      have : content[idx]? = some b := by
        have h0 : (content.drop idx)[0]? = some b := by rw [hd]; simp
        rw [List.getElem?_drop] at h0
        simpa using h0
      rw [this]
      rfl
    cases inEnt with
    | false =>
      simp only [cond_false]
      by_cases hb : b = 38
      · subst hb
        rw [decode_to_loop_open, decode_loop_open,
          ih (idx + 1) true (idx + 1) data hrest2 (by omega)]
        simp only [cond_true, Nat.add_sub_cancel]
      · rw [decode_to_loop_outside hb, decode_loop_outside hb,
          ih (idx + 1) false start (data ++ [b]) hrest2 (by simp)]
        simp only [cond_false]
        have hgeom := (decode_loop_geom d content rest2 (idx + 1) false start
          hrest2 (by simp)).1
        simp only [cond_false] at hgeom
        rw [materializeFrom_advance decodedBytesLike content _ idx (idx + 1)
          (by omega) hgeom]
        have hsl : byte_slice content idx (idx + 1) = [b] := by
          rw [byte_slice_cons content (by omega) hidx, hb0]
          have : byte_slice content (idx + 1) (idx + 1) = [] := byte_slice_self _ _
          rw [this]
        rw [hsl, List.append_assoc]
    | true =>
      obtain ⟨hs1, hs2⟩ := hstart rfl
      simp only [cond_true]
      by_cases hb59 : b = 59
      · subst hb59
        by_cases hse : start = idx
        · subst hse
          rw [decode_to_loop_semi_none (by simp), decode_loop_semi_empty,
            ih (start + 1) false start _ hrest2 (by simp)]
          simp only [cond_false]
          have hgeom := (decode_loop_geom d content rest2 (start + 1) false start
            hrest2 (by simp)).1
          simp only [cond_false] at hgeom
          rw [materializeFrom_advance decodedBytesLike content _ (start - 1)
            (start + 1) (by omega) hgeom]
          rw [List.append_assoc]
        · cases hdec : Entity.decode d (byte_slice content start idx) with
          | some ch =>
            rw [decode_to_loop_semi_some hse hdec, decode_loop_semi_some hse hdec]
            rw [decode_loop_acc d content rest2 (idx + 1) false start _ _]
            simp only [List.nil_append, List.singleton_append]
            rw [ih (idx + 1) false start _ hrest2 (by simp)]
            simp only [cond_false]
            have hM : materializeFrom decodedBytesLike content (start - 1)
                (((start - 1, idx), (ch, char_to_utf8_bytes ch)) ::
                  (decode_loop d content rest2 (idx + 1) false start [] []).1) =
                byte_slice content (start - 1) (start - 1) ++
                  char_to_utf8_bytes ch ++
                  materializeFrom decodedBytesLike content (idx + 1)
                    (decode_loop d content rest2 (idx + 1) false start [] []).1 :=
              rfl
            rw [hM, byte_slice_self]
            simp [List.append_assoc]
          | none =>
            rw [decode_to_loop_semi_none (by simp [hse, hdec]),
              decode_loop_semi_none hse hdec]
            rw [decode_loop_acc d content rest2 (idx + 1) false start _ _]
            simp only [List.nil_append]
            rw [ih (idx + 1) false start _ hrest2 (by simp)]
            simp only [cond_false]
            have hgeom := (decode_loop_geom d content rest2 (idx + 1) false start
              hrest2 (by simp)).1
            simp only [cond_false] at hgeom
            rw [materializeFrom_advance decodedBytesLike content _ (start - 1)
              (idx + 1) (by omega) hgeom]
            rw [List.append_assoc]
      · by_cases hb38 : b = 38
        · subst hb38
          rw [decode_to_loop_amp, decode_loop_amp]
          rw [decode_loop_acc d content rest2 (idx + 1) true (idx + 1) _ _]
          simp only [List.nil_append]
          rw [ih (idx + 1) true (idx + 1) _ hrest2 (by omega)]
          simp only [cond_true, Nat.add_sub_cancel]
          have hgeom := (decode_loop_geom d content rest2 (idx + 1) true (idx + 1)
            hrest2 (by omega)).1
          simp only [cond_true, Nat.add_sub_cancel] at hgeom
          rw [materializeFrom_advance decodedBytesLike content _ (start - 1) idx
            (by omega) hgeom]
          rw [List.append_assoc]
        · rw [decode_to_loop_inside hb59 hb38, decode_loop_inside hb59 hb38,
            ih (idx + 1) true start data hrest2 (by omega)]
          simp only [cond_true]

/-- The substitution list built by decode is always well formed. -/
theorem decode_ranges_wf (d : EntityData) (content : List Byte) :
    ranges_wf 0 content.length ((decode d content).entities.map (·.1)) = true := by
  have h := (decode_loop_geom d content content 0 false 0 (by simp) (by simp)).1
  simp only [cond_false] at h
  exact h

/-- Every substitution payload of decode is the UTF-8 encoding of its scalar. -/
theorem decode_payload (d : EntityData) (content : List Byte) :
    ∀ q ∈ (decode d content).entities, q.2.2 = char_to_utf8_bytes q.2.1 :=
  (decode_loop_geom d content content 0 false 0 (by simp) (by simp)).2.2

/-- The materialized decode view as a reference splice. -/
theorem decode_to_bytes_eq_materialize (d : EntityData) (content : List Byte) :
    (decode d content).to_bytes =
      materializeFrom decodedBytesLike content 0 (decode d content).entities := by
  refine decoded_to_bytes_eq_materialize _ (decode_ranges_wf d content) ?_
  intro q hq
  rw [decode_payload d content q hq]
  exact char_to_utf8_bytes_len_pos _

/-- decode_to writes exactly the materialized bytes of the decode view. -/
theorem decode_to_spec (d : EntityData) (content : List Byte) (data : List Byte) :
    decode_to d content data = data ++ (decode d content).to_bytes := by
  unfold decode_to
  rw [decode_to_loop_spec d content content 0 false 0 data (by simp) (by simp)]
  rw [decode_to_bytes_eq_materialize]
  rfl

/-- Components of a well-formed range list. -/
theorem ranges_wf_lo_le : ∀ {rs : List CodeRange} {lo len : Nat},
    ranges_wf lo len rs = true → ∀ r ∈ rs, lo ≤ r.1 ∧ r.1 ≤ r.2 ∧ r.2 < len := by
  intro rs
  induction rs with
  | nil => intro lo len _ r hr; simp at hr
  | cons a rest ih =>
    intro lo len hwf r hr
    obtain ⟨h1, h2, h3, h4⟩ := ranges_wf_cons.mp hwf
    rcases List.mem_cons.mp hr with h | h
    · subst h; exact ⟨h1, h2, h3⟩
    · have := ih h4 r h
      exact ⟨by omega, this.2.1, this.2.2⟩

/-- Every tiled event starts at or after the tiling origin. -/
theorem tiles_lo_ge : ∀ {items : List Utf8Item} {p : Nat},
    tiles_from p items = true → ∀ it ∈ items, p ≤ it.lo := by
  intro items
  induction items with
  | nil => intro p _ it hit; simp at hit
  | cons a rest ih =>
    intro p htiles it hit
    obtain ⟨h1, h2, h3⟩ := tiles_from_cons.mp htiles
    rcases List.mem_cons.mp hit with h | h
    · subst h; omega
    · have := ih h3 it h
      omega

/-- The input tail from any position past all substitution ranges is a
suffix of the materialization. -/
theorem materialize_suffix {T : Type} (I : BytesLike T) (bytes : List Byte) :
    ∀ (ents : List (CodeRange × T)) (p q : Nat), p ≤ q →
      (∀ r ∈ ents, r.1.2 + 1 ≤ q) →
      bytes.drop q <:+ materializeFrom I bytes p ents := by
  intro ents
  induction ents with
  | nil =>
    intro p q hpq _
    show bytes.drop q <:+ bytes.drop p
    have h1 : bytes.drop q = (bytes.drop p).drop (q - p) := by
      rw [List.drop_drop]
      congr 1
      omega
    rw [h1]
    exact List.drop_suffix _ _
  | cons e rest ih =>
    intro p q hpq hr
    obtain ⟨r, t⟩ := e
    have hsub := ih (r.2 + 1) q (hr (r, t) (by simp))
      (fun r2 h2 => hr r2 (List.mem_cons_of_mem _ h2))
    show bytes.drop q <:+ byte_slice bytes p r.1 ++ I.bytesOf t ++ _
    rw [List.append_assoc]
    refine hsub.trans ?_
    rw [← List.append_assoc]
    exact List.suffix_append _ _

/-- Substitutions produced by encode_with never overlap a malformed range of
the scan. -/
theorem encode_wrong_disjoint (d : EntityData) (encode_type : EncodeType)
    (filter_fn : Nat → EncodeType → EncodeFilterReturnData) (len : Nat) :
    ∀ (items : List Utf8Item) (p : Nat), tiles_from p items = true →
      (∀ it ∈ items, it.hi < len) →
      ∀ s e, Utf8Item.wrong s e ∈ items →
        ∀ q ∈ items.filterMap (encode_filter_entity d encode_type filter_fn),
          q.1.2 < s ∨ e < q.1.1 := by
  intro items
  induction items with
  | nil => intro p _ _ s e hmem; simp at hmem
  | cons it rest ih =>
    intro p htiles hhi s e hmem q hq
    obtain ⟨h1, h2, h3⟩ := tiles_from_cons.mp htiles
    have hhirest : ∀ it2 ∈ rest, it2.hi < len :=
      fun it2 hx => hhi it2 (List.mem_cons_of_mem _ hx)
    rcases List.mem_cons.mp hmem with hw | hw
    · -- the malformed event is the head: it produces no substitution
      subst hw
      have hfi : encode_filter_entity d encode_type filter_fn
          (Utf8Item.wrong s e) = none := rfl
      rw [List.filterMap_cons_none hfi] at hq
      have hrw := ranges_wf_of_tiles _
        (encode_filter_entity_range d encode_type filter_fn) len rest
        ((Utf8Item.wrong s e).hi + 1) ((Utf8Item.wrong s e).hi + 1)
        (Nat.le_refl _) h3 hhirest
      have hql := ranges_wf_lo_le hrw q.1 (List.mem_map_of_mem (·.1) hq)
      have he : (Utf8Item.wrong s e).hi = e := rfl
      right
      omega
    · rcases hfi : encode_filter_entity d encode_type filter_fn it with _ | q2
      · rw [List.filterMap_cons_none hfi] at hq
        exact ih (it.hi + 1) h3 hhirest s e hw q hq
      · rw [List.filterMap_cons_some hfi] at hq
        rcases List.mem_cons.mp hq with hq1 | hq1
        · subst hq1
          have hrange := encode_filter_entity_range d encode_type filter_fn it q hfi
          have hslo : it.hi + 1 ≤ s := by
            have := tiles_lo_ge h3 (Utf8Item.wrong s e) hw
            simpa [Utf8Item.lo] using this
          left
          rw [hrange]
          show it.hi < s
          omega
        · exact ih (it.hi + 1) h3 hhirest s e hw q hq1

/-- C3 (amended): when the scanner meets `;` in the Inside state with an
empty interior (the sequence `&;`), decode records NO error and no
substitution, the two bytes pass through verbatim, and scanning returns to
the Outside state. -/
theorem spec_c3 (d : EntityData) (content rest : List Byte) (idx : Nat)
    (ents : List (CodeRange × (Nat × List Byte))) (errs : List CodeRange) :
    decode_loop d content (59 :: rest) idx true idx ents errs =
      decode_loop d content rest (idx + 1) false idx ents errs ∧
    (decode spec_entity_data [38, 59]).errors = [] ∧
    (decode spec_entity_data [38, 59]).entities = [] ∧
    (decode spec_entity_data [38, 59]).to_bytes = [38, 59] :=
  ⟨decode_loop_semi_empty, by decide, by decide, by decide⟩

/-- C3 counterexample: `decode "&;"` records no error at all, not exactly
one EmptyEntity error as claimed. -/
theorem spec_c3_counterexample :
    (decode spec_entity_data [38, 59]).errors.length = 0 := by decide

/-- C4 (amended): when the input ends while the scanner is in the Inside
state, decode records NO UnterminatedEntity error (the error list is exactly
what the scan accumulated) and the bytes from the final `&` to the end of
input appear verbatim as a suffix of the materialized output. -/
theorem spec_c4 (d : EntityData) (content : List Byte)
    (hfin : (decode_loop d content content 0 false 0 [] []).2.2.1 = true) :
    (decode d content).errors =
      (decode_loop d content content 0 false 0 [] []).2.1 ∧
    content.drop ((decode_loop d content content 0 false 0 [] []).2.2.2 - 1) <:+
      (decode d content).to_bytes := by
  constructor
  · rfl
  · have hg := decode_loop_geom d content content 0 false 0 (by simp) (by simp)
    obtain ⟨x1, x2, x3⟩ := hg.2.1 hfin
    rw [decode_to_bytes_eq_materialize]
    refine materialize_suffix decodedBytesLike content _ 0 _ (by omega) ?_
    intro r hr
    have := x3 r hr
    omega

/-- C4 witness: `decode "abc&"` ends inside an entity; its error list is the
accumulated one (empty) and `&` passes through. -/
theorem spec_c4_witness :
    (decode_loop spec_entity_data [97, 98, 99, 38] [97, 98, 99, 38]
      0 false 0 [] []).2.2.1 = true ∧
    ((decode spec_entity_data [97, 98, 99, 38]).errors =
      (decode_loop spec_entity_data [97, 98, 99, 38] [97, 98, 99, 38]
        0 false 0 [] []).2.1 ∧
    List.drop ((decode_loop spec_entity_data [97, 98, 99, 38] [97, 98, 99, 38]
        0 false 0 [] []).2.2.2 - 1) [97, 98, 99, 38] <:+
      (decode spec_entity_data [97, 98, 99, 38]).to_bytes) :=
  ⟨by decide, spec_c4 spec_entity_data [97, 98, 99, 38] (by decide)⟩

/-- C4 counterexample: `decode "abc&"` records no error at all, not exactly
one UnterminatedEntity error as claimed. -/
theorem spec_c4_counterexample :
    (decode spec_entity_data [97, 98, 99, 38]).errors.length = 0 := by decide

/-- C5 (amended): the encode view materializes every scanner event in place,
so malformed ranges pass through verbatim and no substitution overlaps them;
encode_with_to writes the same per-event outputs but drops the unscanned
trailing bytes of an incomplete final sequence. -/
theorem spec_c5 (d : EntityData) (content : List Byte) (encode_type : EncodeType)
    (filter_fn : Nat → EncodeType → EncodeFilterReturnData) :
    (encode_with d content encode_type filter_fn).to_bytes =
      ((loop_utf8_bytes content).map
        (encode_to_item_bytes d content encode_type filter_fn)).flatten ++
        content.drop (items_end (loop_utf8_bytes content)) ∧
    encode_with_to d content encode_type filter_fn [] =
      ((loop_utf8_bytes content).map
        (encode_to_item_bytes d content encode_type filter_fn)).flatten ∧
    ∀ s e, Utf8Item.wrong s e ∈ loop_utf8_bytes content →
      encode_to_item_bytes d content encode_type filter_fn (Utf8Item.wrong s e) =
        byte_slice content s (e + 1) ∧
      ∀ q ∈ (encode_with d content encode_type filter_fn).entities,
        q.1.2 < s ∨ e < q.1.1 := by
  refine ⟨encode_with_to_bytes_spec d content encode_type filter_fn, ?_, ?_⟩
  · rw [encode_with_to_flatten]
    simp
  · intro s e hmem
    refine ⟨rfl, ?_⟩
    intro q hq
    refine encode_wrong_disjoint d encode_type filter_fn content.length
      (loop_utf8_bytes content) 0 ?_ ?_ s e hmem q hq
    · have := loop_utf8_go_tiles content 0 0 0 0 (Nat.le_refl 0)
      simpa [loop_utf8_bytes] using this
    · intro it hit
      have := loop_utf8_go_hi_lt content 0 0 0 0 it hit
      simpa using this

/-- C5 witness: the single malformed byte 0xFF passes through the encode
view verbatim and is covered by no substitution. -/
theorem spec_c5_witness :
    (Utf8Item.wrong 0 0 ∈ loop_utf8_bytes [255]) ∧
    (encode_to_item_bytes spec_entity_data [255] EncodeType.Named
        (fun ch et => CharacterSet.Html.filter ch et) (Utf8Item.wrong 0 0) =
      byte_slice [255] 0 1 ∧
    ∀ q ∈ (encode_with spec_entity_data [255] EncodeType.Named
        (fun ch et => CharacterSet.Html.filter ch et)).entities,
      q.1.2 < 0 ∨ 0 < q.1.1) :=
  ⟨by decide,
    (spec_c5 spec_entity_data [255] EncodeType.Named
      (fun ch et => CharacterSet.Html.filter ch et)).2.2 0 0 (by decide)⟩

/-- C5 counterexample: a trailing incomplete UTF-8 sequence is dropped by
encode_with_to but kept by the encode view. -/
theorem spec_c5_counterexample :
    encode_with_to spec_entity_data [194] EncodeType.Named
      (fun ch et => CharacterSet.Html.filter ch et) [] = [] ∧
    (encode_with spec_entity_data [194] EncodeType.Named
      (fun ch et => CharacterSet.Html.filter ch et)).to_bytes = [194] := by
  exact ⟨by decide, by decide⟩

/-- C7 (amended): decode_to always writes exactly the materialized decode
view; encode_with_to and encode_to write exactly the materialized view
whenever the UTF-8 scan covers the whole input (in particular on all valid
UTF-8), but drop an unscanned trailing incomplete sequence otherwise. -/
theorem spec_c7 (d : EntityData) (content data : List Byte)
    (encode_type : EncodeType) (charset : CharacterSet)
    (filter_fn : Nat → EncodeType → EncodeFilterReturnData) :
    decode_to d content data = data ++ (decode d content).to_bytes ∧
    (items_end (loop_utf8_bytes content) = content.length →
      encode_with_to d content encode_type filter_fn data =
        data ++ (encode_with d content encode_type filter_fn).to_bytes ∧
      encode_to d content encode_type charset data =
        data ++ (encode d content encode_type charset).to_bytes) := by
  refine ⟨decode_to_spec d content data, ?_⟩
  intro hend
  constructor
  · rw [encode_with_to_flatten, encode_with_to_bytes_spec, hend]
    simp
  · have hE : encode d content encode_type charset =
        encode_with d content encode_type (fun ch et => charset.filter ch et) :=
      rfl
    show encode_with_to d content encode_type
      (fun ch et => charset.filter ch et) data = _
    rw [hE, encode_with_to_flatten, encode_with_to_bytes_spec, hend]
    simp

/-- C7 witness: on the plain ASCII input `<` the scan is complete and both
materialization paths agree. -/
theorem spec_c7_witness :
    items_end (loop_utf8_bytes [60]) = List.length [60] ∧
    (encode_with_to spec_entity_data [60] EncodeType.Named
        (fun ch et => CharacterSet.Html.filter ch et) [61] =
      [61] ++ (encode_with spec_entity_data [60] EncodeType.Named
        (fun ch et => CharacterSet.Html.filter ch et)).to_bytes) :=
  ⟨by decide,
    ((spec_c7 spec_entity_data [60] [61] EncodeType.Named CharacterSet.Html
      (fun ch et => CharacterSet.Html.filter ch et)).2 (by decide)).1⟩

/-- C7 counterexample: on the input 0xC2 (an incomplete UTF-8 sequence) the
buffer-writing encoder and the materialized view disagree. -/
theorem spec_c7_counterexample :
    encode_with_to spec_entity_data [194] EncodeType.Named
      (fun ch et => CharacterSet.Html.filter ch et) [] ≠
    (encode_with spec_entity_data [194] EncodeType.Named
      (fun ch et => CharacterSet.Html.filter ch et)).to_bytes := by decide

/-- C8: for every view whose substitution ranges are well formed,
bytes_len is the original length minus the replaced ranges plus the
replacement lengths. -/
theorem spec_c8 {T : Type} (I : BytesLike T) (bytes : List Byte)
    (entities : List (CodeRange × T))
    (hwf : ranges_wf 0 bytes.length (entities.map (·.1)) = true) :
    call_trait_method_bytes_len I bytes entities =
      bytes.length - (entities.map (fun q => q.1.2 + 1 - q.1.1)).sum +
        (entities.map (fun q => I.bytes_len q.2)).sum := by
  cases entities with
  | nil => simp [call_trait_method_bytes_len]
  | cons q rest =>
    have hsum := bytes_len_go_sum I bytes (q :: rest) 0 0 hwf
    have hle := ranges_sum_le bytes (q :: rest) 0 hwf
    unfold call_trait_method_bytes_len
    rw [if_neg (by simp)]
    omega

/-- C8 witness: a concrete three-byte view with one substitution. -/
theorem spec_c8_witness :
    ranges_wf 0 ([10, 11, 12] : List Byte).length
      (([((1, 1), CharEntity.mk EntityType.named [97])].map (·.1))) = true ∧
    call_trait_method_bytes_len charEntityBytesLike [10, 11, 12]
        [((1, 1), CharEntity.mk EntityType.named [97])] =
      ([10, 11, 12] : List Byte).length -
        ([((1, 1), CharEntity.mk EntityType.named [97])].map
          (fun q => q.1.2 + 1 - q.1.1)).sum +
        ([((1, 1), CharEntity.mk EntityType.named [97])].map
          (fun q => charEntityBytesLike.bytes_len q.2)).sum :=
  ⟨by decide, spec_c8 charEntityBytesLike [10, 11, 12]
    [((1, 1), CharEntity.mk EntityType.named [97])] (by decide)⟩

/-- C9: the substitution lists produced by encode_with, encode and decode
are strictly increasing, pairwise disjoint and within the input bounds. -/
theorem spec_c9 (d : EntityData) (content : List Byte)
    (encode_type : EncodeType) (charset : CharacterSet)
    (filter_fn : Nat → EncodeType → EncodeFilterReturnData) :
    ranges_wf 0 content.length
      ((encode_with d content encode_type filter_fn).entities.map (·.1)) = true ∧
    ranges_wf 0 content.length
      ((encode d content encode_type charset).entities.map (·.1)) = true ∧
    ranges_wf 0 content.length
      ((decode d content).entities.map (·.1)) = true :=
  ⟨encode_with_ranges_wf d content encode_type filter_fn,
    encode_with_ranges_wf d content encode_type (fun ch et => charset.filter ch et),
    decode_ranges_wf d content⟩

/-- C10: random access agrees with materialization for encode and decode
views: byte i is exactly position i of to_bytes, and bytes_len is its
length. -/
theorem spec_c10 (d : EntityData) (content : List Byte)
    (encode_type : EncodeType) (charset : CharacterSet) (i : Nat) :
    ((encode d content encode_type charset).byte i =
        (encode d content encode_type charset).to_bytes[i]? ∧
      (encode d content encode_type charset).bytes_len =
        (encode d content encode_type charset).to_bytes.length) ∧
    ((decode d content).byte i = (decode d content).to_bytes[i]? ∧
      (decode d content).bytes_len = (decode d content).to_bytes.length) := by
  have hE : encode d content encode_type charset =
      encode_with d content encode_type (fun ch et => charset.filter ch et) :=
    rfl
  have hwfE := encode_with_ranges_wf d content encode_type
    (fun ch et => charset.filter ch et)
  have hwfD := decode_ranges_wf d content
  have honeD : ∀ q ∈ (decode d content).entities,
      1 ≤ (decodedBytesLike.bytesOf q.2).length := by
    intro q hq
    rw [show decodedBytesLike.bytesOf q.2 = q.2.2 from rfl,
      decode_payload d content q hq]
    exact char_to_utf8_bytes_len_pos _
  refine ⟨⟨?_, ?_⟩, ?_, ?_⟩
  · rw [show (encode d content encode_type charset).byte i =
      call_trait_method_byte charEntityBytesLike content
        (encode d content encode_type charset).entities i from rfl]
    rw [hE, byte_eq_materialize charEntityBytesLike charEntity_byte_law
      charEntity_len_law content _ hwfE i,
      encoded_to_bytes_eq_materialize _ hwfE]
    rfl
  · rw [show (encode d content encode_type charset).bytes_len =
      call_trait_method_bytes_len charEntityBytesLike content
        (encode d content encode_type charset).entities from rfl]
    rw [hE, bytes_len_eq_materialize charEntityBytesLike charEntity_len_law
      content _ hwfE,
      encoded_to_bytes_eq_materialize _ hwfE]
    rfl
  · rw [show (decode d content).byte i =
      call_trait_method_byte decodedBytesLike content
        (decode d content).entities i from rfl]
    rw [byte_eq_materialize decodedBytesLike decoded_byte_law
      decoded_len_law content _ hwfD i,
      decoded_to_bytes_eq_materialize _ hwfD
        (fun q hq => honeD q hq)]
    rfl
  · rw [show (decode d content).bytes_len =
      call_trait_method_bytes_len decodedBytesLike content
        (decode d content).entities from rfl]
    rw [bytes_len_eq_materialize decodedBytesLike decoded_len_law
      content _ hwfD,
      decoded_to_bytes_eq_materialize _ hwfD
        (fun q hq => honeD q hq)]
    rfl

/-- In a table sorted by code (non-strictly), codes are monotone in the
index. -/
theorem entities_code_mono (tbl : List EntityRecord)
    (hsorted : List.Pairwise (· ≤ ·) (tbl.map (·.2)))
    (i j : Nat) (hij : i ≤ j) (hj : j < tbl.length) :
    (tbl.getD i ([], 0)).2 ≤ (tbl.getD j ([], 0)).2 := by
  rcases Nat.eq_or_lt_of_le hij with h | h
  · subst h
    exact Nat.le_refl _
  · have hi : i < tbl.length := Nat.lt_trans h hj
    have hmi : i < (tbl.map (·.2)).length := by simpa using hi
    have hmj : j < (tbl.map (·.2)).length := by simpa using hj
    have := List.pairwise_iff_getElem.mp hsorted i j hmi hmj h
    simp only [List.getElem_map] at this
    simpa [List.getD_eq_getElem?_getD, List.getElem?_eq_getElem hi,
      List.getElem?_eq_getElem hj] using this

/-- Step equation of the fueled binary search. -/
theorem binary_search_go_succ (tbl : List EntityRecord) (target fuel left right : Nat) :
    binary_search_go tbl target (fuel + 1) left right =
      if left < right then
        (if (tbl.getD (left + (right - left) / 2) ([], 0)).2 < target then
          binary_search_go tbl target fuel (left + (right - left) / 2 + 1) right
        else if target < (tbl.getD (left + (right - left) / 2) ([], 0)).2 then
          binary_search_go tbl target fuel left (left + (right - left) / 2)
        else some (left + (right - left) / 2))
      else none := rfl

/-- Binary search over a code-sorted table finds an index bearing the target
code whenever one lies in the searched range. -/
theorem binary_search_go_spec (tbl : List EntityRecord) (target : Nat)
    (hsorted : List.Pairwise (· ≤ ·) (tbl.map (·.2))) :
    ∀ fuel left right, right ≤ tbl.length → right - left ≤ fuel →
    (∃ k, left ≤ k ∧ k < right ∧ (tbl.getD k ([], 0)).2 = target) →
    ∃ idx, binary_search_go tbl target fuel left right = some idx ∧
      left ≤ idx ∧ idx < right ∧ (tbl.getD idx ([], 0)).2 = target := by
  intro fuel
  induction fuel with
  | zero =>
    rintro left right hr hf ⟨k, hk1, hk2, hk3⟩
    omega
  | succ fuel ih =>
    rintro left right hr hf ⟨k, hk1, hk2, hk3⟩
    have hlr : left < right := by omega
    rw [binary_search_go_succ, if_pos hlr]
    have hmlt : left + (right - left) / 2 < right := by omega
    have hmge : left ≤ left + (right - left) / 2 := by omega
    by_cases h1 : (tbl.getD (left + (right - left) / 2) ([], 0)).2 < target
    · rw [if_pos h1]
      have hkgt : left + (right - left) / 2 < k := by
        by_contra hcon
        push_neg at hcon
        have := entities_code_mono tbl hsorted k (left + (right - left) / 2)
          hcon (by omega)
        omega
      obtain ⟨idx, he, h2, h3, h4⟩ :=
        ih (left + (right - left) / 2 + 1) right hr (by omega)
          ⟨k, by omega, hk2, hk3⟩
      exact ⟨idx, he, by omega, h3, h4⟩
    · rw [if_neg h1]
      by_cases h2 : target < (tbl.getD (left + (right - left) / 2) ([], 0)).2
      · rw [if_pos h2]
        have hklt : k < left + (right - left) / 2 := by
          by_contra hcon
          push_neg at hcon
          have := entities_code_mono tbl hsorted (left + (right - left) / 2) k
            hcon (by omega)
          omega
        obtain ⟨idx, he, ha, hb, hc⟩ :=
          ih left (left + (right - left) / 2) (by omega) (by omega)
            ⟨k, hk1, hklt, hk3⟩
        exact ⟨idx, he, ha, by omega, hc⟩
      · rw [if_neg h2]
        exact ⟨left + (right - left) / 2, rfl, hmge, hmlt, by omega⟩

/-- Step equation of the backward walk. -/
theorem walk_back_succ (tbl : List EntityRecord) (ch i : Nat) :
    walk_back tbl ch (i + 1) =
      if (tbl.getD i ([], 0)).2 == ch then walk_back tbl ch i else i + 1 := rfl

/-- The backward walk lands on an index bearing the code whose predecessor
does not bear it. -/
theorem walk_back_spec (tbl : List EntityRecord) (ch : Nat) :
    ∀ idx, (tbl.getD idx ([], 0)).2 = ch →
    walk_back tbl ch idx ≤ idx ∧
    (tbl.getD (walk_back tbl ch idx) ([], 0)).2 = ch ∧
    (walk_back tbl ch idx = 0 ∨
      (tbl.getD (walk_back tbl ch idx - 1) ([], 0)).2 ≠ ch) := by
  intro idx
  induction idx with
  | zero => exact fun h => ⟨Nat.le_refl _, h, Or.inl rfl⟩
  | succ i ih =>
    intro h
    by_cases hc : (tbl.getD i ([], 0)).2 = ch
    · have hw : walk_back tbl ch (i + 1) = walk_back tbl ch i := by
        rw [walk_back_succ, if_pos (by simp only [beq_iff_eq]; exact hc)]
      obtain ⟨a, b, c⟩ := ih hc
      rw [hw]
      exact ⟨by omega, b, c⟩
    · have hw : walk_back tbl ch (i + 1) = i + 1 := by
        rw [walk_back_succ, if_neg (by simp only [beq_iff_eq]; exact hc)]
      rw [hw]
      exact ⟨Nat.le_refl _, h, Or.inr (by simpa using hc)⟩

/-- With a code-sorted table, the backward walk reaches the globally first
index bearing the code. -/
theorem walk_back_first (tbl : List EntityRecord) (ch : Nat)
    (hsorted : List.Pairwise (· ≤ ·) (tbl.map (·.2)))
    (idx : Nat) (hidx : idx < tbl.length)
    (h : (tbl.getD idx ([], 0)).2 = ch) :
    ∀ j, j < walk_back tbl ch idx → (tbl.getD j ([], 0)).2 ≠ ch := by
  obtain ⟨hle, heq, hb⟩ := walk_back_spec tbl ch idx h
  intro j hj hjc
  rcases hb with h0 | hprev
  · omega
  · have h1 : (tbl.getD j ([], 0)).2 ≤
        (tbl.getD (walk_back tbl ch idx - 1) ([], 0)).2 :=
      entities_code_mono tbl hsorted j (walk_back tbl ch idx - 1)
        (by omega) (by omega)
    have h2 : (tbl.getD (walk_back tbl ch idx - 1) ([], 0)).2 ≤
        (tbl.getD (walk_back tbl ch idx) ([], 0)).2 :=
      entities_code_mono tbl hsorted (walk_back tbl ch idx - 1)
        (walk_back tbl ch idx) (by omega) (by omega)
    omega

/-- C6: whenever the table is sorted by code and some entry bears the code
of the character, encode_char with the Named bit set returns the named
entity at the FIRST table index bearing that code. -/
theorem spec_c6 (d : EntityData) (ch : Nat) (encode_type : EncodeType)
    (hnamed : encode_type.toU8 &&& EncodeType.Named.toU8 > 0)
    (hsorted : List.Pairwise (· ≤ ·) (d.ENTITIES.map (·.2)))
    (hmem : ∃ k, k < d.ENTITIES.length ∧ (d.ENTITIES.getD k ([], 0)).2 = ch) :
    ∃ i, i < d.ENTITIES.length ∧ (d.ENTITIES.getD i ([], 0)).2 = ch ∧
      (∀ j, j < i → (d.ENTITIES.getD j ([], 0)).2 ≠ ch) ∧
      encode_char d ch encode_type =
        some { entity_type := EntityType.named,
               entity_data := (d.ENTITIES.getD i ([], 0)).1 } := by
  obtain ⟨k, hk1, hk2⟩ := hmem
  obtain ⟨idx, hbs, _, hlt, hcode⟩ :=
    binary_search_go_spec d.ENTITIES ch hsorted (d.ENTITIES.length + 1)
      0 d.ENTITIES.length (Nat.le_refl _) (by omega) ⟨k, by omega, hk1, hk2⟩
  obtain ⟨hwle, hwcode, _⟩ := walk_back_spec d.ENTITIES ch idx hcode
  refine ⟨walk_back d.ENTITIES ch idx, by omega, hwcode,
    walk_back_first d.ENTITIES ch hsorted idx hlt hcode, ?_⟩
  have hbs2 : binary_search_by_code d.ENTITIES ch = some idx := hbs
  simp only [encode_char]
  rw [if_pos hnamed, hbs2]

/-- C6 witness: with the concrete table, the character `<` resolves to the
first (and only) entry with code 60, the name `lt`. -/
theorem spec_c6_witness :
    (EncodeType.Named.toU8 &&& EncodeType.Named.toU8 > 0) ∧
    List.Pairwise (· ≤ ·) (spec_entity_data.ENTITIES.map (·.2)) ∧
    (∃ k, k < spec_entity_data.ENTITIES.length ∧
      (spec_entity_data.ENTITIES.getD k ([], 0)).2 = 60) ∧
    (∃ i, i < spec_entity_data.ENTITIES.length ∧
      (spec_entity_data.ENTITIES.getD i ([], 0)).2 = 60 ∧
      (∀ j, j < i → (spec_entity_data.ENTITIES.getD j ([], 0)).2 ≠ 60) ∧
      encode_char spec_entity_data 60 EncodeType.Named =
        some { entity_type := EntityType.named,
               entity_data := (spec_entity_data.ENTITIES.getD i ([], 0)).1 }) :=
  ⟨by decide, by decide, ⟨3, by decide, by decide⟩,
    spec_c6 spec_entity_data 60 EncodeType.Named (by decide) (by decide)
      ⟨3, by decide, by decide⟩⟩

/-- Unfolding equation of digit_value. -/
theorem digit_value_eval (radix b : Nat) :
    digit_value radix b =
      match (if 48 ≤ b && b ≤ 57 then some (b - 48)
        else if 97 ≤ b && b ≤ 122 then some (b - 87)
        else if 65 ≤ b && b ≤ 90 then some (b - 55)
        else none) with
      | some d => if d < radix then some d else none
      | none => none := rfl

/-- A byte accepted as a base-10 digit is an ASCII digit. -/
theorem digit_value_ten_digit (b dv : Nat) (h : digit_value 10 b = some dv) :
    is_ascii_digit b = true := by
  rw [digit_value_eval] at h
  by_cases h1 : (48 ≤ b && b ≤ 57) = true
  · simpa [is_ascii_digit] using h1
  · rw [if_neg h1] at h
    by_cases h2 : (97 ≤ b && b ≤ 122) = true
    · rw [if_pos h2] at h
      have h' : (if b - 87 < 10 then some (b - 87) else none) = some dv := h
      have hb : 97 ≤ b ∧ b ≤ 122 := by simpa using h2
      rw [if_neg (by omega)] at h'
      exact absurd h' (by simp)
    · rw [if_neg h2] at h
      by_cases h3 : (65 ≤ b && b ≤ 90) = true
      · rw [if_pos h3] at h
        have h' : (if b - 55 < 10 then some (b - 55) else none) = some dv := h
        have hb : 65 ≤ b ∧ b ≤ 90 := by simpa using h3
        rw [if_neg (by omega)] at h'
        exact absurd h' (by simp)
      · rw [if_neg h3] at h
        exact absurd h (by simp)

/-- A byte accepted as a base-16 digit passes the hex-digit test. -/
theorem digit_value_hex_digit (b dv : Nat) (h : digit_value 16 b = some dv) :
    is_hex_digit b = true := by
  rw [digit_value_eval] at h
  by_cases h1 : (48 ≤ b && b ≤ 57) = true
  · have hb : 48 ≤ b ∧ b ≤ 57 := by simpa using h1
    simp [is_hex_digit, is_ascii_digit]
    exact Or.inr hb
  · rw [if_neg h1] at h
    by_cases h2 : (97 ≤ b && b ≤ 122) = true
    · rw [if_pos h2] at h
      have h' : (if b - 87 < 16 then some (b - 87) else none) = some dv := h
      have hb : 97 ≤ b ∧ b ≤ 122 := by simpa using h2
      by_cases hlt : b - 87 < 16
      · have hfix : ∀ x : Nat, 97 ≤ x → x - 87 < 16 → x ≤ 102 := by
          intro x hx1 hx2
          omega
        simp [is_hex_digit, is_ascii_digit]
        exact Or.inl (Or.inl ⟨hb.1, hfix b hb.1 hlt⟩)
      · rw [if_neg hlt] at h'
        exact absurd h' (by simp)
    · rw [if_neg h2] at h
      by_cases h3 : (65 ≤ b && b ≤ 90) = true
      · rw [if_pos h3] at h
        have h' : (if b - 55 < 16 then some (b - 55) else none) = some dv := h
        have hb : 65 ≤ b ∧ b ≤ 90 := by simpa using h3
        by_cases hlt : b - 55 < 16
        · have hfix : ∀ x : Nat, 65 ≤ x → x - 55 < 16 → x ≤ 70 := by
            intro x hx1 hx2
            omega
          simp [is_hex_digit, is_ascii_digit]
          exact Or.inl (Or.inr ⟨hb.1, hfix b hb.1 hlt⟩)
        · rw [if_neg hlt] at h'
          exact absurd h' (by simp)
      · rw [if_neg h3] at h
        exact absurd h (by simp)

/-- Step equation of digits_value. -/
theorem digits_value_cons (radix b : Nat) (rest : List Byte) (acc : Nat) :
    digits_value radix (b :: rest) acc =
      match digit_value radix b with
      | some d => digits_value radix rest (acc * radix + d)
      | none => none := rfl

/-- A successful digits_value run accepts every byte as a digit. -/
theorem digits_value_digits (radix : Nat) :
    ∀ (l : List Byte) (acc v : Nat), digits_value radix l acc = some v →
      ∀ b ∈ l, ∃ dv, digit_value radix b = some dv := by
  intro l
  induction l with
  | nil =>
    intro acc v h b hb
    simp at hb
  | cons c rest ih =>
    intro acc v h b hb
    rw [digits_value_cons] at h
    cases hdc : digit_value radix c with
    | none =>
      rw [hdc] at h
      exact Option.noConfusion h
    | some d =>
      rw [hdc] at h
      rcases List.mem_cons.mp hb with hbc | hbr
      · exact ⟨d, hbc ▸ hdc⟩
      · exact ih _ v h b hbr

/-- A parsed decimal digit string is all ASCII digits. -/
theorem digits_value_all_digits (l : List Byte) (acc v : Nat)
    (h : digits_value 10 l acc = some v) : l.all is_ascii_digit = true := by
  rw [List.all_eq_true]
  intro b hb
  obtain ⟨dv, hdv⟩ := digits_value_digits 10 l acc v h b hb
  exact digit_value_ten_digit b dv hdv

/-- A parsed hex digit string is all hex digits. -/
theorem digits_value_all_hex (l : List Byte) (acc v : Nat)
    (h : digits_value 16 l acc = some v) : l.all is_hex_digit = true := by
  rw [List.all_eq_true]
  intro b hb
  obtain ⟨dv, hdv⟩ := digits_value_digits 16 l acc v h b hb
  exact digit_value_hex_digit b dv hdv

/-- Evaluation of numbers_to_char on a parsed digit string: the i64 bound
check, then truncation modulo 2^32, then the scalar test. -/
theorem numbers_to_char_eval (l : List Byte) (radix v : Nat) (hne : l ≠ [])
    (hv : digits_value radix l 0 = some v) :
    numbers_to_char l radix =
      if v ≤ i64_max then char_from_u32 (v % 4294967296) else none := by
  have hni : l.isEmpty = false := by
    cases l with
    | nil => exact absurd rfl hne
    | cons a t => rfl
  have hfsr : from_str_radix radix l = if v ≤ i64_max then some v else none := by
    unfold from_str_radix
    rw [if_neg (by simp [hni]), hv]
  unfold numbers_to_char
  rw [if_pos (by simp [hni]), hfsr]
  by_cases hle : v ≤ i64_max
  · rw [if_pos hle, if_pos hle]
  · rw [if_neg hle, if_neg hle]

/-- char_from_u32 succeeds exactly on scalar values. -/
theorem char_from_u32_isSome (n : Nat) :
    (char_from_u32 n).isSome = is_scalar n := by
  unfold char_from_u32
  by_cases h : is_scalar n = true
  · rw [if_pos h, h]
    rfl
  · rw [if_neg h]
    rw [Bool.not_eq_true] at h
    rw [h]
    rfl

/-- Unfolding equation of Entity.decode on a nonempty byte list. -/
theorem entity_decode_cons (d : EntityData) (first : Byte) (rest : List Byte) :
    Entity.decode d (first :: rest) =
      if is_ascii_alphabetic first then
        (if rest.all is_ascii_alphanumeric then named_lookup d (first :: rest)
          else none)
      else if first == 35 && !rest.isEmpty then
        (match rest with
          | second :: rest2 =>
            if is_ascii_digit second then
              (if rest2.all is_ascii_digit then numbers_to_char rest 10 else none)
            else if second == 120 || second == 88 then
              (if !rest2.isEmpty then
                (if rest2.all is_hex_digit then numbers_to_char rest2 16 else none)
              else none)
            else none
          | [] => none)
      else none := rfl

/-- The decimal branch of Entity.decode reaches numbers_to_char. -/
theorem entity_decode_decimal (d : EntityData) (second : Byte) (rest2 : List Byte)
    (h1 : is_ascii_digit second = true)
    (h2 : rest2.all is_ascii_digit = true) :
    Entity.decode d (35 :: second :: rest2) =
      numbers_to_char (second :: rest2) 10 := by
  rw [entity_decode_cons, if_neg (by decide), if_pos (by simp)]
  show (if is_ascii_digit second then
      (if rest2.all is_ascii_digit then numbers_to_char (second :: rest2) 10
        else none)
    else if second == 120 || second == 88 then
      (if !rest2.isEmpty then
        (if rest2.all is_hex_digit then numbers_to_char rest2 16 else none)
      else none)
    else none) = numbers_to_char (second :: rest2) 10
  rw [if_pos h1, if_pos h2]

/-- The hex branch of Entity.decode reaches numbers_to_char. -/
theorem entity_decode_hex (d : EntityData) (x : Byte) (hexdigits : List Byte)
    (hx : x = 120 ∨ x = 88) (hne : hexdigits ≠ [])
    (hall : hexdigits.all is_hex_digit = true) :
    Entity.decode d (35 :: x :: hexdigits) = numbers_to_char hexdigits 16 := by
  have hxd : is_ascii_digit x = false := by
    rcases hx with h | h <;> subst h <;> rfl
  have hxx : (x == 120 || x == 88) = true := by
    rcases hx with h | h <;> subst h <;> rfl
  have hni : hexdigits.isEmpty = false := by
    cases hexdigits with
    | nil => exact absurd rfl hne
    | cons a t => rfl
  rw [entity_decode_cons, if_neg (by decide), if_pos (by simp)]
  show (if is_ascii_digit x then
      (if hexdigits.all is_ascii_digit then numbers_to_char (x :: hexdigits) 10
        else none)
    else if x == 120 || x == 88 then
      (if !hexdigits.isEmpty then
        (if hexdigits.all is_hex_digit then numbers_to_char hexdigits 16
          else none)
      else none)
    else none) = numbers_to_char hexdigits 16
  rw [if_neg (by simp [hxd]), if_pos hxx, if_pos (by simp [hni]), if_pos hall]

/-- C2 (amended): on an all-digit numeric token with value v, Entity::decode
accepts iff v fits in i64 AND the truncation v mod 2^32 is a Unicode scalar
(so values beyond 0x10FFFF whose truncation is a scalar are wrongly
accepted), and on acceptance it returns v mod 2^32 - not necessarily v. -/
theorem spec_c2 (d : EntityData) (digits hexdigits : List Byte) (x : Byte)
    (v w : Nat)
    (hdne : digits ≠ []) (hd : digits_value 10 digits 0 = some v)
    (hx : x = 120 ∨ x = 88)
    (hhne : hexdigits ≠ []) (hh : digits_value 16 hexdigits 0 = some w) :
    ((Entity.decode d (35 :: digits)).isSome =
      (decide (v ≤ i64_max) && is_scalar (v % 4294967296))) ∧
    (v ≤ i64_max → is_scalar (v % 4294967296) = true →
      Entity.decode d (35 :: digits) = some (v % 4294967296)) ∧
    ((Entity.decode d (35 :: x :: hexdigits)).isSome =
      (decide (w ≤ i64_max) && is_scalar (w % 4294967296))) ∧
    (w ≤ i64_max → is_scalar (w % 4294967296) = true →
      Entity.decode d (35 :: x :: hexdigits) = some (w % 4294967296)) := by
  obtain ⟨second, rest2, rfl⟩ : ∃ a t, digits = a :: t := by
    cases digits with
    | nil => exact absurd rfl hdne
    | cons a t => exact ⟨a, t, rfl⟩
  have hall : (second :: rest2).all is_ascii_digit = true :=
    digits_value_all_digits _ 0 v hd
  have h1 : is_ascii_digit second = true :=
    List.all_eq_true.mp hall second (by simp)
  have h2 : rest2.all is_ascii_digit = true := by
    rw [List.all_eq_true]
    intro b hb
    exact List.all_eq_true.mp hall b (by simp [hb])
  have hdec : Entity.decode d (35 :: second :: rest2) =
      numbers_to_char (second :: rest2) 10 :=
    entity_decode_decimal d second rest2 h1 h2
  have hnum := numbers_to_char_eval (second :: rest2) 10 v (by simp) hd
  have hallh : hexdigits.all is_hex_digit = true :=
    digits_value_all_hex _ 0 w hh
  have hhex : Entity.decode d (35 :: x :: hexdigits) =
      numbers_to_char hexdigits 16 :=
    entity_decode_hex d x hexdigits hx hhne hallh
  have hnumh := numbers_to_char_eval hexdigits 16 w hhne hh
  refine ⟨?_, ?_, ?_, ?_⟩
  · rw [hdec, hnum]
    by_cases hle : v ≤ i64_max
    · rw [if_pos hle, char_from_u32_isSome, decide_eq_true hle, Bool.true_and]
    · rw [if_neg hle, decide_eq_false hle, Bool.false_and]
      rfl
  · intro hle hs
    rw [hdec, hnum, if_pos hle]
    unfold char_from_u32
    rw [if_pos hs]
  · rw [hhex, hnumh]
    by_cases hle : w ≤ i64_max
    · rw [if_pos hle, char_from_u32_isSome, decide_eq_true hle, Bool.true_and]
    · rw [if_neg hle, decide_eq_false hle, Bool.false_and]
      rfl
  · intro hle hs
    rw [hhex, hnumh, if_pos hle]
    unfold char_from_u32
    rw [if_pos hs]

/-- C2 witness: the decimal token `#9` and the hex token `#xf` at their
parsed values. -/
theorem spec_c2_witness :
    (digits_value 10 [57] 0 = some 9) ∧
    (digits_value 16 [102] 0 = some 15) ∧
    (((Entity.decode spec_entity_data (35 :: [57])).isSome =
        (decide (9 ≤ i64_max) && is_scalar (9 % 4294967296))) ∧
      (9 ≤ i64_max → is_scalar (9 % 4294967296) = true →
        Entity.decode spec_entity_data (35 :: [57]) = some (9 % 4294967296)) ∧
      ((Entity.decode spec_entity_data (35 :: 120 :: [102])).isSome =
        (decide (15 ≤ i64_max) && is_scalar (15 % 4294967296))) ∧
      (15 ≤ i64_max → is_scalar (15 % 4294967296) = true →
        Entity.decode spec_entity_data (35 :: 120 :: [102]) =
          some (15 % 4294967296))) :=
  ⟨by decide, by decide,
    spec_c2 spec_entity_data [57] [102] 120 9 15 (by decide) (by decide)
      (Or.inl rfl) (by decide) (by decide)⟩

/-- C2 counterexample: the decimal token `#4294967296` carries the value
2^32, far above 0x10FFFF, yet Entity::decode accepts it and returns U+0000
because the value is truncated modulo 2^32 before the scalar test. -/
theorem spec_c2_counterexample :
    Entity.decode spec_entity_data
      [35, 52, 50, 57, 52, 57, 54, 55, 50, 57, 54] = some 0 ∧
    0x10FFFF < 4294967296 := ⟨by decide, by decide⟩

/-- Parsing a concatenation threads the accumulator through the first part. -/
theorem digits_value_append (radix : Nat) :
    ∀ (l1 l2 : List Byte) (acc : Nat),
    digits_value radix (l1 ++ l2) acc =
      match digits_value radix l1 acc with
      | some v => digits_value radix l2 v
      | none => none := by
  intro l1
  induction l1 with
  | nil => intro l2 acc; rfl
  | cons b t ih =>
    intro l2 acc
    rw [List.cons_append, digits_value_cons, digits_value_cons]
    cases digit_value radix b with
    | none => rfl
    | some dv => exact ih l2 (acc * radix + dv)

/-- The digit bytes of the decimal formatter parse back to their values. -/
theorem radix_digit_byte_ten : ∀ d < 10,
    digit_value 10 (radix_digit_byte d) = some d := by decide

/-- The digit bytes of the hex formatter parse back to their values. -/
theorem radix_digit_byte_hex : ∀ d < 16,
    digit_value 16 (radix_digit_byte d) = some d := by decide

/-- Step equation of the radix formatter core. -/
theorem to_radix_core_succ (radix fuel n : Nat) (acc : List Byte) :
    to_radix_core radix (fuel + 1) n acc =
      if n / radix = 0 then radix_digit_byte (n % radix) :: acc
      else to_radix_core radix fuel (n / radix) (radix_digit_byte (n % radix) :: acc) :=
  rfl

/-- The accumulator is a suffix of the formatter output. -/
theorem to_radix_core_suffix (radix : Nat) :
    ∀ (fuel n : Nat) (acc : List Byte), acc <:+ to_radix_core radix fuel n acc := by
  intro fuel
  induction fuel with
  | zero => intro n acc; exact List.suffix_refl _
  | succ fuel ih =>
    intro n acc
    rw [to_radix_core_succ]
    by_cases h : n / radix = 0
    · rw [if_pos h]
      exact List.suffix_cons _ _
    · rw [if_neg h]
      exact (List.suffix_cons _ _).trans (ih _ _)

/-- Parsing the formatter core output: the emitted digits contribute exactly
`n` below the previous accumulator. -/
theorem to_radix_core_parse (radix : Nat) (h2 : 2 ≤ radix)
    (hd : ∀ d < radix, digit_value radix (radix_digit_byte d) = some d) :
    ∀ (fuel n : Nat) (acc : List Byte) (A : Nat), n < radix ^ (fuel + 1) →
    ∃ k, 0 < k ∧
      digits_value radix (to_radix_core radix (fuel + 1) n acc) A =
        digits_value radix acc (A * radix ^ k + n) := by
  intro fuel
  induction fuel with
  | zero =>
    intro n acc A hn
    have hdiv : n / radix = 0 := by
      rw [Nat.div_eq_zero_iff (by omega)]
      simpa using hn
    refine ⟨1, Nat.one_pos, ?_⟩
    rw [to_radix_core_succ, if_pos hdiv, digits_value_cons,
      hd (n % radix) (Nat.mod_lt _ (by omega))]
    have hmod : n % radix = n := Nat.mod_eq_of_lt (by simpa using hn)
    rw [hmod, pow_one]
  | succ fuel ih =>
    intro n acc A hn
    rw [to_radix_core_succ]
    by_cases hdiv : n / radix = 0
    · refine ⟨1, Nat.one_pos, ?_⟩
      rw [if_pos hdiv, digits_value_cons,
        hd (n % radix) (Nat.mod_lt _ (by omega))]
      have hnr : n < radix := by
        rw [Nat.div_eq_zero_iff (by omega)] at hdiv
        exact hdiv
      rw [Nat.mod_eq_of_lt hnr, pow_one]
    · rw [if_neg hdiv]
      have hlt : n / radix < radix ^ (fuel + 1) := by
        rw [Nat.div_lt_iff_lt_mul (by omega)]
        calc n < radix ^ (fuel + 1 + 1) := hn
        _ = radix ^ (fuel + 1) * radix := by rw [pow_succ]
      obtain ⟨k, hk, heq⟩ := ih (n / radix) (radix_digit_byte (n % radix) :: acc) A hlt
      refine ⟨k + 1, by omega, ?_⟩
      rw [heq, digits_value_cons, hd (n % radix) (Nat.mod_lt _ (by omega))]
      have harith : (A * radix ^ k + n / radix) * radix + n % radix =
          A * radix ^ (k + 1) + n := by
        have hdm : n / radix * radix + n % radix = n := by
          rw [Nat.mul_comm]
          exact Nat.div_add_mod n radix
        calc (A * radix ^ k + n / radix) * radix + n % radix
            = A * (radix ^ k * radix) + (n / radix * radix + n % radix) := by ring
          _ = A * radix ^ (k + 1) + n := by rw [← pow_succ, hdm]
      show digits_value radix acc ((A * radix ^ k + n / radix) * radix + n % radix) =
        digits_value radix acc (A * radix ^ (k + 1) + n)
      rw [harith]

/-- The formatter output parses back to the formatted value. -/
theorem to_radix_bytes_parse (radix n : Nat) (h2 : 2 ≤ radix)
    (hd : ∀ d < radix, digit_value radix (radix_digit_byte d) = some d) :
    digits_value radix (to_radix_bytes radix n) 0 = some n := by
  have hn : n < radix ^ (n + 1) := by
    calc n < 2 ^ n := Nat.lt_two_pow n
    _ ≤ radix ^ n := Nat.pow_le_pow_left h2 n
    _ ≤ radix ^ (n + 1) := Nat.pow_le_pow_right (by omega) (by omega)
  obtain ⟨k, hk, heq⟩ := to_radix_core_parse radix h2 hd n n [] 0 hn
  rw [to_radix_bytes, heq]
  simp [digits_value]

/-- The formatter output is never empty. -/
theorem to_radix_bytes_ne_nil (radix n : Nat) : to_radix_bytes radix n ≠ [] := by
  rw [to_radix_bytes, to_radix_core_succ]
  by_cases h : n / radix = 0
  · rw [if_pos h]
    exact List.cons_ne_nil _ _
  · rw [if_neg h]
    intro hnil
    have hsuf := to_radix_core_suffix radix n (n / radix)
      [radix_digit_byte (n % radix)]
    rw [hnil] at hsuf
    exact absurd (List.eq_nil_of_suffix_nil hsuf) (List.cons_ne_nil _ _)

/-- Scanner step: the continuation byte taking the pending count from 2 to 1. -/
theorem loop_utf8_go_cont2 {b : Byte} {rest : List Byte} {idx ch si : Nat}
    (h6 : b >>> 6 = 0b10) :
    loop_utf8_go (b :: rest) idx 2 ch si =
      loop_utf8_go rest (idx + 1) 1 (ch + ((b &&& 0b111111) <<< 6)) si :=
  loop_utf8_go_cont_mid h6

/-- Scanner step: the continuation byte taking the pending count from 3 to 2. -/
theorem loop_utf8_go_cont3 {b : Byte} {rest : List Byte} {idx ch si : Nat}
    (h6 : b >>> 6 = 0b10) :
    loop_utf8_go (b :: rest) idx 3 ch si =
      loop_utf8_go rest (idx + 1) 2 (ch + ((b &&& 0b111111) <<< 12)) si :=
  loop_utf8_go_cont_mid h6

/-- The scan of a one-byte scalar. -/
theorem scan_char_ascii (c : Nat) (h2 : c < 0x80) (rest : List Byte)
    (idx ch0 si0 : Nat) :
    loop_utf8_go (c :: rest) idx 0 ch0 si0 =
      .correct c idx idx :: loop_utf8_go rest (idx + 1) 0 0 0 := by
  have hc : c >>> 7 = 0 := by omega
  exact loop_utf8_go_ascii hc

/-- The scan of a two-byte scalar. -/
theorem scan_char_two (c : Nat) (h1 : 0x80 ≤ c) (h2 : c < 0x800)
    (hc : is_scalar c = true) (rest : List Byte) (idx ch0 si0 : Nat) :
    loop_utf8_go ((0xC0 + (c >>> 6)) :: (0x80 + (c &&& 0x3F)) :: rest) idx 0 ch0 si0 =
      .correct c idx (idx + 1) :: loop_utf8_go rest (idx + 2) 0 0 0 := by
  have e6 : c >>> 6 = c / 64 := by rw [Nat.shiftRight_eq_div_pow]
  have em : c &&& 0x3F = c % 64 := by
    simpa using Nat.and_pow_two_sub_one_eq_mod c 6
  have hx7 : ¬ (0xC0 + (c >>> 6)) >>> 7 = 0 := by
    have h := Nat.shiftRight_eq_div_pow (0xC0 + (c >>> 6)) 7
    omega
  have hx3 : ¬ (0xC0 + (c >>> 6)) >>> 3 = 0b11110 := by
    have h := Nat.shiftRight_eq_div_pow (0xC0 + (c >>> 6)) 3
    omega
  have hx4 : ¬ (0xC0 + (c >>> 6)) >>> 4 = 0b1110 := by
    have h := Nat.shiftRight_eq_div_pow (0xC0 + (c >>> 6)) 4
    omega
  have hx5 : (0xC0 + (c >>> 6)) >>> 5 = 0b110 := by
    have h := Nat.shiftRight_eq_div_pow (0xC0 + (c >>> 6)) 5
    omega
  have hx6 : (0x80 + (c &&& 0x3F)) >>> 6 = 0b10 := by
    have h := Nat.shiftRight_eq_div_pow (0x80 + (c &&& 0x3F)) 6
    omega
  rw [loop_utf8_go_lead2 hx7 hx3 hx4 hx5, loop_utf8_go_cont_last hx6]
  have hval : ((0xC0 + (c >>> 6)) &&& 0b11111) <<< 6 +
      ((0x80 + (c &&& 0x3F)) &&& 0b111111) = c := by
    rw [e6, em, Nat.shiftLeft_eq,
      show (0xC0 + c / 64) &&& 0b11111 = (0xC0 + c / 64) % 32 by
        simpa using Nat.and_pow_two_sub_one_eq_mod (0xC0 + c / 64) 5,
      show (0x80 + c % 64) &&& 0b111111 = (0x80 + c % 64) % 64 by
        simpa using Nat.and_pow_two_sub_one_eq_mod (0x80 + c % 64) 6]
    omega
  rw [hval, show char_from_u32 c = some c from by unfold char_from_u32; rw [if_pos hc]]

/-- The scan of a three-byte scalar. -/
theorem scan_char_three (c : Nat) (h1 : 0x800 ≤ c) (h2 : c < 0x10000)
    (hc : is_scalar c = true) (rest : List Byte) (idx ch0 si0 : Nat) :
    loop_utf8_go ((0xE0 + (c >>> 12)) :: (0x80 + ((c >>> 6) &&& 0x3F)) ::
        (0x80 + (c &&& 0x3F)) :: rest) idx 0 ch0 si0 =
      .correct c idx (idx + 2) :: loop_utf8_go rest (idx + 3) 0 0 0 := by
  have e12 : c >>> 12 = c / 4096 := by rw [Nat.shiftRight_eq_div_pow]
  have e6 : c >>> 6 = c / 64 := by rw [Nat.shiftRight_eq_div_pow]
  have em : c &&& 0x3F = c % 64 := by
    simpa using Nat.and_pow_two_sub_one_eq_mod c 6
  have em6 : (c >>> 6) &&& 0x3F = (c / 64) % 64 := by
    rw [e6]
    simpa using Nat.and_pow_two_sub_one_eq_mod (c / 64) 6
  have hx7 : ¬ (0xE0 + (c >>> 12)) >>> 7 = 0 := by
    have h := Nat.shiftRight_eq_div_pow (0xE0 + (c >>> 12)) 7
    omega
  have hx3 : ¬ (0xE0 + (c >>> 12)) >>> 3 = 0b11110 := by
    have h := Nat.shiftRight_eq_div_pow (0xE0 + (c >>> 12)) 3
    omega
  have hx4 : (0xE0 + (c >>> 12)) >>> 4 = 0b1110 := by
    have h := Nat.shiftRight_eq_div_pow (0xE0 + (c >>> 12)) 4
    omega
  have hxa : (0x80 + ((c >>> 6) &&& 0x3F)) >>> 6 = 0b10 := by
    have h := Nat.shiftRight_eq_div_pow (0x80 + ((c >>> 6) &&& 0x3F)) 6
    have h2 := em6
    omega
  have hxb : (0x80 + (c &&& 0x3F)) >>> 6 = 0b10 := by
    have h := Nat.shiftRight_eq_div_pow (0x80 + (c &&& 0x3F)) 6
    omega
  rw [loop_utf8_go_lead3 hx7 hx3 hx4, loop_utf8_go_cont2 hxa,
    loop_utf8_go_cont_last hxb]
  have hval : ((0xE0 + (c >>> 12)) &&& 0b1111) <<< 12 +
      ((0x80 + ((c >>> 6) &&& 0x3F)) &&& 0b111111) <<< 6 +
      ((0x80 + (c &&& 0x3F)) &&& 0b111111) = c := by
    rw [e12, em, em6, Nat.shiftLeft_eq, Nat.shiftLeft_eq,
      show (0xE0 + c / 4096) &&& 0b1111 = (0xE0 + c / 4096) % 16 by
        simpa using Nat.and_pow_two_sub_one_eq_mod (0xE0 + c / 4096) 4,
      show (0x80 + (c / 64) % 64) &&& 0b111111 = (0x80 + (c / 64) % 64) % 64 by
        simpa using Nat.and_pow_two_sub_one_eq_mod (0x80 + (c / 64) % 64) 6,
      show (0x80 + c % 64) &&& 0b111111 = (0x80 + c % 64) % 64 by
        simpa using Nat.and_pow_two_sub_one_eq_mod (0x80 + c % 64) 6]
    omega
  rw [hval, show char_from_u32 c = some c from by unfold char_from_u32; rw [if_pos hc]]

/-- The scan of a four-byte scalar. -/
theorem scan_char_four (c : Nat) (h1 : 0x10000 ≤ c) (h2 : c < 0x110000)
    (hc : is_scalar c = true) (rest : List Byte) (idx ch0 si0 : Nat) :
    loop_utf8_go ((0xF0 + (c >>> 18)) :: (0x80 + ((c >>> 12) &&& 0x3F)) ::
        (0x80 + ((c >>> 6) &&& 0x3F)) :: (0x80 + (c &&& 0x3F)) :: rest)
        idx 0 ch0 si0 =
      .correct c idx (idx + 3) :: loop_utf8_go rest (idx + 4) 0 0 0 := by
  have e18 : c >>> 18 = c / 262144 := by rw [Nat.shiftRight_eq_div_pow]
  have e12 : c >>> 12 = c / 4096 := by rw [Nat.shiftRight_eq_div_pow]
  have e6 : c >>> 6 = c / 64 := by rw [Nat.shiftRight_eq_div_pow]
  have em : c &&& 0x3F = c % 64 := by
    simpa using Nat.and_pow_two_sub_one_eq_mod c 6
  have em6 : (c >>> 6) &&& 0x3F = (c / 64) % 64 := by
    rw [e6]
    simpa using Nat.and_pow_two_sub_one_eq_mod (c / 64) 6
  have em12 : (c >>> 12) &&& 0x3F = (c / 4096) % 64 := by
    rw [e12]
    simpa using Nat.and_pow_two_sub_one_eq_mod (c / 4096) 6
  have hx7 : ¬ (0xF0 + (c >>> 18)) >>> 7 = 0 := by
    have h := Nat.shiftRight_eq_div_pow (0xF0 + (c >>> 18)) 7
    omega
  have hx3 : (0xF0 + (c >>> 18)) >>> 3 = 0b11110 := by
    have h := Nat.shiftRight_eq_div_pow (0xF0 + (c >>> 18)) 3
    omega
  have hxa : (0x80 + ((c >>> 12) &&& 0x3F)) >>> 6 = 0b10 := by
    have h := Nat.shiftRight_eq_div_pow (0x80 + ((c >>> 12) &&& 0x3F)) 6
    have h2 := em12
    omega
  have hxb : (0x80 + ((c >>> 6) &&& 0x3F)) >>> 6 = 0b10 := by
    have h := Nat.shiftRight_eq_div_pow (0x80 + ((c >>> 6) &&& 0x3F)) 6
    have h2 := em6
    omega
  have hxc : (0x80 + (c &&& 0x3F)) >>> 6 = 0b10 := by
    have h := Nat.shiftRight_eq_div_pow (0x80 + (c &&& 0x3F)) 6
    omega
  rw [loop_utf8_go_lead4 hx7 hx3, loop_utf8_go_cont3 hxa, loop_utf8_go_cont2 hxb,
    loop_utf8_go_cont_last hxc]
  have hval : ((0xF0 + (c >>> 18)) &&& 0b111) <<< 18 +
      ((0x80 + ((c >>> 12) &&& 0x3F)) &&& 0b111111) <<< 12 +
      ((0x80 + ((c >>> 6) &&& 0x3F)) &&& 0b111111) <<< 6 +
      ((0x80 + (c &&& 0x3F)) &&& 0b111111) = c := by
    rw [e18, em, em6, em12, Nat.shiftLeft_eq, Nat.shiftLeft_eq, Nat.shiftLeft_eq,
      show (0xF0 + c / 262144) &&& 0b111 = (0xF0 + c / 262144) % 8 by
        simpa using Nat.and_pow_two_sub_one_eq_mod (0xF0 + c / 262144) 3,
      show (0x80 + (c / 4096) % 64) &&& 0b111111 = (0x80 + (c / 4096) % 64) % 64 by
        simpa using Nat.and_pow_two_sub_one_eq_mod (0x80 + (c / 4096) % 64) 6,
      show (0x80 + (c / 64) % 64) &&& 0b111111 = (0x80 + (c / 64) % 64) % 64 by
        simpa using Nat.and_pow_two_sub_one_eq_mod (0x80 + (c / 64) % 64) 6,
      show (0x80 + c % 64) &&& 0b111111 = (0x80 + c % 64) % 64 by
        simpa using Nat.and_pow_two_sub_one_eq_mod (0x80 + c % 64) 6]
    omega
  rw [hval, show char_from_u32 c = some c from by unfold char_from_u32; rw [if_pos hc]]

/-- The scan of one scalar at the head of the stream: one correct event
covering its UTF-8 bytes. -/
theorem loop_utf8_scan_char (c : Nat) (hc : is_scalar c = true)
    (rest : List Byte) (idx ch0 si0 : Nat) :
    loop_utf8_go (char_to_utf8_bytes c ++ rest) idx 0 ch0 si0 =
      .correct c idx (idx + (char_to_utf8_bytes c).length - 1) ::
        loop_utf8_go rest (idx + (char_to_utf8_bytes c).length) 0 0 0 := by
  by_cases c1 : c < 0x80
  · have hb : char_to_utf8_bytes c = [c] := by
      unfold char_to_utf8_bytes
      rw [if_pos c1]
    rw [hb]
    exact scan_char_ascii c c1 rest idx ch0 si0
  · by_cases c2 : c < 0x800
    · have hb : char_to_utf8_bytes c = [0xC0 + (c >>> 6), 0x80 + (c &&& 0x3F)] := by
        unfold char_to_utf8_bytes
        rw [if_neg c1, if_pos c2]
      rw [hb]
      exact scan_char_two c (by omega) c2 hc rest idx ch0 si0
    · by_cases c3 : c < 0x10000
      · have hb : char_to_utf8_bytes c =
            [0xE0 + (c >>> 12), 0x80 + ((c >>> 6) &&& 0x3F), 0x80 + (c &&& 0x3F)] := by
          unfold char_to_utf8_bytes
          rw [if_neg c1, if_neg c2, if_pos c3]
        rw [hb]
        exact scan_char_three c (by omega) c3 hc rest idx ch0 si0
      · have hlt : c < 0x110000 := by
          unfold is_scalar at hc
          simp at hc
          omega
        have hb : char_to_utf8_bytes c =
            [0xF0 + (c >>> 18), 0x80 + ((c >>> 12) &&& 0x3F),
              0x80 + ((c >>> 6) &&& 0x3F), 0x80 + (c &&& 0x3F)] := by
          unfold char_to_utf8_bytes
          rw [if_neg c1, if_neg c2, if_neg c3]
        rw [hb]
        exact scan_char_four c (by omega) hlt hc rest idx ch0 si0

/-- The scanner event stream of a scalar stream. -/
theorem scan_chars (cs : List Nat) (hsc : ∀ c ∈ cs, is_scalar c = true) :
    ∀ idx, loop_utf8_go ((cs.map char_to_utf8_bytes).flatten) idx 0 0 0 =
      char_items cs idx := by
  induction cs with
  | nil => intro idx; rfl
  | cons c cs' ih =>
    intro idx
    rw [List.map_cons, List.flatten_cons,
      loop_utf8_scan_char c (hsc c (List.mem_cons_self c cs')),
      ih (fun x hx => hsc x (List.mem_cons_of_mem c hx))]
    rfl

/-- The fold computing items_end ignores its initial value on a nonempty
stream. -/
theorem foldl_hi_indep (l : List Utf8Item) :
    ∀ a b : Nat, l ≠ [] →
    l.foldl (fun _ it => it.hi + 1) a = l.foldl (fun _ it => it.hi + 1) b := by
  induction l with
  | nil => intro a b h; exact absurd rfl h
  | cons x xs ih =>
    intro a b h
    rw [List.foldl_cons, List.foldl_cons]

/-- The events of a nonempty scalar stream end exactly at the end of its
bytes. -/
theorem char_items_end (cs : List Nat) :
    ∀ idx, cs ≠ [] → items_end (char_items cs idx) =
      idx + ((cs.map char_to_utf8_bytes).flatten).length := by
  induction cs with
  | nil => intro idx h; exact absurd rfl h
  | cons c cs' ih =>
    intro idx h
    by_cases hcs : cs' = []
    · subst hcs
      have hlen := char_to_utf8_bytes_len_pos c
      simp [items_end, char_items, Utf8Item.hi]
      omega
    · have hne : char_items cs' (idx + (char_to_utf8_bytes c).length) ≠ [] := by
        cases cs' with
        | nil => exact absurd rfl hcs
        | cons a t => simp [char_items]
      have hstep : items_end (char_items (c :: cs') idx) =
          items_end (char_items cs' (idx + (char_to_utf8_bytes c).length)) := by
        simp only [char_items, items_end, List.foldl_cons]
        exact foldl_hi_indep _ _ _ hne
      rw [hstep, ih _ hcs]
      simp [List.flatten_cons]
      omega

/-- The substitution chosen for a correct event does not depend on the
event's byte range. -/
theorem encode_filter_entity_indep (d : EntityData) (encode_type : EncodeType)
    (filter_fn : Nat → EncodeType → EncodeFilterReturnData) (c s e : Nat) :
    encode_filter_entity d encode_type filter_fn (.correct c s e) =
      (encode_filter_entity d encode_type filter_fn (.correct c 0 0)).map
        (fun q => ((s, e), q.2)) := by
  simp only [encode_filter_entity]
  rcases hf : filter_fn c encode_type with ⟨need, me⟩
  match need, me with
  | true, some (t2, d2) => rfl
  | true, none =>
    cases hec : encode_char d c encode_type with
    | some ent => rfl
    | none => rfl
  | false, me => rfl

/-- The bytes written for a correct event over the scalar's own range are
the bytes of its segment. -/
theorem encode_item_seg_bytes (d : EntityData) (encode_type : EncodeType)
    (filter_fn : Nat → EncodeType → EncodeFilterReturnData)
    (S : List Byte) (c : Nat) (idx : Nat) (R : List Byte)
    (hdrop : S.drop idx = char_to_utf8_bytes c ++ R) :
    encode_to_item_bytes d S encode_type filter_fn
        (.correct c idx (idx + (char_to_utf8_bytes c).length - 1)) =
      Seg.bytes (encode_seg d encode_type filter_fn c) := by
  have hlen := char_to_utf8_bytes_len_pos c
  unfold encode_to_item_bytes encode_seg
  rw [encode_filter_entity_indep d encode_type filter_fn c idx
    (idx + (char_to_utf8_bytes c).length - 1)]
  cases hE : encode_filter_entity d encode_type filter_fn (.correct c 0 0) with
  | some q =>
    rcases q with ⟨r, ent⟩
    show ent.to_bytes = Seg.bytes (Seg.ent (ent.markerBytes ++ ent.entity_data) c)
    simp [CharEntity.to_bytes, Seg.bytes, List.append_assoc]
  | none =>
    show byte_slice S (Utf8Item.lo _) (Utf8Item.hi _ + 1) = Seg.bytes (Seg.raw c)
    show byte_slice S idx (idx + (char_to_utf8_bytes c).length - 1 + 1) =
      char_to_utf8_bytes c
    rw [show idx + (char_to_utf8_bytes c).length - 1 + 1 =
      idx + (char_to_utf8_bytes c).length by omega]
    unfold byte_slice
    rw [hdrop, show idx + (char_to_utf8_bytes c).length - idx =
      (char_to_utf8_bytes c).length by omega]
    exact List.take_left _ _

/-- The per-event outputs over a scalar stream are the segment bytes. -/
theorem encode_items_segs (d : EntityData) (encode_type : EncodeType)
    (filter_fn : Nat → EncodeType → EncodeFilterReturnData) (S : List Byte) :
    ∀ (cs : List Nat) (idx : Nat),
    S.drop idx = (cs.map char_to_utf8_bytes).flatten →
    ((char_items cs idx).map
        (encode_to_item_bytes d S encode_type filter_fn)).flatten =
      ((cs.map (encode_seg d encode_type filter_fn)).map Seg.bytes).flatten := by
  intro cs
  induction cs with
  | nil => intro idx h; rfl
  | cons c cs' ih =>
    intro idx hdrop
    rw [List.map_cons, List.flatten_cons] at hdrop
    have hdrop2 : S.drop (idx + (char_to_utf8_bytes c).length) =
        (cs'.map char_to_utf8_bytes).flatten := by
      rw [← List.drop_drop, hdrop, List.drop_left]
    show (encode_to_item_bytes d S encode_type filter_fn
        (.correct c idx (idx + (char_to_utf8_bytes c).length - 1)) ::
          (char_items cs' (idx + (char_to_utf8_bytes c).length)).map
            (encode_to_item_bytes d S encode_type filter_fn)).flatten = _
    rw [List.flatten_cons,
      encode_item_seg_bytes d encode_type filter_fn S c idx _ hdrop,
      ih _ hdrop2, List.map_cons, List.map_cons, List.flatten_cons]

/-- The encoded bytes of a scalar stream are the concatenated segment
bytes. -/
theorem encode_to_bytes_segs (d : EntityData) (encode_type : EncodeType)
    (filter_fn : Nat → EncodeType → EncodeFilterReturnData) (cs : List Nat)
    (hsc : ∀ c ∈ cs, is_scalar c = true) :
    (encode_with d ((cs.map char_to_utf8_bytes).flatten) encode_type
        filter_fn).to_bytes =
      ((cs.map (encode_seg d encode_type filter_fn)).map Seg.bytes).flatten := by
  rw [encode_with_to_bytes_spec]
  rw [show loop_utf8_bytes ((cs.map char_to_utf8_bytes).flatten) =
    char_items cs 0 from scan_chars cs hsc 0]
  rw [encode_items_segs d encode_type filter_fn _ cs 0 (by rw [List.drop_zero])]
  by_cases hcs : cs = []
  · subst hcs
    rfl
  · rw [char_items_end cs 0 hcs]
    simp

/-- No UTF-8 byte of a scalar other than `&` is the `&` byte. -/
theorem char_to_utf8_bytes_ne_amp (c : Nat) (hne : c ≠ 38) :
    ∀ b ∈ char_to_utf8_bytes c, b ≠ 38 := by
  intro b hb
  unfold char_to_utf8_bytes at hb
  by_cases c1 : c < 0x80
  · rw [if_pos c1] at hb
    simp at hb
    subst hb
    exact hne
  · rw [if_neg c1] at hb
    by_cases c2 : c < 0x800
    · rw [if_pos c2] at hb
      simp at hb
      rcases hb with hb | hb <;> subst hb <;>
        intro heq
      · exact absurd (show (0xC0 : Nat) + (c >>> 6) = 38 from heq) (by omega)
      · exact absurd (show (0x80 : Nat) + (c &&& 0x3F) = 38 from heq) (by omega)
    · rw [if_neg c2] at hb
      by_cases c3 : c < 0x10000
      · rw [if_pos c3] at hb
        simp at hb
        rcases hb with hb | hb | hb <;> subst hb <;> intro heq
        · exact absurd (show (0xE0 : Nat) + (c >>> 12) = 38 from heq) (by omega)
        · exact absurd (show (0x80 : Nat) + ((c >>> 6) &&& 0x3F) = 38 from heq)
            (by omega)
        · exact absurd (show (0x80 : Nat) + (c &&& 0x3F) = 38 from heq) (by omega)
      · rw [if_neg c3] at hb
        simp at hb
        rcases hb with hb | hb | hb | hb <;> subst hb <;> intro heq
        · exact absurd (show (0xF0 : Nat) + (c >>> 18) = 38 from heq) (by omega)
        · exact absurd (show (0x80 : Nat) + ((c >>> 12) &&& 0x3F) = 38 from heq)
            (by omega)
        · exact absurd (show (0x80 : Nat) + ((c >>> 6) &&& 0x3F) = 38 from heq)
            (by omega)
        · exact absurd (show (0x80 : Nat) + (c &&& 0x3F) = 38 from heq) (by omega)

/-- The buffer-writing decode loop copies a run of non-`&` bytes outside an
entity verbatim. -/
theorem decode_to_loop_raw_run (d : EntityData) (content : List Byte) :
    ∀ (l rest : List Byte) (idx start : Nat) (data : List Byte),
    (∀ b ∈ l, b ≠ 38) →
    decode_to_loop d content (l ++ rest) idx false start data =
      decode_to_loop d content rest (idx + l.length) false start (data ++ l) := by
  intro l
  induction l with
  | nil =>
    intro rest idx start data h
    simp
  | cons b l' ih =>
    intro rest idx start data h
    rw [List.cons_append,
      decode_to_loop_outside (h b (List.mem_cons_self b l')),
      ih rest (idx + 1) start (data ++ [b])
        (fun x hx => h x (List.mem_cons_of_mem b hx))]
    simp only [List.append_assoc, List.singleton_append, List.length_cons]
    rw [show idx + 1 + l'.length = idx + (l'.length + 1) by omega]

/-- The buffer-writing decode loop skips a run of interior bytes inside an
entity. -/
theorem decode_to_loop_inside_run (d : EntityData) (content : List Byte) :
    ∀ (l rest : List Byte) (idx start : Nat) (data : List Byte),
    (∀ b ∈ l, b ≠ 38 ∧ b ≠ 59) →
    decode_to_loop d content (l ++ rest) idx true start data =
      decode_to_loop d content rest (idx + l.length) true start data := by
  intro l
  induction l with
  | nil =>
    intro rest idx start data h
    simp
  | cons b l' ih =>
    intro rest idx start data h
    rw [List.cons_append,
      decode_to_loop_inside (h b (List.mem_cons_self b l')).2
        (h b (List.mem_cons_self b l')).1,
      ih rest (idx + 1) start data
        (fun x hx => h x (List.mem_cons_of_mem b hx))]
    rw [show idx + 1 + l'.length = idx + (l'.length + 1) by omega]
    rfl

/-- The buffer-writing decode loop maps a stream of well-formed segments to
the concatenation of their decoded outputs. -/
theorem decode_to_loop_segs (d : EntityData) (content : List Byte) :
    ∀ (segs : List Seg) (idx start : Nat) (data : List Byte),
    (∀ s ∈ segs, SegOK d s) →
    content.drop idx = (segs.map Seg.bytes).flatten →
    decode_to_loop d content ((segs.map Seg.bytes).flatten) idx false start data =
      data ++ (segs.map Seg.out).flatten := by
  intro segs
  induction segs with
  | nil =>
    intro idx start data hok hdrop
    simp [decode_to_loop]
  | cons s segs' ih =>
    intro idx start data hok hdrop
    have hok1 : SegOK d s := hok s (List.mem_cons_self s segs')
    have hok2 : ∀ x ∈ segs', SegOK d x :=
      fun x hx => hok x (List.mem_cons_of_mem s hx)
    rw [List.map_cons, List.flatten_cons] at hdrop ⊢
    cases s with
    | raw c =>
      obtain ⟨hsc, hc38⟩ := hok1
      have hne : ∀ b ∈ Seg.bytes (Seg.raw c), b ≠ 38 :=
        fun b hb => char_to_utf8_bytes_ne_amp c hc38 b hb
      rw [decode_to_loop_raw_run d content _ _ idx start data hne]
      have hdrop2 : content.drop (idx + (Seg.bytes (Seg.raw c)).length) =
          (segs'.map Seg.bytes).flatten := by
        rw [← List.drop_drop, hdrop, List.drop_left]
      rw [ih (idx + (Seg.bytes (Seg.raw c)).length) start
        (data ++ Seg.bytes (Seg.raw c)) hok2 hdrop2]
      rw [List.map_cons, List.flatten_cons, List.append_assoc]
      rfl
    | ent interior c =>
      obtain ⟨hne, hfree, hdec⟩ := hok1
      have hilen : 1 ≤ interior.length := by
        cases interior with
        | nil => exact absurd rfl hne
        | cons a t => simp
      -- Seg.bytes = 38 :: interior ++ [59]
      rw [show Seg.bytes (Seg.ent interior c) = 38 :: (interior ++ [59]) from by
        simp [Seg.bytes]]
      rw [List.cons_append, decode_to_loop_open, List.append_assoc,
        decode_to_loop_inside_run d content interior ([59] ++
          (segs'.map Seg.bytes).flatten) (idx + 1) (idx + 1) data hfree]
      have hslice : byte_slice content (idx + 1) (idx + 1 + interior.length) =
          interior := by
        have hdrop1 : content.drop (idx + 1) =
            interior ++ 59 :: (segs'.map Seg.bytes).flatten := by
          rw [← List.drop_drop, hdrop]
          simp [Seg.bytes]
        unfold byte_slice
        rw [hdrop1, show idx + 1 + interior.length - (idx + 1) =
          interior.length by omega]
        exact List.take_left _ _
      rw [List.singleton_append,
        decode_to_loop_semi_some (by omega)
          (by rw [hslice]; exact hdec)]
      have hdrop2 : content.drop (idx + 1 + interior.length + 1) =
          (segs'.map Seg.bytes).flatten := by
        rw [← List.drop_drop, ← List.drop_drop, ← List.drop_drop, hdrop]
        simp [Seg.bytes]
      rw [ih (idx + 1 + interior.length + 1) (idx + 1)
        (data ++ char_to_utf8_bytes c) hok2 hdrop2]
      rw [List.map_cons, List.flatten_cons, List.append_assoc]
      rfl

/-- Decoding a stream of well-formed segments materializes their outputs. -/
theorem decode_segs_to_bytes (d : EntityData) (segs : List Seg)
    (hok : ∀ s ∈ segs, SegOK d s) :
    (decode d ((segs.map Seg.bytes).flatten)).to_bytes =
      (segs.map Seg.out).flatten := by
  have h1 := decode_to_spec d ((segs.map Seg.bytes).flatten) []
  have h2 := decode_to_loop_segs d ((segs.map Seg.bytes).flatten) segs 0 0 []
    hok (by rw [List.drop_zero])
  rw [show decode_to d ((segs.map Seg.bytes).flatten) [] =
    decode_to_loop d ((segs.map Seg.bytes).flatten)
      ((segs.map Seg.bytes).flatten) 0 false 0 [] from rfl] at h1
  rw [h2] at h1
  simpa using h1.symm

/-- Binary search soundness: a hit is in range and bears the target code. -/
theorem binary_search_go_sound (tbl : List EntityRecord) (target : Nat) :
    ∀ (fuel left right idx : Nat), right ≤ tbl.length →
    binary_search_go tbl target fuel left right = some idx →
    idx < tbl.length ∧ (tbl.getD idx ([], 0)).2 = target := by
  intro fuel
  induction fuel with
  | zero =>
    intro left right idx hr h
    exact absurd h (by simp [binary_search_go])
  | succ fuel ih =>
    intro left right idx hr h
    rw [binary_search_go_succ] at h
    by_cases hlr : left < right
    · rw [if_pos hlr] at h
      by_cases h1 : (tbl.getD (left + (right - left) / 2) ([], 0)).2 < target
      · rw [if_pos h1] at h
        exact ih _ _ _ hr h
      · rw [if_neg h1] at h
        by_cases h2 : target < (tbl.getD (left + (right - left) / 2) ([], 0)).2
        · rw [if_pos h2] at h
          exact ih _ _ _ (by omega) h
        · rw [if_neg h2] at h
          have hidx : left + (right - left) / 2 = idx := by
            simpa using h
          subst hidx
          exact ⟨by omega, by omega⟩
    · rw [if_neg hlr] at h
      exact absurd h (by simp)

/-- A table entry read by index is a member of the table. -/
theorem table_entry_mem (tbl : List EntityRecord) (i : Nat) (h : i < tbl.length) :
    tbl.getD i ([], 0) ∈ tbl := by
  have he : tbl.getD i ([], 0) = tbl[i] := by
    simp [List.getD_eq_getElem?_getD, List.getElem?_eq_getElem h]
  rw [he]
  exact List.getElem_mem h

/-- ASCII alphanumeric bytes are neither `&` nor `;`. -/
theorem alnum_ne (b : Nat) (h : is_ascii_alphanumeric b = true) :
    b ≠ 38 ∧ b ≠ 59 := by
  simp [is_ascii_alphanumeric, is_ascii_digit, is_ascii_alphabetic] at h
  rcases h with ⟨ha, hb2⟩ | ⟨ha, hb2⟩ | ⟨ha, hb2⟩
  · have ha' : (48 : Nat) ≤ b := ha
    have hb' : b ≤ (57 : Nat) := hb2
    omega
  · have ha' : (65 : Nat) ≤ b := ha
    have hb' : b ≤ (90 : Nat) := hb2
    omega
  · have ha' : (97 : Nat) ≤ b := ha
    have hb' : b ≤ (122 : Nat) := hb2
    omega

/-- Hex digit bytes are neither `&` nor `;`. -/
theorem hexdigit_ne (b : Nat) (h : is_hex_digit b = true) :
    b ≠ 38 ∧ b ≠ 59 := by
  simp [is_hex_digit, is_ascii_digit] at h
  rcases h with (⟨ha, hb2⟩ | ⟨ha, hb2⟩) | ⟨ha, hb2⟩
  · have ha' : (97 : Nat) ≤ b := ha
    have hb' : b ≤ (102 : Nat) := hb2
    omega
  · have ha' : (65 : Nat) ≤ b := ha
    have hb' : b ≤ (70 : Nat) := hb2
    omega
  · have ha' : (48 : Nat) ≤ b := ha
    have hb' : b ≤ (57 : Nat) := hb2
    omega

/-- ASCII digit bytes are neither `&` nor `;`. -/
theorem digit_ne (b : Nat) (h : is_ascii_digit b = true) :
    b ≠ 38 ∧ b ≠ 59 := by
  simp [is_ascii_digit] at h
  have ha' : (48 : Nat) ≤ b := h.1
  have hb' : b ≤ (57 : Nat) := h.2
  omega

/-- Numeric facts carried by the scalar test. -/
theorem is_scalar_facts (c : Nat) (hc : is_scalar c = true) :
    c < 0x110000 ∧ c % 4294967296 = c ∧ c ≤ i64_max := by
  simp [is_scalar] at hc
  have h1 : c < 0x110000 := hc.1
  exact ⟨h1, Nat.mod_eq_of_lt (by omega), by unfold i64_max; omega⟩

/-- On a well-formed name, Entity::decode is exactly the named lookup. -/
theorem entity_decode_named (d : EntityData) (name : List Byte)
    (h : wf_name name = true) : Entity.decode d name = named_lookup d name := by
  cases name with
  | nil => simp [wf_name] at h
  | cons b0 rest =>
    unfold wf_name at h
    rw [Bool.and_eq_true, Bool.and_eq_true] at h
    obtain ⟨⟨hne, h0⟩, hall⟩ := h
    have h0' : is_ascii_alphabetic b0 = true := by
      simpa using h0
    have hrest : rest.all is_ascii_alphanumeric = true := by
      rw [List.all_cons, Bool.and_eq_true] at hall
      exact hall.2
    rw [entity_decode_cons, if_pos h0', if_pos hrest]

/-- A hit in the SPECIAL_BYTES lookup is a member pair. -/
theorem special_lookup_mem (c : Nat) (v : List Byte)
    (h : SPECIAL_BYTES.lookup c = some v) : (c, v) ∈ SPECIAL_BYTES := by
  by_cases h34 : c = 34
  · subst h34
    have hv : v = [113, 117, 111, 116] := by
      rw [show SPECIAL_BYTES.lookup 34 = some [113, 117, 111, 116] from rfl] at h
      exact (Option.some.inj h).symm
    subst hv
    decide
  · by_cases h39 : c = 39
    · subst h39
      have hv : v = [97, 112, 111, 115] := by
        rw [show SPECIAL_BYTES.lookup 39 = some [97, 112, 111, 115] from rfl] at h
        exact (Option.some.inj h).symm
      subst hv
      decide
    · by_cases h62 : c = 62
      · subst h62
        have hv : v = [103, 116] := by
          rw [show SPECIAL_BYTES.lookup 62 = some [103, 116] from rfl] at h
          exact (Option.some.inj h).symm
        subst hv
        decide
      · by_cases h60 : c = 60
        · subst h60
          have hv : v = [108, 116] := by
            rw [show SPECIAL_BYTES.lookup 60 = some [108, 116] from rfl] at h
            exact (Option.some.inj h).symm
          subst hv
          decide
        · by_cases h38 : c = 38
          · subst h38
            have hv : v = [97, 109, 112] := by
              rw [show SPECIAL_BYTES.lookup 38 = some [97, 109, 112] from rfl] at h
              exact (Option.some.inj h).symm
            subst hv
            decide
          · exfalso
            have e34 : (c == 34) = false := by simp [h34]
            have e39 : (c == 39) = false := by simp [h39]
            have e62 : (c == 62) = false := by simp [h62]
            have e60 : (c == 60) = false := by simp [h60]
            have e38 : (c == 38) = false := by simp [h38]
            have e : SPECIAL_BYTES.lookup c = none := by
              simp [SPECIAL_BYTES, HTML_BYTES, List.lookup, e34, e39, e62, e60, e38]
            rw [e] at h
            exact Option.noConfusion h

/-- A hit in the HTML_BYTES lookup is a member pair of SPECIAL_BYTES. -/
theorem html_lookup_mem (c : Nat) (v : List Byte)
    (h : HTML_BYTES.lookup c = some v) : (c, v) ∈ SPECIAL_BYTES := by
  by_cases h62 : c = 62
  · subst h62
    have hv : v = [103, 116] := by
      rw [show HTML_BYTES.lookup 62 = some [103, 116] from rfl] at h
      exact (Option.some.inj h).symm
    subst hv
    decide
  · by_cases h60 : c = 60
    · subst h60
      have hv : v = [108, 116] := by
        rw [show HTML_BYTES.lookup 60 = some [108, 116] from rfl] at h
        exact (Option.some.inj h).symm
      subst hv
      decide
    · by_cases h38 : c = 38
      · subst h38
        have hv : v = [97, 109, 112] := by
          rw [show HTML_BYTES.lookup 38 = some [97, 109, 112] from rfl] at h
          exact (Option.some.inj h).symm
        subst hv
        decide
      · exfalso
        have e62 : (c == 62) = false := by simp [h62]
        have e60 : (c == 60) = false := by simp [h60]
        have e38 : (c == 38) = false := by simp [h38]
        have e : HTML_BYTES.lookup c = none := by
          simp [HTML_BYTES, List.lookup, e62, e60, e38]
        rw [e] at h
        exact Option.noConfusion h

/-- A filter payload always comes from the hand tables: CharacterSet::filter
only ever attaches a named hand-table entity. -/
theorem charset_filter_payload (cset : CharacterSet) (ch : Nat) (et : EncodeType)
    (t : EntityType) (v : List Byte)
    (h : cset.filter ch et = (true, some (t, v))) :
    t = EntityType.named ∧ (ch, v) ∈ SPECIAL_BYTES := by
  have hfes : ∀ (tbl : List (Nat × List Byte)),
      filter_entity_set tbl et ch = (true, some (t, v)) →
      t = EntityType.named ∧ tbl.lookup ch = some v := by
    intro tbl htbl
    unfold filter_entity_set at htbl
    cases hlk : tbl.lookup ch with
    | none =>
      rw [hlk] at htbl
      exact absurd htbl (by simp)
    | some w =>
      rw [hlk] at htbl
      have htbl' : (if et.toU8 &&& EncodeType.Named.toU8 > 0 then
          ((true, some (EntityType.named, w)) : EncodeFilterReturnData)
        else (true, none)) = (true, some (t, v)) := htbl
      by_cases hbit : et.toU8 &&& EncodeType.Named.toU8 > 0
      · rw [if_pos hbit] at htbl'
        have h2 : EntityType.named = t ∧ w = v := by
          have := congrArg (fun p => p.2) htbl'
          simpa using this
        rw [h2.2]
        exact ⟨h2.1.symm, rfl⟩
      · rw [if_neg hbit] at htbl'
        exact absurd htbl' (by simp)
  cases cset with
  | All =>
    exfalso
    have := congrArg (fun p => p.2) h
    simp [CharacterSet.filter] at this
  | NonASCII =>
    exfalso
    have := congrArg (fun p => p.2) h
    simp [CharacterSet.filter] at this
  | SpecialChars =>
    obtain ⟨ht, hlk⟩ := hfes SPECIAL_BYTES h
    exact ⟨ht, special_lookup_mem ch v hlk⟩
  | Html =>
    obtain ⟨ht, hlk⟩ := hfes HTML_BYTES h
    exact ⟨ht, html_lookup_mem ch v hlk⟩
  | HtmlAndNonASCII =>
    have h' : (if (decide (ch > 0xff)) = true then
        ((decide (ch > 0xff), none) : EncodeFilterReturnData)
      else filter_entity_set HTML_BYTES et ch) = (true, some (t, v)) := h
    by_cases hff : ch > 0xff
    · rw [if_pos (by simpa using hff)] at h'
      exfalso
      have := congrArg (fun p => p.2) h'
      simp at this
    · rw [if_neg (by simpa using hff)] at h'
      obtain ⟨ht, hlk⟩ := hfes HTML_BYTES h'
      exact ⟨ht, html_lookup_mem ch v hlk⟩
  | SpecialCharsAndNonASCII =>
    have h' : (if (decide (ch > 0xff)) = true then
        ((decide (ch > 0xff), none) : EncodeFilterReturnData)
      else filter_entity_set SPECIAL_BYTES et ch) = (true, some (t, v)) := h
    by_cases hff : ch > 0xff
    · rw [if_pos (by simpa using hff)] at h'
      exfalso
      have := congrArg (fun p => p.2) h'
      simp at this
    · rw [if_neg (by simpa using hff)] at h'
      obtain ⟨ht, hlk⟩ := hfes SPECIAL_BYTES h'
      exact ⟨ht, special_lookup_mem ch v hlk⟩

/-- encode_char in named mode, written through the search result. -/
theorem encode_char_named_inv (d : EntityData) (c : Nat) (et : EncodeType)
    (hbit : et.toU8 &&& EncodeType.Named.toU8 > 0)
    (idx : Nat) (hbs : binary_search_by_code d.ENTITIES c = some idx) :
    encode_char d c et =
      some { entity_type := EntityType.named,
             entity_data :=
               (d.ENTITIES.getD (walk_back d.ENTITIES c idx) ([], 0)).1 } := by
  simp only [encode_char]
  rw [if_pos hbit, hbs]

/-- encode_char falls through to the numeric forms when the named lookup
yields nothing. -/
theorem encode_char_no_named (d : EntityData) (c : Nat) (et : EncodeType)
    (h : (if et.toU8 &&& EncodeType.Named.toU8 > 0 then
        binary_search_by_code d.ENTITIES c else none) = none) :
    encode_char d c et =
      (if et.toU8 &&& EncodeType.Hex.toU8 > 0 then
        some { entity_type := EntityType.hex, entity_data := to_radix_bytes 16 c }
      else if et.toU8 &&& EncodeType.Decimal.toU8 > 0 then
        some { entity_type := EntityType.decimal,
               entity_data := to_radix_bytes 10 c }
      else none) := by
  by_cases hbit : et.toU8 &&& EncodeType.Named.toU8 > 0
  · rw [if_pos hbit] at h
    simp only [encode_char]
    rw [if_pos hbit, h]
  · simp only [encode_char]
    rw [if_neg hbit]

/-- The hex and decimal entities of encode_char decode back to their scalar. -/
theorem encode_char_hexdec_ok (d : EntityData) (c : Nat) (et : EncodeType)
    (hc : is_scalar c = true) (ent : CharEntity)
    (hE : (if et.toU8 &&& EncodeType.Hex.toU8 > 0 then
        some { entity_type := EntityType.hex, entity_data := to_radix_bytes 16 c }
      else if et.toU8 &&& EncodeType.Decimal.toU8 > 0 then
        some { entity_type := EntityType.decimal,
               entity_data := to_radix_bytes 10 c }
      else none) = some ent) :
    SegOK d (Seg.ent (ent.markerBytes ++ ent.entity_data) c) := by
  obtain ⟨hlt, hmod, hle⟩ := is_scalar_facts c hc
  by_cases hhex : et.toU8 &&& EncodeType.Hex.toU8 > 0
  · rw [if_pos hhex] at hE
    have he := Option.some.inj hE
    subst he
    have hparse := to_radix_bytes_parse 16 c (by omega) radix_digit_byte_hex
    have hall := digits_value_all_hex _ 0 c hparse
    refine ⟨by simp [CharEntity.markerBytes], ?_, ?_⟩
    · intro b hb
      rw [show CharEntity.markerBytes
          { entity_type := EntityType.hex, entity_data := to_radix_bytes 16 c } =
        [35, 120] from rfl] at hb
      simp at hb
      rcases hb with hb | hb | hb
      · subst hb
        exact ⟨by decide, by decide⟩
      · subst hb
        exact ⟨by decide, by decide⟩
      · exact hexdigit_ne b (List.all_eq_true.mp hall b hb)
    · show Entity.decode d ([35, 120] ++ to_radix_bytes 16 c) = some c
      rw [show ([35, 120] : List Byte) ++ to_radix_bytes 16 c =
        35 :: 120 :: to_radix_bytes 16 c from rfl]
      rw [entity_decode_hex d 120 (to_radix_bytes 16 c) (Or.inl rfl)
        (to_radix_bytes_ne_nil 16 c) hall]
      rw [numbers_to_char_eval _ 16 c (to_radix_bytes_ne_nil 16 c) hparse,
        if_pos hle, hmod]
      unfold char_from_u32
      rw [if_pos hc]
  · rw [if_neg hhex] at hE
    by_cases hdec : et.toU8 &&& EncodeType.Decimal.toU8 > 0
    · rw [if_pos hdec] at hE
      have he := Option.some.inj hE
      subst he
      have hparse := to_radix_bytes_parse 10 c (by omega) radix_digit_byte_ten
      have hall := digits_value_all_digits _ 0 c hparse
      refine ⟨by simp [CharEntity.markerBytes], ?_, ?_⟩
      · intro b hb
        rw [show CharEntity.markerBytes
            { entity_type := EntityType.decimal,
              entity_data := to_radix_bytes 10 c } = [35] from rfl] at hb
        simp at hb
        rcases hb with hb | hb
        · subst hb
          exact ⟨by decide, by decide⟩
        · exact digit_ne b (List.all_eq_true.mp hall b hb)
      · show Entity.decode d ([35] ++ to_radix_bytes 10 c) = some c
        cases hd10 : to_radix_bytes 10 c with
        | nil => exact absurd hd10 (to_radix_bytes_ne_nil 10 c)
        | cons d0 r =>
          have hp : digits_value 10 (d0 :: r) 0 = some c := by
            rw [← hd10]
            exact hparse
          have hallc : (d0 :: r).all is_ascii_digit = true := by
            rw [← hd10]
            exact hall
          rw [show ([35] : List Byte) ++ d0 :: r = 35 :: d0 :: r from rfl]
          have h1 : is_ascii_digit d0 = true :=
            List.all_eq_true.mp hallc d0 (List.mem_cons_self _ _)
          have h2 : r.all is_ascii_digit = true := by
            rw [List.all_eq_true]
            exact fun x hx =>
              List.all_eq_true.mp hallc x (List.mem_cons_of_mem d0 hx)
          rw [entity_decode_decimal d d0 r h1 h2,
            numbers_to_char_eval _ 10 c (by simp) hp, if_pos hle, hmod]
          unfold char_from_u32
          rw [if_pos hc]
    · rw [if_neg hdec] at hE
      exact Option.noConfusion hE

/-- Every entity produced by encode_char for a scalar forms a well-formed
segment that decodes back to the scalar, provided the table is consistent. -/
theorem encode_char_seg_ok (d : EntityData) (c : Nat) (et : EncodeType)
    (hc : is_scalar c = true) (ht : TableOK d) (ent : CharEntity)
    (hE : encode_char d c et = some ent) :
    SegOK d (Seg.ent (ent.markerBytes ++ ent.entity_data) c) := by
  obtain ⟨hsorted, hcons, hampmem⟩ := ht
  by_cases hbit : et.toU8 &&& EncodeType.Named.toU8 > 0
  · cases hbs : binary_search_by_code d.ENTITIES c with
    | some idx =>
      rw [encode_char_named_inv d c et hbit idx hbs] at hE
      have he := Option.some.inj hE
      subst he
      obtain ⟨hlt, hcode⟩ := binary_search_go_sound d.ENTITIES c
        (d.ENTITIES.length + 1) 0 d.ENTITIES.length idx (Nat.le_refl _) hbs
      obtain ⟨hwle, hwcode, -⟩ := walk_back_spec d.ENTITIES c idx hcode
      have hmem := table_entry_mem d.ENTITIES (walk_back d.ENTITIES c idx)
        (by omega)
      obtain ⟨hwf, hlook⟩ := hcons _ hmem
      refine ⟨?_, ?_, ?_⟩
      · show ([] : List Byte) ++ _ ≠ []
        rw [List.nil_append]
        intro hnil
        have hnil' : (d.ENTITIES.getD (walk_back d.ENTITIES c idx) ([], 0)).1 =
            [] := hnil
        rw [hnil'] at hwf
        simp [wf_name] at hwf
      · intro b hb
        rw [show CharEntity.markerBytes
            { entity_type := EntityType.named,
              entity_data :=
                (d.ENTITIES.getD (walk_back d.ENTITIES c idx) ([], 0)).1 } =
          ([] : List Byte) from rfl, List.nil_append] at hb
        have hall : ∀ x ∈ (d.ENTITIES.getD (walk_back d.ENTITIES c idx)
            ([], 0)).1, is_ascii_alphanumeric x = true := by
          unfold wf_name at hwf
          rw [Bool.and_eq_true, Bool.and_eq_true] at hwf
          exact List.all_eq_true.mp hwf.2
        exact alnum_ne b (hall b hb)
      · show Entity.decode d (([] : List Byte) ++ _) = some c
        rw [List.nil_append, entity_decode_named d _ hwf, hlook, hwcode]
    | none =>
      rw [encode_char_no_named d c et (by rw [if_pos hbit, hbs])] at hE
      exact encode_char_hexdec_ok d c et hc ent hE
  · rw [encode_char_no_named d c et (by rw [if_neg hbit])] at hE
    exact encode_char_hexdec_ok d c et hc ent hE

/-- When some table entry bears the code, encode_char always succeeds. -/
theorem encode_char_some_of_table (d : EntityData) (c : Nat) (et : EncodeType)
    (hsorted : List.Pairwise (· ≤ ·) (d.ENTITIES.map (·.2)))
    (hmem : ∃ k, k < d.ENTITIES.length ∧ (d.ENTITIES.getD k ([], 0)).2 = c) :
    ∃ ent, encode_char d c et = some ent := by
  have hbs : ∃ idx, binary_search_by_code d.ENTITIES c = some idx := by
    obtain ⟨k, hk, hck⟩ := hmem
    obtain ⟨idx, he, -, -, -⟩ := binary_search_go_spec d.ENTITIES c hsorted
      (d.ENTITIES.length + 1) 0 d.ENTITIES.length (Nat.le_refl _) (by omega)
      ⟨k, by omega, hk, hck⟩
    exact ⟨idx, he⟩
  cases et with
  | Hex => exact ⟨_, rfl⟩
  | Decimal => exact ⟨_, rfl⟩
  | Named =>
    obtain ⟨idx, he⟩ := hbs
    exact ⟨_, encode_char_named_inv d c EncodeType.Named (by decide) idx he⟩
  | NamedOrHex =>
    obtain ⟨idx, he⟩ := hbs
    exact ⟨_, encode_char_named_inv d c EncodeType.NamedOrHex (by decide) idx he⟩
  | NamedOrDecimal =>
    obtain ⟨idx, he⟩ := hbs
    exact ⟨_, encode_char_named_inv d c EncodeType.NamedOrDecimal (by decide) idx he⟩

/-- Hand-table names are nonempty, free of `&` and `;`, and well formed. -/
theorem special_names_wf : ∀ p ∈ SPECIAL_BYTES,
    p.2 ≠ [] ∧ (∀ b ∈ p.2, b ≠ 38 ∧ b ≠ 59) ∧ wf_name p.2 = true := by decide

/-- The segment of every scalar under a consistent table is well formed. -/
theorem encode_seg_ok (d : EntityData) (encode_type : EncodeType)
    (charset : CharacterSet) (c : Nat)
    (hc : is_scalar c = true) (ht : TableOK d) (hh : HandOK d)
    (hamp : c = 38 → (charset.filter 38 encode_type).1 = true) :
    SegOK d (encode_seg d encode_type (fun ch et => charset.filter ch et) c) := by
  unfold encode_seg
  rcases hf : charset.filter c encode_type with ⟨need, me⟩
  cases need with
  | false =>
    have hE : encode_filter_entity d encode_type
        (fun ch et => charset.filter ch et) (.correct c 0 0) = none := by
      simp only [encode_filter_entity]
      rw [hf]
    rw [hE]
    refine ⟨hc, ?_⟩
    intro he
    subst he
    have h1 := hamp rfl
    rw [hf] at h1
    simp at h1
  | true =>
    cases me with
    | some payload =>
      rcases payload with ⟨t, v⟩
      have hE : encode_filter_entity d encode_type
          (fun ch et => charset.filter ch et) (.correct c 0 0) =
          some ((0, 0), { entity_type := t, entity_data := v }) := by
        simp only [encode_filter_entity]
        rw [hf]
      rw [hE]
      obtain ⟨htn, hmem⟩ := charset_filter_payload charset c encode_type t v hf
      subst htn
      obtain ⟨hvne, hvbytes, hvwf⟩ := special_names_wf (c, v) hmem
      refine ⟨?_, ?_, ?_⟩
      · show ([] : List Byte) ++ v ≠ []
        rw [List.nil_append]
        exact hvne
      · intro b hb
        rw [show CharEntity.markerBytes
            { entity_type := EntityType.named, entity_data := v } =
          ([] : List Byte) from rfl, List.nil_append] at hb
        exact hvbytes b hb
      · show Entity.decode d (([] : List Byte) ++ v) = some c
        rw [List.nil_append, entity_decode_named d v hvwf]
        exact hh (c, v) hmem
    | none =>
      cases hec : encode_char d c encode_type with
      | some ent =>
        have hE : encode_filter_entity d encode_type
            (fun ch et => charset.filter ch et) (.correct c 0 0) =
            some ((0, 0), ent) := by
          simp only [encode_filter_entity]
          rw [hf, hec]
        rw [hE]
        exact encode_char_seg_ok d c encode_type hc ht ent hec
      | none =>
        have hE : encode_filter_entity d encode_type
            (fun ch et => charset.filter ch et) (.correct c 0 0) = none := by
          simp only [encode_filter_entity]
          rw [hf, hec]
        rw [hE]
        refine ⟨hc, ?_⟩
        intro he
        subst he
        obtain ⟨name, hnm⟩ := ht.2.2
        obtain ⟨k, hk, hgk⟩ := List.mem_iff_getElem.mp hnm
        have hkd : (d.ENTITIES.getD k ([], 0)).2 = 38 := by
          simp [List.getD_eq_getElem?_getD, List.getElem?_eq_getElem hk, hgk]
        have hsorted : List.Pairwise (· ≤ ·) (d.ENTITIES.map (·.2)) :=
          List.pairwise_map.mpr ht.1
        obtain ⟨ent, hsome⟩ := encode_char_some_of_table d 38 encode_type
          hsorted ⟨k, hk, hkd⟩
        rw [hec] at hsome
        exact Option.noConfusion hsome

/-- Every segment decodes to the UTF-8 bytes of its scalar. -/
theorem encode_seg_out (d : EntityData) (encode_type : EncodeType)
    (filter_fn : Nat → EncodeType → EncodeFilterReturnData) (c : Nat) :
    Seg.out (encode_seg d encode_type filter_fn c) = char_to_utf8_bytes c := by
  unfold encode_seg
  cases h : encode_filter_entity d encode_type filter_fn (.correct c 0 0) with
  | some q =>
    rcases q with ⟨r, ent⟩
    rfl
  | none => rfl

/-- C1 (amended): the round trip holds for every scalar stream, every encode
form, and every charset whose filter marks `&` for encoding, over any
consistent table; the NonASCII charset leaves `&` unencoded and breaks the
round trip. -/
theorem spec_c1 (d : EntityData) (cs : List Nat) (encode_type : EncodeType)
    (charset : CharacterSet)
    (hsc : ∀ c ∈ cs, is_scalar c = true)
    (ht : TableOK d) (hh : HandOK d)
    (hamp : (charset.filter 38 encode_type).1 = true) :
    (decode d (encode d ((cs.map char_to_utf8_bytes).flatten) encode_type
        charset).to_bytes).to_bytes =
      (cs.map char_to_utf8_bytes).flatten := by
  have hok : ∀ s ∈ cs.map (encode_seg d encode_type
      (fun ch et => charset.filter ch et)), SegOK d s := by
    intro s hs
    obtain ⟨c, hcmem, rfl⟩ := List.mem_map.mp hs
    exact encode_seg_ok d encode_type charset c (hsc c hcmem) ht hh
      (fun _ => hamp)
  have hE : encode d ((cs.map char_to_utf8_bytes).flatten) encode_type charset =
      encode_with d ((cs.map char_to_utf8_bytes).flatten) encode_type
        (fun ch et => charset.filter ch et) := rfl
  rw [hE, encode_to_bytes_segs d encode_type _ cs hsc,
    decode_segs_to_bytes d _ hok, List.map_map]
  refine congrArg List.flatten ?_
  exact List.map_eq_map_iff.mpr
    (fun c hc => encode_seg_out d encode_type (fun ch et => charset.filter ch et) c)

/-- C1 witness: the two-scalar stream `<&` round-trips through Named
encoding over the Html charset with the concrete table. -/
theorem spec_c1_witness :
    (∀ c ∈ ([60, 38] : List Nat), is_scalar c = true) ∧
    TableOK spec_entity_data ∧
    HandOK spec_entity_data ∧
    (CharacterSet.Html.filter 38 EncodeType.Named).1 = true ∧
    (decode spec_entity_data (encode spec_entity_data
        ((([60, 38] : List Nat).map char_to_utf8_bytes).flatten)
        EncodeType.Named CharacterSet.Html).to_bytes).to_bytes =
      (([60, 38] : List Nat).map char_to_utf8_bytes).flatten :=
  ⟨by decide, ⟨by decide, by decide, ⟨[97, 109, 112], by decide⟩⟩,
    (show HandOK spec_entity_data from by unfold HandOK; decide),
    by decide,
    spec_c1 spec_entity_data [60, 38] EncodeType.Named CharacterSet.Html
      (by decide) ⟨by decide, by decide, ⟨[97, 109, 112], by decide⟩⟩
      (show HandOK spec_entity_data from by unfold HandOK; decide) (by decide)⟩

/-- C1 counterexample: the valid UTF-8 input `&#60;` encoded with the
NonASCII charset passes through unchanged, and decoding then collapses the
accidental numeric entity to `<`, so the round trip fails for this charset
although the original claim quantifies over the whole enumeration. -/
theorem spec_c1_counterexample :
    (decode spec_entity_data (encode spec_entity_data [38, 35, 54, 48, 59]
        EncodeType.Named CharacterSet.NonASCII).to_bytes).to_bytes ≠
      [38, 35, 54, 48, 59] ∧
    ([38, 35, 54, 48, 59] : List Byte) =
      ((([38, 35, 54, 48, 59] : List Nat).map char_to_utf8_bytes).flatten) :=
  ⟨by decide, by decide⟩
